import Mathlib

/-!
# Shallow embedding of `hslam/btree` (generic variant of `btree.go`)

This file embeds the B-tree implementation of the repository (the generic
`Tree[T]` / `Node[T]` variant of `btree.go`) as executable Lean functions and
proves the specification claims about it.

Modelling conventions:

* Go slices of items become `List α`; the user-supplied strict weak order
  `Less a b` is modelled as `key a < key b` for a projection `key : α → κ`
  into a `LinearOrder` (so distinct items may be equal under the derived
  equality, as the replace semantics require; the shipped `Int`/`String`
  instances are the case `key = id`).
* A `*Node` becomes the inductive `BTNode`; the `parent` back pointer is not
  stored (a functional value cannot point at its enclosing value); instead,
  every place where the Go code reads or writes `parent` is modelled at the
  parent's side: `Node.rebalance`, which mutates only data reachable from
  `n.parent`, becomes a function of the parent node, and the check
  `n.parent != nil` inside `Node.delete` becomes the explicit `hasParent`
  argument (`false` exactly for the root call, which is the only node whose
  `parent` is nil in the Go heap).  Iterator navigation along `parent` is
  modelled by a path (list of child indices) from the root, the functional
  image of a parent chain.
* Go's `panic` on out-of-range indices never fires on the well-formed trees
  the claims quantify over; out-of-range reads are totalised with `getD`
  and `default` (`[Inhabited α]` plays the role of Go's zero value `var x T`).
* `Node.maxItems()` is `cap(n.items)`; every node is allocated by
  `newNode(maxItems)` with the tree-wide capacity `2*degree-1` and the code
  never appends beyond it, so the capacity is modelled by the single
  parameter `maxI` threaded through all node functions, and
  `Node.minItems() = cap/2` becomes `maxI / 2`.
-/

set_option linter.unusedSectionVars false

namespace Btree

/-! ## Vectors and nodes (order-free part) -/

/-- `items.insert(index, item)` / `children.insert` (btree.go:1256,1294):
shift `[index..len)` right by one and place `item` at `index`. -/
def listInsertAt {β : Type} (s : List β) (index : Nat) (item : β) : List β :=
  s.take index ++ item :: s.drop index

/-- `items.remove(index)` / `children.remove` (btree.go:1269,1306): shift
`[index+1..len)` left by one and truncate. -/
def listRemoveAt {β : Type} (s : List β) (index : Nat) : List β :=
  s.take index ++ s.drop (index + 1)

/-- A B-tree node (`Node[T]`, btree.go:836-840), with the non-owning
`parent` pointer left implicit (see the file header). -/
inductive BTNode (α : Type) where
  | mk : List α → List (BTNode α) → BTNode α
deriving Repr

variable {α : Type}

/-- The `items` field of a node. -/
def BTNode.items : BTNode α → List α
  | .mk its _ => its

/-- The `children` field of a node. -/
def BTNode.children : BTNode α → List (BTNode α)
  | .mk _ chs => chs

/-- The nil `*Node` pointer (used only as a `getD` default in positions
where the Go code stays within bounds on the trees we quantify over). -/
def nilNode : BTNode α := .mk [] []

@[simp] theorem BTNode.items_mk (its : List α) (chs : List (BTNode α)) :
    (BTNode.mk its chs).items = its := rfl

@[simp] theorem BTNode.children_mk (its : List α) (chs : List (BTNode α)) :
    (BTNode.mk its chs).children = chs := rfl

theorem mem_of_getLast?_eq_some {β : Type} {l : List β} {c : β}
    (h : l.getLast? = some c) : c ∈ l := by
  obtain ⟨hne, rfl⟩ := List.mem_getLast?_eq_getLast (by simpa using h)
  exact List.getLast_mem hne

theorem sizeOf_lt_of_mem_children {c : BTNode α} {its : List α}
    {chs : List (BTNode α)} (h : c ∈ chs) :
    sizeOf c < sizeOf (BTNode.mk its chs) := by
  have := List.sizeOf_lt_of_mem h
  cases its <;> simp [BTNode.mk.sizeOf_spec] <;> omega

/-- `Node.min` (btree.go:1120-1128): descend along first children.
(The nil-receiver branch lives at the call sites that can pass nil,
modelled with `Option`.) -/
def BTNode.minNode : BTNode α → BTNode α
  | .mk its [] => .mk its []
  | .mk _ (c :: _) => BTNode.minNode c

theorem getLastD_mem {β : Type} (d : β) (c : β) (cs : List β) :
    (c :: cs).getLastD d ∈ c :: cs := by
  rw [List.getLastD_eq_getLast?]
  rcases h : (c :: cs).getLast? with _ | y
  · simp at h
  · simpa using mem_of_getLast?_eq_some h

/-- `Node.max` (btree.go:1130-1138): descend along last children
(`children[len(children)-1]` is `getLastD`). -/
def BTNode.maxNode : BTNode α → BTNode α
  | .mk its [] => .mk its []
  | .mk _ (c :: cs) => BTNode.maxNode ((c :: cs).getLastD nilNode)
termination_by n => sizeOf n
decreasing_by
  exact sizeOf_lt_of_mem_children (getLastD_mem _ _ _)

mutual

/-- In-order flattening of a node: the stored items in symmetric order
(`toList c₀ ++ [k₀] ++ toList c₁ ++ … ++ [kₙ₋₁] ++ toList cₙ`). -/
def BTNode.toList : BTNode α → List α
  | .mk its chs => inorderAux chs its
termination_by n => sizeOf n
decreasing_by
  simp [BTNode.mk.sizeOf_spec] <;> omega

/-- In-order flattening of a children/items interleaving. -/
def inorderAux : List (BTNode α) → List α → List α
  | [], its => its
  | c :: cs, [] => c.toList ++ inorderAux cs []
  | c :: cs, k :: ks => c.toList ++ k :: inorderAux cs ks
termination_by chs _ => sizeOf chs
decreasing_by
  all_goals simp
  all_goals omega

end

/-! ## Binary search (`items.search`)

The caller-supplied strict weak order `Less(a, b)` is modelled as
`key a < key b` for a projection `key : α → κ` into a linear order: the
derived equality `!Less(a,b) && !Less(b,a)` then becomes `key a = key b`,
and distinct items may compare equal (as the spec's replace semantics
require).  The shipped `Int`/`String` instances are the case `key = id`. -/

variable {κ : Type} [LinearOrder κ] [Inhabited α] (key : α → κ)

/-- The loop of `items.search` (btree.go:1277-1285): binary search for the
first position `i` with `item < s[i]`; the Go midpoint temporary
`h := int(uint(i+j) >> 1)` is written inline as `(i + j) / 2`. -/
def searchLoop (item : α) (s : List α) (i j : Nat) : Nat :=
  if _h : i < j then
    if ¬ key item < key (s.getD ((i + j) / 2) item) then
      searchLoop item s ((i + j) / 2 + 1) j
    else
      searchLoop item s i ((i + j) / 2)
  else i
termination_by j - i
decreasing_by
  · omega
  · omega

/-- `items.search(item)` (btree.go:1276-1290): returns `(index, ok)`; when
`ok`, `s[index]` is equal to `item` under the derived equality. -/
def itemsSearch (s : List α) (item : α) : Nat × Bool :=
  if searchLoop key item s 0 s.length > 0 ∧
      ¬ key (s.getD (searchLoop key item s 0 s.length - 1) item) < key item then
    (searchLoop key item s 0 s.length - 1, true)
  else (searchLoop key item s 0 s.length, false)

/-! ## Insert (`Node.insert`, `Node.split`) -/

/-- The return channel of `Node.insert` / `Node.split`: the node's own final
state (the in-place mutation of the receiver), the promoted
`(median, right)` pair when `split` is true, and the `ok` flag. -/
structure InsRes (α : Type) where
  self : BTNode α
  promo : Option (α × BTNode α)
  ok : Bool

/-- `Node.split(item)` (btree.go:1140-1162): take the median at
`i = minItems`, move `items[i+1:]` (and `children[i+1:]` when internal) to a
fresh right node, truncate the receiver to the left part, and insert `item`
into the side it belongs to.  The receiver becomes the returned `self`
(Go's `left` is the mutated receiver); the reparenting loop over
`right.children` is implicit here. -/
def splitNode (maxI : Nat) (n : BTNode α) (item : α) : InsRes α :=
  let i := maxI / 2
  let median := n.items.getD i item
  let rightIts := n.items.drop (i + 1)
  let leftIts := n.items.take i
  let rightChs := n.children.drop (i + 1)
  let leftChs := n.children.take (i + 1)
  if key item < key median then
    let index := (itemsSearch key leftIts item).1
    ⟨.mk (listInsertAt leftIts index item) leftChs,
      some (median, .mk rightIts rightChs), true⟩
  else
    let index := (itemsSearch key rightIts item).1
    ⟨.mk leftIts leftChs,
      some (median, .mk (listInsertAt rightIts index item) rightChs), true⟩

/-- `Node.insert(item, nonleaf := true)` (btree.go:945-960): the re-entrant
call inserting a promoted median at this node.  With `nonleaf` true the
children branch is skipped, so the call is non-recursive. -/
def insertNonleaf (maxI : Nat) (n : BTNode α) (item : α) : InsRes α :=
  let (i, existed) := itemsSearch key n.items item
  if existed then ⟨.mk (n.items.set i item) n.children, none, false⟩
  else if n.items.length < maxI then
    ⟨.mk (listInsertAt n.items i item) n.children, none, true⟩
  else splitNode key maxI n item

/-- `Node.insert(item, nonleaf := false)` (btree.go:945-982).  The
`children[i]` read is guarded (`dite`): the Go code would panic out of
range, which never happens on well-formed trees. -/
def nodeInsert (maxI : Nat) : BTNode α → α → InsRes α
  | .mk its chs, item =>
    let (i, existed) := itemsSearch key its item
    if existed then ⟨.mk (its.set i item) chs, none, false⟩
    else if chs.isEmpty then
      if its.length < maxI then ⟨.mk (listInsertAt its i item) chs, none, true⟩
      else splitNode key maxI (.mk its chs) item
    else if h : i < chs.length then
      let res := nodeInsert maxI chs[i] item
      let n1 : BTNode α := .mk its (chs.set i res.self)
      match res.promo with
      | none => ⟨n1, none, res.ok⟩
      | some (m, r) =>
        let res2 := insertNonleaf key maxI n1 m
        let (index, found) := itemsSearch key res2.self.items m
        if found then
          ⟨.mk res2.self.items (listInsertAt res2.self.children (index + 1) r),
            res2.promo, res2.ok⟩
        else
          match res2.promo with
          | some (m2, r2) =>
            let (index2, found2) := itemsSearch key r2.items m
            if found2 then
              ⟨res2.self,
                some (m2, .mk r2.items (listInsertAt r2.children (index2 + 1) r)),
                res2.ok⟩
            else ⟨res2.self, res2.promo, res2.ok⟩
          | none => ⟨res2.self, none, res2.ok⟩
    else ⟨.mk its chs, none, true⟩
termination_by n => sizeOf n
decreasing_by
  exact sizeOf_lt_of_mem_children (chs.getElem_mem h)

/-! ## Trees -/

/-- `Tree[T]` (btree.go:722-727): degree, length and the optional root.
`degree` and `length` are Go `int`s, kept as `Int`. -/
structure BTree (α : Type) where
  degree : Int
  length : Int
  root : Option (BTNode α)

/-- `New(degree)` (btree.go:729-735): `panic("bad degree")` when
`degree <= 1`, modelled as `none`. -/
def NewT (degree : Int) : Option (BTree α) :=
  if degree ≤ 1 then none else some ⟨degree, 0, none⟩

/-- `Tree.MaxItems()` (btree.go:747-750). -/
def BTree.MaxItems (t : BTree α) : Int := t.degree * 2 - 1

/-- `Tree.MinItems()` (btree.go:752-755). -/
def BTree.MinItems (t : BTree α) : Int := t.degree - 1

/-- The node-level capacity of a tree (every node is allocated by
`newNode(t.MaxItems())`). -/
def BTree.maxI (t : BTree α) : Nat := (t.degree * 2 - 1).toNat

/-- `Tree.Insert(item)` (btree.go:794-815). -/
def BTree.Insert (t : BTree α) (item : α) : BTree α :=
  match t.root with
  | none => { t with root := some (.mk [item] []), length := t.length + 1 }
  | some rt =>
    let res := nodeInsert key t.maxI rt item
    let newRoot := match res.promo with
      | some (m, r) => BTNode.mk [m] [res.self, r]
      | none => res.self
    { t with root := some newRoot,
             length := if res.ok then t.length + 1 else t.length }

/-- `Tree.Clear()` (btree.go:817-821). -/
def BTree.Clear (t : BTree α) : BTree α :=
  { t with root := none, length := 0 }

/-! ## Search -/

/-- `Node.search(item)` (btree.go:922-932); Go's zero value `var x T`
becomes `none`, a found item becomes `some`. -/
def nodeSearch : BTNode α → α → Option α
  | .mk its chs, item =>
    let (i, existed) := itemsSearch key its item
    if existed then some (its.getD i item)
    else if h : i < chs.length then nodeSearch chs[i] item
    else none
termination_by n => sizeOf n
decreasing_by
  exact sizeOf_lt_of_mem_children (chs.getElem_mem h)

/-- `Tree.Search(item)` (btree.go:767-774). -/
def BTree.Search (t : BTree α) (item : α) : Option α :=
  match t.root with
  | none => none
  | some rt => nodeSearch key rt item

/-! ## Delete (`Node.delete`, `Node.rebalance`, rotations and merges)

In the Go code a node `n` calls `n.rebalance(parentIndex, nonleaf)` on
itself, but every datum that call reads or writes (`n.parent.items`,
`n.parent.children`, the siblings, and `n`) lives in the subtree rooted at
`p = n.parent`.  The functions below are therefore written as functions of
that parent `p` and the child position `ci` (the Go `parentIndex`), and
`Node.delete` executes the child's rebalance request when the recursive
call returns. -/

/-- `Node.rightSiblingItems(parentIndex)` (btree.go:1050-1055), as a
function of the parent `p`. -/
def rightSiblingItems (p : BTNode α) (ci : Nat) : Nat :=
  if ci ≥ p.children.length - 1 then 0
  else ((p.children.getD (ci + 1) nilNode).items).length

/-- `Node.leftSiblingItems(parentIndex)` (btree.go:1057-1062), as a
function of the parent `p`. -/
def leftSiblingItems (p : BTNode α) (ci : Nat) : Nat :=
  if ci ≤ 0 then 0
  else ((p.children.getD (ci - 1) nilNode).items).length

/-- `Node.rotateLeft(parentIndex, nonleaf)` (btree.go:1064-1075), as a
function of the parent `p` of the rotated node `n = p.children[ci]`. -/
def rotateLeftP (p : BTNode α) (ci : Nat) (nonleaf : Bool) : BTNode α :=
  let n := p.children.getD ci nilNode
  let rightSibling := p.children.getD (ci + 1) nilNode
  let sep := p.items.getD ci default
  let n' : BTNode α :=
    .mk (listInsertAt n.items n.items.length sep)
      (if nonleaf then
        listInsertAt n.children n.children.length
          (rightSibling.children.getD 0 nilNode)
       else n.children)
  let rightSibling' : BTNode α :=
    .mk (listRemoveAt rightSibling.items 0)
      (if nonleaf then listRemoveAt rightSibling.children 0
       else rightSibling.children)
  .mk (p.items.set ci (rightSibling.items.getD 0 default))
    ((p.children.set ci n').set (ci + 1) rightSibling')

/-- `Node.rotateRight(parentIndex, nonleaf)` (btree.go:1077-1088), as a
function of the parent `p` of the rotated node `n = p.children[ci]`. -/
def rotateRightP (p : BTNode α) (ci : Nat) (nonleaf : Bool) : BTNode α :=
  let n := p.children.getD ci nilNode
  let leftSibling := p.children.getD (ci - 1) nilNode
  let sep := p.items.getD (ci - 1) default
  let n' : BTNode α :=
    .mk (listInsertAt n.items 0 sep)
      (if nonleaf then
        listInsertAt n.children 0
          (leftSibling.children.getD (leftSibling.children.length - 1) nilNode)
       else n.children)
  let leftSibling' : BTNode α :=
    .mk (listRemoveAt leftSibling.items (leftSibling.items.length - 1))
      (if nonleaf then
        listRemoveAt leftSibling.children (leftSibling.children.length - 1)
       else leftSibling.children)
  .mk (p.items.set (ci - 1) (leftSibling.items.getD (leftSibling.items.length - 1) default))
    ((p.children.set ci n').set (ci - 1) leftSibling')

/-- `Node.mergeLeft(parentIndex, nonleaf)` (btree.go:1090-1103), as a
function of the parent `p` of the merged node `n = p.children[ci]` (the
right sibling is absorbed into `n`; the reparenting loop is implicit). -/
def mergeLeftP (p : BTNode α) (ci : Nat) (nonleaf : Bool) : BTNode α :=
  let n := p.children.getD ci nilNode
  let right := p.children.getD (ci + 1) nilNode
  let sep := p.items.getD ci default
  let n' : BTNode α :=
    .mk (listInsertAt n.items n.items.length sep ++ right.items)
      (if nonleaf then n.children ++ right.children else n.children)
  .mk (listRemoveAt p.items ci)
    (listRemoveAt (p.children.set ci n') (ci + 1))

/-- `Node.mergeRight(parentIndex, nonleaf)` (btree.go:1105-1118), as a
function of the parent `p` of the merged node `n = p.children[ci]` (`n` is
absorbed into the left sibling). -/
def mergeRightP (p : BTNode α) (ci : Nat) (nonleaf : Bool) : BTNode α :=
  let n := p.children.getD ci nilNode
  let leftSibling := p.children.getD (ci - 1) nilNode
  let sep := p.items.getD (ci - 1) default
  let leftSibling' : BTNode α :=
    .mk (listInsertAt leftSibling.items leftSibling.items.length sep ++ n.items)
      (if nonleaf then leftSibling.children ++ n.children
       else leftSibling.children)
  .mk (listRemoveAt p.items (ci - 1))
    (listRemoveAt (p.children.set (ci - 1) leftSibling') ci)

/-- `Node.rebalance(parentIndex, nonleaf)` (btree.go:1032-1048), as a
function of the parent `p` of the under-full node `p.children[ci]`. -/
def rebalanceP (maxI : Nat) (p : BTNode α) (ci : Nat) (nonleaf : Bool) :
    BTNode α :=
  let minI := maxI / 2
  let rsi := rightSiblingItems p ci
  if rsi > minI then rotateLeftP p ci nonleaf
  else
    let lsi := leftSiblingItems p ci
    if lsi > minI then rotateRightP p ci nonleaf
    else if rsi > 0 then mergeLeftP p ci nonleaf
    else if lsi > 0 then mergeRightP p ci nonleaf
    else p

/-- The return channel of `Node.delete`: `self` is the receiver's final
in-place state (before any rebalance executed through the parent pointer),
`rootRet` is the Go `root` return value (consulted only by `Tree.Delete`),
`ok` reports whether an item was removed, and `reb = some nonleaf` records
that the Go code called `n.rebalance(parentIndex, nonleaf)` through the
parent pointer, to be executed by the caller. -/
structure DelRes (α : Type) where
  self : BTNode α
  rootRet : Option (BTNode α)
  ok : Bool
  reb : Option Bool

/-- The separator-replacement step of `Node.delete` (btree.go:1001-1012),
reached when the key was found at index `i` of an internal node:
`leftMax := children[i].max()`, `rightMin := children[i+1].min()`; the leaf
with more items wins (ties to the right); its extreme item overwrites
`items[i]` and becomes the new search target; the descent index is `i`
(left chosen) or `i+1` (right chosen).  Returns
`(descent index, new target, new items)`. -/
def sepReplace (its : List α) (chs : List (BTNode α)) (i : Nat) (item : α) :
    Nat × α × List α :=
  let leftMax := (chs.getD i nilNode).maxNode
  let rightMin := (chs.getD (i + 1) nilNode).minNode
  if leftMax.items.length > rightMin.items.length then
    let newSeparator := leftMax.items.getD (leftMax.items.length - 1) item
    (i, newSeparator, its.set i newSeparator)
  else
    let newSeparator := rightMin.items.getD 0 item
    (i + 1, newSeparator, its.set i newSeparator)

/-- `Node.delete(item, parentIndex)` (btree.go:984-1030).  `hasParent`
models `n.parent != nil` (false exactly for the root call); a returned
`reb` request is executed here, at the parent, when the recursive call
comes back — the net effect on the tree is that of the Go code, which
performs the same mutation through the parent pointer before returning.
(The `n == nil` receiver case lives at the only call site that can pass
nil, `Tree.Delete`.) -/
def nodeDelete (maxI : Nat) : BTNode α → α → Bool → DelRes α
  | .mk its chs, item, hasParent =>
    let (i, existed) := itemsSearch key its item
    if existed ∧ chs.isEmpty then
      let its' := listRemoveAt its i
      let selfN : BTNode α := .mk its' chs
      { self := selfN
        rootRet := if its'.length > 0 then some selfN else none
        ok := true
        reb := if hasParent ∧ its'.length < maxI / 2 then some false else none }
    else
      let step : Nat × α × List α :=
        if existed then sepReplace its chs i item
        else (i, item, its)
      let i2 := step.1
      let item2 := step.2.1
      let its2 := step.2.2
      if h : i2 < chs.length then
        let cres := nodeDelete maxI chs[i2] item2 true
        let n1 : BTNode α := .mk its2 (chs.set i2 cres.self)
        let n2 := match cres.reb with
          | some nl => rebalanceP maxI n1 i2 nl
          | none => n1
        if hasParent then
          { self := n2, rootRet := some n2, ok := cres.ok
            reb := if n2.items.length < maxI / 2 then some true else none }
        else
          { self := n2
            rootRet :=
              if n2.items.length = 0 ∧ n2.children.length > 0 then
                some (n2.children.getD 0 nilNode)
              else some n2
            ok := cres.ok
            reb := none }
      else
        { self := .mk its2 chs, rootRet := some (.mk its2 chs), ok := false
          reb := none }
termination_by n => sizeOf n
decreasing_by
  exact sizeOf_lt_of_mem_children (chs.getElem_mem h)

/-- `Tree.Delete(item)` (btree.go:823-833); the nil-root receiver returns
`(nil, false)` (btree.go:985-987), and the `root.parent = nil` repair is
implicit in the functional model. -/
def BTree.Delete (t : BTree α) (item : α) : BTree α :=
  match t.root with
  | none => { t with root := none }
  | some rt =>
    let res := nodeDelete key t.maxI rt item false
    { t with root := res.rootRet,
             length := if res.ok then t.length - 1 else t.length }

/-! ## Operation sequences -/

/-- One public mutating call. -/
inductive Op (α : Type) where
  | ins (x : α)
  | del (x : α)

/-- Apply one operation. -/
def applyOp (t : BTree α) : Op α → BTree α
  | .ins x => t.Insert key x
  | .del x => t.Delete key x

/-- The tree obtained from `New(degree)` by a sequence of `Insert`/`Delete`
calls. -/
def applyOps (degree : Int) (ops : List (Op α)) : BTree α :=
  ops.foldl (applyOp key) ⟨degree, 0, none⟩

/-! ## Well-formedness

`WFB key maxI h isRoot n`: the node invariants of spec §3, with `h` the
(uniform) height of `n`.  Order is recorded as strict sortedness of the
keys of the in-order flattening, which is equivalent to "each node's items
strictly increase and each child's keys lie strictly between the adjacent
separators" (proved below). -/

/-- The keys of a list of items. -/
def keys (l : List α) : List κ := l.map key

inductive WFB (key : α → κ) (maxI : Nat) : Nat → Bool → BTNode α → Prop where
  | leaf : ∀ (its : List α) (isRoot : Bool),
      (isRoot = true → 1 ≤ its.length) →
      (isRoot = false → maxI / 2 ≤ its.length) →
      its.length ≤ maxI →
      (keys key its).Pairwise (· < ·) →
      WFB key maxI 0 isRoot (.mk its [])
  | internal : ∀ (its : List α) (chs : List (BTNode α)) (h : Nat)
      (isRoot : Bool),
      chs.length = its.length + 1 →
      (isRoot = true → 1 ≤ its.length) →
      (isRoot = false → maxI / 2 ≤ its.length) →
      its.length ≤ maxI →
      (∀ c ∈ chs, WFB key maxI h false c) →
      (keys key (BTNode.toList (.mk its chs))).Pairwise (· < ·) →
      WFB key maxI (h + 1) isRoot (.mk its chs)

/-- Well-formedness of a whole tree: a valid degree, a root that is `none`
exactly when empty, node invariants below the root, and a `length` equal to
the number of stored items. -/
def WFT (t : BTree α) : Prop :=
  2 ≤ t.degree ∧
  match t.root with
  | none => t.length = 0
  | some rt => ∃ h, WFB key t.maxI h true rt ∧
      t.length = ((BTNode.toList rt).length : Int)

/-! ## Located nodes and iterators

A Go `*Node` reached from a tree is modelled by the pair of the root and
the list of child indices leading to the node (`Loc`); `parent` is the
one-step-shorter location, which is what the correct parent pointer of the
heap denotes. -/

/-- The node of `root` at child-index path `path`. -/
def nodeAt? : BTNode α → List Nat → Option (BTNode α)
  | n, [] => some n
  | n, i :: p =>
    match n.children[i]? with
    | some c => nodeAt? c p
    | none => none

/-- A located node: the root and the child-index path to the node. -/
structure Loc (α : Type) where
  root : BTNode α
  path : List Nat

/-- The node a location denotes (total form; locations produced by the
modelled API always denote). -/
def Loc.getN (l : Loc α) : BTNode α := (nodeAt? l.root l.path).getD nilNode

/-- `Node.Parent()` on a located node: nil for the root
(btree.go:862-868 together with the parent-pointer discipline). -/
def locParent (l : Loc α) : Option (Loc α) :=
  if l.path = [] then none else some ⟨l.root, l.path.dropLast⟩

/-- The child-index path of the descent `Node.min` performs. -/
def minDescentPath : BTNode α → List Nat
  | .mk _ [] => []
  | .mk _ (c :: _) => 0 :: minDescentPath c

/-- The child-index path of the descent `Node.max` performs. -/
def maxDescentPath : BTNode α → List Nat
  | .mk _ [] => []
  | .mk _ (c :: cs) =>
    cs.length :: maxDescentPath ((c :: cs).getLastD nilNode)
termination_by n => sizeOf n
decreasing_by
  exact sizeOf_lt_of_mem_children (getLastD_mem _ _ _)

/-- `Tree.Min()` (btree.go:762-765): `t.root.min()`, nil on the empty
tree, as a location. -/
def BTree.Min (t : BTree α) : Option (Loc α) :=
  match t.root with
  | none => none
  | some rt => some ⟨rt, minDescentPath rt⟩

/-- `Tree.Max()` (btree.go:757-760): `t.root.max()`, nil on the empty
tree, as a location. -/
def BTree.Max (t : BTree α) : Option (Loc α) :=
  match t.root with
  | none => none
  | some rt => some ⟨rt, maxDescentPath rt⟩

/-- `Node.parentIndex()` (btree.go:894-906) on a located node: `-1` for
the root, else the binary-search position of `n.items[0]` in the parent's
items when that position indexes a child, `-1` otherwise. -/
def parentIndexF (l : Loc α) : Int :=
  match locParent l with
  | none => -1
  | some pl =>
    let p := pl.getN
    let n := l.getN
    let i := (itemsSearch key p.items (n.items.getD 0 default)).1
    if i < p.children.length then (i : Int) else -1

/-- `Iterator[T]` (btree.go:1164-1169): item index, cached parent index,
and the node (as a location). -/
structure Iter (α : Type) where
  index : Int
  parentIndex : Int
  node : Loc α

/-- `Node.Iterator(index)` (btree.go:870-876), on an optional (possibly
nil) located node. -/
def IteratorM (l? : Option (Loc α)) (index : Int) : Option (Iter α) :=
  match l? with
  | none => none
  | some l => some ⟨index, parentIndexF key l, l⟩

/-- `Node.MinIterator()` (btree.go:878-884). -/
def MinIteratorM (l? : Option (Loc α)) : Option (Iter α) :=
  match l? with
  | none => none
  | some l => IteratorM key (some l) 0

/-- `Node.MaxIterator()` (btree.go:886-892). -/
def MaxIteratorM (l? : Option (Loc α)) : Option (Iter α) :=
  match l? with
  | none => none
  | some l => IteratorM key (some l) ((l.getN.items.length : Int) - 1)

/-- `Iterator.Item()` (btree.go:1171-1178): the zero value on the nil
iterator, else `node.items[index]`. -/
def ItemM (it? : Option (Iter α)) : α :=
  match it? with
  | none => default
  | some it => (it.node.getN.items).getD it.index.toNat default

/-- `Iterator.Clone()` (btree.go:1180-1186). -/
def CloneM (it? : Option (Iter α)) : Option (Iter α) :=
  match it? with
  | none => none
  | some it => some ⟨it.index, it.parentIndex, it.node⟩

/-- `Iterator.reset(n, index)` (btree.go:1188-1196) for a non-nil node:
recompute the cached parent index. -/
def resetF (l : Loc α) (index : Int) : Option (Iter α) :=
  some ⟨index, parentIndexF key l, l⟩

/-- The upward loop of `Iterator.Last` (btree.go:1215-1219):
`for p != nil && parentIndex == 0 { left = p; parentIndex = p.parentIndex(); p = left.parent }`. -/
def lastLoop : Option (Loc α) → Int → Option (Loc α) × Int
  | none, pi => (none, pi)
  | some p, pi =>
    if pi = 0 then lastLoop (locParent p) (parentIndexF key p)
    else (some p, pi)
termination_by l _ => (match l with | none => 0 | some p => p.path.length + 1)
decreasing_by
  cases hp : p.path with
  | nil => simp [locParent, hp]
  | cons a l => simp [locParent, hp]

/-- `Iterator.Last()` (btree.go:1198-1224). -/
def LastM (it? : Option (Iter α)) : Option (Iter α) :=
  match it? with
  | none => none
  | some it =>
    let n := it.node.getN
    if n.children.length > 0 then
      let childLoc : Loc α := ⟨it.node.root, it.node.path ++ [it.index.toNat]⟩
      let maxLoc : Loc α :=
        ⟨it.node.root, childLoc.path ++ maxDescentPath childLoc.getN⟩
      resetF key maxLoc ((maxLoc.getN.items.length : Int) - 1)
    else if it.index > 0 then some { it with index := it.index - 1 }
    else
      let pp := lastLoop key (locParent it.node) it.parentIndex
      if pp.2 > 0 then
        match pp.1 with
        | some pl => resetF key pl (pp.2 - 1)
        | none => none
      else none

/-- The upward loop of `Iterator.Next` (btree.go:1243-1247):
`for p != nil && parentIndex == len(p.children)-1 { … }`. -/
def nextLoop : Option (Loc α) → Int → Option (Loc α) × Int
  | none, pi => (none, pi)
  | some p, pi =>
    if pi = (p.getN.children.length : Int) - 1 then
      nextLoop (locParent p) (parentIndexF key p)
    else (some p, pi)
termination_by l _ => (match l with | none => 0 | some p => p.path.length + 1)
decreasing_by
  cases hp : p.path with
  | nil => simp [locParent, hp]
  | cons a l => simp [locParent, hp]

/-- `Iterator.Next()` (btree.go:1226-1252). -/
def NextM (it? : Option (Iter α)) : Option (Iter α) :=
  match it? with
  | none => none
  | some it =>
    let n := it.node.getN
    if n.children.length > 0 ∧ it.index < (n.items.length : Int) then
      let childLoc : Loc α :=
        ⟨it.node.root, it.node.path ++ [(it.index + 1).toNat]⟩
      let minLoc : Loc α :=
        ⟨it.node.root, childLoc.path ++ minDescentPath childLoc.getN⟩
      resetF key minLoc 0
    else if it.index < (n.items.length : Int) - 1 then
      some { it with index := it.index + 1 }
    else
      let pp := nextLoop key (locParent it.node) it.parentIndex
      if pp.2 > -1 then
        match pp.1 with
        | some pl =>
          if pp.2 < (pl.getN.items.length : Int) then resetF key pl pp.2
          else none
        | none => none
      else none

/-! ## Nil-receiver accessor models (claim C10) -/

/-- `Node.Items()` (btree.go:846-852): nil on the nil node. -/
def ItemsM (n? : Option (BTNode α)) : Option (List α) :=
  match n? with
  | none => none
  | some n => some n.items

/-- `Node.Children()` (btree.go:854-860): nil on the nil node. -/
def ChildrenM (n? : Option (BTNode α)) : Option (List (BTNode α)) :=
  match n? with
  | none => none
  | some n => some n.children

/-- `Node.Parent()` (btree.go:862-868): nil on the nil node. -/
def ParentM (l? : Option (Loc α)) : Option (Loc α) :=
  match l? with
  | none => none
  | some l => locParent l

/-! ## The claim C5 reading of the separator-replacement step

Modelled from the spec: claim C5 words the step with
`right_min = children[i+1].max()` (`Node.max`, the rightmost leaf) where
the code (btree.go:1002) computes `children[i+1].min()`.  This definition
follows the claim's words; it is compared against `sepReplace` (the code)
to refute the claim as stated. -/
def sepReplaceClaimC5 (its : List α) (chs : List (BTNode α)) (i : Nat)
    (item : α) : Nat × α × List α :=
  let leftMax := (chs.getD i nilNode).maxNode
  let rightMin := (chs.getD (i + 1) nilNode).maxNode
  if leftMax.items.length > rightMin.items.length then
    let newSeparator := leftMax.items.getD (leftMax.items.length - 1) item
    (i, newSeparator, its.set i newSeparator)
  else
    let newSeparator := rightMin.items.getD 0 item
    (i + 1, newSeparator, its.set i newSeparator)

/-! ## Specification models: insertion into / removal from a key-sorted list -/

/-- Insert `x` into a key-sorted list, replacing an equal-keyed element. -/
def insKeyList (x : α) : List α → List α
  | [] => [x]
  | y :: ys =>
    if key x < key y then x :: y :: ys
    else if key y < key x then y :: insKeyList x ys
    else x :: ys

/-- Remove the (first) element whose key equals `key x`. -/
def delKeyList (x : α) : List α → List α
  | [] => []
  | y :: ys => if key y = key x then ys else y :: delKeyList x ys

end Btree

namespace Btree
variable {α κ : Type} [LinearOrder κ] [Inhabited α] (key : α → κ)

theorem searchLoop_eq_left {x : α} {s : List α} {i j : Nat} (h1 : i < j)
    (h2 : key x < key (s.getD ((i + j) / 2) x)) :
    searchLoop key x s i j = searchLoop key x s i ((i + j) / 2) := by
  rw [searchLoop, dif_pos h1, if_neg (not_not_intro h2)]

theorem searchLoop_eq_right {x : α} {s : List α} {i j : Nat} (h1 : i < j)
    (h2 : ¬ key x < key (s.getD ((i + j) / 2) x)) :
    searchLoop key x s i j = searchLoop key x s ((i + j) / 2 + 1) j := by
  rw [searchLoop, dif_pos h1, if_pos h2]

theorem searchLoop_eq_base {x : α} {s : List α} {i j : Nat} (h1 : ¬ i < j) :
    searchLoop key x s i j = i := by
  rw [searchLoop, dif_neg h1]

theorem searchLoop_bounds (x : α) (s : List α) (i j : Nat) (hij : i ≤ j) :
    i ≤ searchLoop key x s i j ∧ searchLoop key x s i j ≤ j := by
  induction i, j using searchLoop.induct key x s with
  | case1 i j h1 h2 ih =>
    rw [searchLoop_eq_right key h1 h2]
    have := ih (by omega)
    omega
  | case2 i j h1 h2 ih =>
    rw [searchLoop_eq_left key h1 (not_not.mp h2)]
    have := ih (by omega)
    omega
  | case3 i j h1 =>
    rw [searchLoop_eq_base key h1]
    omega

/-- Strict key-sortedness of an items vector. -/
def ItemsSorted (s : List α) : Prop := s.Pairwise (fun a b => key a < key b)

theorem searchLoop_spec (x : α) (s : List α)
    (hs : ItemsSorted key s) (i j : Nat)
    (hij : i ≤ j) (hj : j ≤ s.length)
    (hlo : ∀ k, k < i → (hk : k < s.length) → ¬ key x < key s[k])
    (hhi : ∀ k, j ≤ k → (hk : k < s.length) → key x < key s[k]) :
    (∀ k, k < searchLoop key x s i j → (hk : k < s.length) → ¬ key x < key s[k]) ∧
    (∀ k, searchLoop key x s i j ≤ k → (hk : k < s.length) → key x < key s[k]) := by
  have hmono : ∀ a b (ha : a < s.length) (hb : b < s.length), a < b →
      key s[a] < key s[b] := fun a b ha hb hab =>
    (List.pairwise_iff_getElem.mp hs) a b ha hb hab
  induction i, j using searchLoop.induct key x s with
  | case1 i j h1 h2 ih =>
    rw [searchLoop_eq_right key h1 h2]
    have hm : (i + j) / 2 < s.length := by omega
    rw [List.getD_eq_getElem s x hm] at h2
    refine ih (by omega) hj ?_ hhi
    intro k hk hkl
    rcases Nat.lt_or_ge k ((i + j) / 2) with hlt | hge
    · exact fun hcon => h2 (lt_trans hcon (hmono k ((i+j)/2) hkl hm hlt))
    · have : k = (i + j) / 2 := by omega
      subst this
      exact h2
  | case2 i j h1 h2 ih =>
    have h2' := not_not.mp h2
    rw [searchLoop_eq_left key h1 h2']
    have hm : (i + j) / 2 < s.length := by omega
    rw [List.getD_eq_getElem s x hm] at h2'
    refine ih (by omega) (by omega) hlo ?_
    intro k hk hkl
    rcases Nat.lt_or_ge ((i + j) / 2) k with hlt | hge
    · exact lt_trans h2' (hmono _ _ hm hkl hlt)
    · have : k = (i + j) / 2 := by omega
      subst this
      exact h2'
  | case3 i j h1 =>
    rw [searchLoop_eq_base key h1]
    have hij' : i = j := by omega
    subst hij'
    exact ⟨hlo, fun k hk hkl => hhi k hk hkl⟩

theorem searchLoop_main (x : α) (s : List α) (hs : ItemsSorted key s) :
    (∀ k, k < searchLoop key x s 0 s.length → (hk : k < s.length) → ¬ key x < key s[k]) ∧
    (∀ k, searchLoop key x s 0 s.length ≤ k → (hk : k < s.length) → key x < key s[k]) :=
  searchLoop_spec key x s hs 0 s.length (Nat.zero_le _) le_rfl
    (fun k hk _ => absurd hk (Nat.not_lt_zero k))
    (fun k hk hkl => absurd hk (by omega))

theorem itemsSearch_cases (x : α) (s : List α) :
    (0 < searchLoop key x s 0 s.length ∧
      ¬ key (s.getD (searchLoop key x s 0 s.length - 1) x) < key x ∧
      itemsSearch key s x = (searchLoop key x s 0 s.length - 1, true)) ∨
    (¬(searchLoop key x s 0 s.length > 0 ∧
        ¬ key (s.getD (searchLoop key x s 0 s.length - 1) x) < key x) ∧
      itemsSearch key s x = (searchLoop key x s 0 s.length, false)) := by
  by_cases hc : searchLoop key x s 0 s.length > 0 ∧
      ¬ key (s.getD (searchLoop key x s 0 s.length - 1) x) < key x
  · exact Or.inl ⟨hc.1, hc.2, by rw [itemsSearch, if_pos hc]⟩
  · exact Or.inr ⟨hc, by rw [itemsSearch, if_neg hc]⟩

theorem itemsSearch_fst_le (x : α) (s : List α) :
    (itemsSearch key s x).1 ≤ s.length := by
  have hb := searchLoop_bounds key x s 0 s.length (Nat.zero_le _)
  rcases itemsSearch_cases key x s with ⟨-, -, heq⟩ | ⟨-, heq⟩ <;> rw [heq] <;>
    simp <;> omega

theorem itemsSearch_lt_of_found (x : α) (s : List α)
    (hf : (itemsSearch key s x).2 = true) : (itemsSearch key s x).1 < s.length := by
  have hb := searchLoop_bounds key x s 0 s.length (Nat.zero_le _)
  rcases itemsSearch_cases key x s with ⟨hpos, -, heq⟩ | ⟨-, heq⟩ <;>
    rw [heq] at hf ⊢
  · simp only
    omega
  · simp at hf

theorem itemsSearch_found_spec (x : α) (s : List α) (hs : ItemsSorted key s)
    (hf : (itemsSearch key s x).2 = true) :
    ∃ hlt : (itemsSearch key s x).1 < s.length,
      key (s[(itemsSearch key s x).1]) = key x ∧
      (∀ k, (hk : k < s.length) → k < (itemsSearch key s x).1 → key s[k] < key x) ∧
      (∀ k, (hk : k < s.length) → (itemsSearch key s x).1 < k → key x < key s[k]) := by
  have hb := searchLoop_bounds key x s 0 s.length (Nat.zero_le _)
  have hm := searchLoop_main key x s hs
  have hmono : ∀ a b (ha : a < s.length) (hb : b < s.length), a < b →
      key s[a] < key s[b] := fun a b ha hb hab =>
    (List.pairwise_iff_getElem.mp hs) a b ha hb hab
  rcases itemsSearch_cases key x s with ⟨hpos, hnl, heq⟩ | ⟨-, heq⟩
  · rw [heq] at hf ⊢
    simp only
    have hr1 : searchLoop key x s 0 s.length - 1 < s.length := by omega
    have hxle : key x ≤ key s[searchLoop key x s 0 s.length - 1] := by
      rw [List.getD_eq_getElem s x hr1] at hnl
      exact not_lt.mp hnl
    have heq2 : key s[searchLoop key x s 0 s.length - 1] = key x :=
      le_antisymm (not_lt.mp (hm.1 _ (by omega) hr1)) hxle
    refine ⟨hr1, heq2, ?_, ?_⟩
    · intro k hk hklt
      exact lt_of_lt_of_le (hmono _ _ hk hr1 hklt) (le_of_eq heq2)
    · intro k hk hkgt
      exact hm.2 _ (by omega) hk
  · rw [heq] at hf
    simp at hf

theorem itemsSearch_not_found_spec (x : α) (s : List α) (hs : ItemsSorted key s)
    (hf : (itemsSearch key s x).2 = false) :
    (∀ k, (hk : k < s.length) → k < (itemsSearch key s x).1 → key s[k] < key x) ∧
    (∀ k, (hk : k < s.length) → (itemsSearch key s x).1 ≤ k → key x < key s[k]) := by
  have hb := searchLoop_bounds key x s 0 s.length (Nat.zero_le _)
  have hm := searchLoop_main key x s hs
  have hmono : ∀ a b (ha : a < s.length) (hb : b < s.length), a < b →
      key s[a] < key s[b] := fun a b ha hb hab =>
    (List.pairwise_iff_getElem.mp hs) a b ha hb hab
  rcases itemsSearch_cases key x s with ⟨-, -, heq⟩ | ⟨hcond, heq⟩
  · rw [heq] at hf
    simp at hf
  · rw [heq]
    simp only
    push_neg at hcond
    constructor
    · intro k hk hklt
      have hpos : 0 < searchLoop key x s 0 s.length := by omega
      have hr1 : searchLoop key x s 0 s.length - 1 < s.length := by omega
      have hlast : key s[searchLoop key x s 0 s.length - 1] < key x := by
        have := hcond hpos
        rwa [List.getD_eq_getElem s x hr1] at this
      rcases Nat.lt_or_ge k (searchLoop key x s 0 s.length - 1) with hlt2 | hge2
      · exact lt_trans (hmono _ _ hk hr1 hlt2) hlast
      · have : k = searchLoop key x s 0 s.length - 1 := by omega
        subst this
        exact hlast
    · intro k hk hkge
      exact hm.2 _ hkge hk

theorem itemsSearch_found_iff (x : α) (s : List α) (hs : ItemsSorted key s) :
    (itemsSearch key s x).2 = true ↔ key x ∈ s.map key := by
  constructor
  · intro hf
    obtain ⟨hlt, heq, -, -⟩ := itemsSearch_found_spec key x s hs hf
    exact heq ▸ List.mem_map_of_mem key (s.getElem_mem hlt)
  · intro hmem
    by_contra hnf
    have hnf' : (itemsSearch key s x).2 = false := by
      cases h : (itemsSearch key s x).2 <;> simp_all
    obtain ⟨h1, h2⟩ := itemsSearch_not_found_spec key x s hs hnf'
    obtain ⟨y, hy, hkey⟩ := List.mem_map.mp hmem
    obtain ⟨k, hk, rfl⟩ := List.getElem_of_mem hy
    rcases Nat.lt_or_ge k (itemsSearch key s x).1 with hlt | hge
    · have := h1 k hk hlt
      rw [hkey] at this
      exact lt_irrefl _ this
    · have := h2 k hk hge
      rw [hkey] at this
      exact lt_irrefl _ this

end Btree

namespace Btree
variable {α κ : Type} [LinearOrder κ] [Inhabited α] (key : α → κ)

/-- C6: when the key was found in a node with the internal-node arity
invariant `|children| = |items| + 1`, the descent guard
`len(children) > i` of `Node.delete` holds even after the index was
incremented by the separator-replacement step, so the no-recursion branch
is unreachable. -/
theorem C6_delete_descent_guard (its : List α) (chs : List (BTNode α)) (x : α)
    (harity : chs.length = its.length + 1)
    (hfound : (itemsSearch key its x).2 = true) :
    (sepReplace its chs (itemsSearch key its x).1 x).1 < chs.length := by
  have hlt := itemsSearch_lt_of_found key x its hfound
  simp only [sepReplace]
  split <;> dsimp only <;> omega

theorem C6_witness :
    ([(5:Int)], [BTNode.mk [(3:Int)] [], BTNode.mk [(8:Int)] []]).2.length =
        [(5:Int)].length + 1 ∧
    (itemsSearch (fun z : Int => z) [(5:Int)] 5).2 = true ∧
    (sepReplace [(5:Int)] [BTNode.mk [(3:Int)] [], BTNode.mk [(8:Int)] []]
        (itemsSearch (fun z : Int => z) [(5:Int)] 5).1 5).1 <
      [BTNode.mk [(3:Int)] [], BTNode.mk [(8:Int)] []].length :=
  ⟨by decide, by simp +decide [itemsSearch, searchLoop],
    C6_delete_descent_guard (fun z : Int => z) [(5:Int)]
      [BTNode.mk [(3:Int)] [], BTNode.mk [(8:Int)] []] 5 (by decide)
      (by simp +decide [itemsSearch, searchLoop])⟩

/-- C9: `New(degree)` fails (panics) iff `degree < 2`; an accepted degree
yields an empty tree with `MaxItems = 2*degree-1`, `MinItems = degree-1`;
in particular `New(2)` succeeds with `MaxItems 3`, `MinItems 1` while
`New(0)` and `New(1)` fail. -/
theorem C9_new_guardrails (degree : Int) :
    ((NewT (α := α) degree).isSome ↔ 2 ≤ degree) ∧
    (∀ t : BTree α, NewT degree = some t →
      t.root = none ∧ t.length = 0 ∧
      t.MaxItems = 2 * degree - 1 ∧ t.MinItems = degree - 1) ∧
    NewT (α := α) 0 = none ∧ NewT (α := α) 1 = none := by
  refine ⟨?_, ?_, by unfold NewT; norm_num, by unfold NewT; norm_num⟩
  · unfold NewT
    split <;> simp <;> omega
  · intro t ht
    unfold NewT at ht
    split at ht
    · simp at ht
    · rw [Option.some_inj] at ht
      subst ht
      refine ⟨rfl, rfl, ?_, ?_⟩ <;>
        simp [BTree.MaxItems, BTree.MinItems] <;> ring

theorem C9_witness :
    (NewT (α := Int) 2).isSome ∧
    ∃ t : BTree Int, NewT 2 = some t ∧ t.root = none ∧ t.length = 0 ∧
      t.MaxItems = 3 ∧ t.MinItems = 1 := by
  have h := C9_new_guardrails (α := Int) 2
  refine ⟨h.1.mpr (by norm_num), ⟨2, 0, none⟩, ?_⟩
  have h2 := h.2.1 ⟨2, 0, none⟩ (by unfold NewT; norm_num)
  exact ⟨by unfold NewT; norm_num, h2.1, h2.2.1, by simpa using h2.2.2.1,
    by simpa using h2.2.2.2⟩

/-- C10: the exported accessors are total on nil receivers: `Items`,
`Children`, `Parent`, `Iterator`, `MinIterator`, `MaxIterator` on the nil
node return nil; `Item` on the nil iterator returns the zero value;
`Clone`, `Next`, `Last` on the nil iterator return nil; `Delete` on a tree
with a nil root is a no-op. -/
theorem C10_nil_receivers (x : α) (idx d len : Int) :
    ItemsM (none : Option (BTNode α)) = none ∧
    ChildrenM (none : Option (BTNode α)) = none ∧
    ParentM (none : Option (Loc α)) = none ∧
    IteratorM key (none : Option (Loc α)) idx = none ∧
    MinIteratorM key (none : Option (Loc α)) = none ∧
    MaxIteratorM key (none : Option (Loc α)) = none ∧
    ItemM (none : Option (Iter α)) = default ∧
    CloneM (none : Option (Iter α)) = none ∧
    NextM key (none : Option (Iter α)) = none ∧
    LastM key (none : Option (Iter α)) = none ∧
    BTree.Delete key ⟨d, len, none⟩ x = ⟨d, len, none⟩ :=
  ⟨rfl, rfl, rfl, rfl, rfl, rfl, rfl, rfl, rfl, rfl, rfl⟩

/-- C5, counterexample: the claim says the delete step computes
`right_min = children[i+1].max()`; the code computes `children[i+1].min()`
(btree.go:1002).  At this tree (root separator 50, right subtree
`[70] → [60], [80,90]`) the claim's reading would promote `80` as the new
separator, while the code promotes `60` — as executing the full `Delete`
confirms. -/
theorem C5_counterexample :
    (sepReplaceClaimC5 [(50:Int)]
        [BTNode.mk [20] [BTNode.mk [10] [], BTNode.mk [30] []],
         BTNode.mk [70] [BTNode.mk [60] [], BTNode.mk [80, 90] []]]
        0 50).2.1 = 80 ∧
    (sepReplace [(50:Int)]
        [BTNode.mk [20] [BTNode.mk [10] [], BTNode.mk [30] []],
         BTNode.mk [70] [BTNode.mk [60] [], BTNode.mk [80, 90] []]]
        0 50).2.1 = 60 ∧
    (sepReplaceClaimC5 [(50:Int)]
        [BTNode.mk [20] [BTNode.mk [10] [], BTNode.mk [30] []],
         BTNode.mk [70] [BTNode.mk [60] [], BTNode.mk [80, 90] []]]
        0 50).2.1 ≠
      (sepReplace [(50:Int)]
        [BTNode.mk [20] [BTNode.mk [10] [], BTNode.mk [30] []],
         BTNode.mk [70] [BTNode.mk [60] [], BTNode.mk [80, 90] []]]
        0 50).2.1 ∧
    ((BTree.Delete (fun z : Int => z)
        ⟨2, 7, some (BTNode.mk [50]
          [BTNode.mk [20] [BTNode.mk [10] [], BTNode.mk [30] []],
           BTNode.mk [70] [BTNode.mk [60] [], BTNode.mk [80, 90] []]])⟩
        50).root.map BTNode.items) = some [60] := by
  refine ⟨?_, ?_, ?_, ?_⟩
  · simp +decide [sepReplaceClaimC5, BTNode.maxNode, nilNode]
  · simp +decide [sepReplace, BTNode.maxNode, BTNode.minNode, nilNode]
  · simp +decide [sepReplaceClaimC5, sepReplace, BTNode.maxNode, BTNode.minNode,
      nilNode]
  · simp +decide [BTree.Delete, BTree.maxI, nodeDelete, sepReplace,
      BTNode.maxNode, BTNode.minNode, nilNode, itemsSearch, searchLoop,
      listRemoveAt, rebalanceP, rightSiblingItems, leftSiblingItems,
      rotateLeftP, rotateRightP, mergeLeftP, mergeRightP, listInsertAt]

end Btree

namespace Btree
variable {α : Type}

@[simp] theorem inorderAux_nil (its : List α) :
    inorderAux ([] : List (BTNode α)) its = its := by
  simp [inorderAux]

@[simp] theorem inorderAux_cons_cons (c : BTNode α) (cs : List (BTNode α))
    (k : α) (ks : List α) :
    inorderAux (c :: cs) (k :: ks) = c.toList ++ k :: inorderAux cs ks := by
  simp [inorderAux]

@[simp] theorem inorderAux_cons_nil (c : BTNode α) (cs : List (BTNode α)) :
    inorderAux (c :: cs) ([] : List α) = c.toList ++ inorderAux cs [] := by
  simp [inorderAux]

theorem toList_mk (its : List α) (chs : List (BTNode α)) :
    (BTNode.mk its chs).toList = inorderAux chs its := by
  rw [BTNode.toList]

theorem inorderAux_split (chs : List (BTNode α)) (its : List α) (i : Nat) :
    inorderAux chs its =
      inorderAux (chs.take i) (its.take i) ++
        inorderAux (chs.drop i) (its.drop i) := by
  induction chs generalizing its i with
  | nil => simp [inorderAux]
  | cons c cs ih =>
    cases i with
    | zero => simp
    | succ i' =>
      cases its with
      | nil => simp [inorderAux, ih [] i']
      | cons k ks => simp [inorderAux, ih ks i']

theorem drop_cons_self {β : Type} (l : List β) (i : Nat) (h : i < l.length) :
    l.drop i = l[i] :: l.drop (i + 1) :=
  List.drop_eq_getElem_cons h

theorem inorderAux_decomp_mid (chs : List (BTNode α)) (its : List α) (i : Nat)
    (hc : i < chs.length) (hi : i < its.length) :
    inorderAux chs its =
      inorderAux (chs.take i) (its.take i) ++
        ((chs[i]).toList ++ its[i] ::
          inorderAux (chs.drop (i + 1)) (its.drop (i + 1))) := by
  rw [inorderAux_split chs its i, drop_cons_self chs i hc,
    drop_cons_self its i hi, inorderAux_cons_cons]

theorem inorderAux_decomp_last (chs : List (BTNode α)) (its : List α)
    (harity : chs.length = its.length + 1) :
    inorderAux chs its =
      inorderAux (chs.take its.length) its ++
        (chs.get ⟨its.length, by omega⟩).toList := by
  have h1 := inorderAux_split chs its its.length
  rw [List.take_of_length_le (le_refl its.length)] at h1
  rw [drop_cons_self chs its.length (by omega)] at h1
  rw [List.drop_of_length_le (le_refl its.length)] at h1
  have h2 : chs.drop (its.length + 1) = [] := by
    apply List.drop_of_length_le
    omega
  rw [h2] at h1
  simpa using h1

end Btree

namespace Btree
variable {α : Type}

theorem sublist_inorderAux (chs : List (BTNode α)) (its : List α) :
    its.Sublist (inorderAux chs its) := by
  induction chs generalizing its with
  | nil => simp
  | cons c cs ih =>
    cases its with
    | nil => simp
    | cons k ks =>
      rw [inorderAux_cons_cons]
      exact (List.Sublist.cons₂ k (ih ks)).trans (List.sublist_append_right _ _)

theorem getLast?_cons_of_ne_nil {β : Type} (a : β) {l : List β} (h : l ≠ []) :
    (a :: l).getLast? = l.getLast? := by
  rw [show a :: l = [a] ++ l from rfl, List.getLast?_append,
    Option.or_of_isSome (by simpa [List.getLast?_isSome] using h)]

theorem inorderAux_ne_nil_of_its (chs : List (BTNode α)) (its : List α)
    (hne : its ≠ []) : inorderAux chs its ≠ [] := by
  intro hc
  have := sublist_inorderAux chs its
  rw [hc] at this
  exact hne (List.sublist_nil.mp this)

theorem inorderAux_getLast?_of_len_eq (chs : List (BTNode α)) (its : List α)
    (h : chs.length = its.length) (hne : its ≠ []) :
    (inorderAux chs its).getLast? = its.getLast? := by
  induction chs generalizing its with
  | nil => simp
  | cons c cs ih =>
    cases its with
    | nil => simp at h
    | cons k ks =>
      rw [inorderAux_cons_cons, List.getLast?_append,
        Option.or_of_isSome (by simp [List.getLast?_isSome])]
      cases ks with
      | nil =>
        have hcs : cs = [] := by simpa using h
        subst hcs
        simp
      | cons k2 ks2 =>
        have hlen : cs.length = (k2 :: ks2).length := by simpa using h
        have hx : inorderAux cs (k2 :: ks2) ≠ [] :=
          inorderAux_ne_nil_of_its cs (k2 :: ks2) (by simp)
        rw [getLast?_cons_of_ne_nil k hx, ih (k2 :: ks2) hlen (by simp),
          getLast?_cons_of_ne_nil k (by simp)]

end Btree

namespace Btree
variable {α κ : Type} [LinearOrder κ] [Inhabited α] (key : α → κ)

theorem head?_append_of_ne_nil {β : Type} {l₁ : List β} (l₂ : List β)
    (h : l₁ ≠ []) : (l₁ ++ l₂).head? = l₁.head? := by
  cases l₁ with
  | nil => exact absurd rfl h
  | cons a t => simp

theorem pairwise_keys_iff (l : List α) :
    (keys key l).Pairwise (· < ·) ↔ ItemsSorted key l := by
  unfold keys ItemsSorted
  exact List.pairwise_map

theorem WFB_toList_sorted {maxI h r} {n : BTNode α} (hw : WFB key maxI h r n) :
    (keys key n.toList).Pairwise (· < ·) := by
  cases hw with
  | leaf its isRoot h1 h2 h3 h4 =>
    rw [toList_mk]
    simpa using h4
  | internal its chs hh isRoot h1 h2 h3 h4 h5 h6 => exact h6

theorem WFB_items_sorted {maxI h r} {its : List α} {chs : List (BTNode α)}
    (hw : WFB key maxI h r (.mk its chs)) : ItemsSorted key its := by
  have hs := WFB_toList_sorted key hw
  rw [toList_mk] at hs
  exact (pairwise_keys_iff key its).mp
    (List.Pairwise.sublist (List.Sublist.map key (sublist_inorderAux chs its)) hs)

theorem WFB_items_ne_nil {maxI h r} {its : List α} {chs : List (BTNode α)}
    (hmax : 2 ≤ maxI) (hw : WFB key maxI h r (.mk its chs)) : its ≠ [] := by
  have h2 : 1 ≤ its.length := by
    cases hw with
    | leaf its isRoot h1 h2 h3 h4 =>
      cases r with
      | true => exact h1 rfl
      | false => have := h2 rfl; omega
    | internal its chs hh isRoot h1 h2 h3 h4 h5 h6 =>
      cases r with
      | true => exact h2 rfl
      | false => have := h3 rfl; omega
  intro hc
  rw [hc] at h2
  simp at h2

theorem WFB_toList_ne_nil {maxI h r} {n : BTNode α}
    (hmax : 2 ≤ maxI) (hw : WFB key maxI h r n) : n.toList ≠ [] := by
  cases n with
  | mk its chs =>
    rw [toList_mk]
    exact inorderAux_ne_nil_of_its chs its (WFB_items_ne_nil key hmax hw)

end Btree

namespace Btree
variable {α κ : Type} [LinearOrder κ] [Inhabited α] (key : α → κ)

theorem getLastD_eq_getElem {β : Type} (c : β) (cs : List β) (d : β) :
    (c :: cs).getLastD d = (c :: cs).get ⟨cs.length, by simp⟩ := by
  rw [List.getLastD_eq_getLast?, List.getLast?_eq_getLast _ (by simp)]
  simp [List.getLast_eq_getElem]

theorem WFB_minNode_aux {maxI h r} {n : BTNode α}
    (hmax : 2 ≤ maxI) (hw : WFB key maxI h r n) (hr : r = false) :
    WFB key maxI 0 false n.minNode ∧ n.minNode.children = [] ∧
      n.minNode.items.head? = n.toList.head? := by
  induction hw with
  | leaf its isRoot h1 h2 h3 h4 =>
    subst hr
    refine ⟨?_, ?_, ?_⟩
    · simpa [BTNode.minNode] using
        (WFB.leaf its false h1 h2 h3 h4 : WFB key maxI 0 false (.mk its []))
    · simp [BTNode.minNode]
    · simp [BTNode.minNode, toList_mk]
  | internal its chs hh isRoot h1 h2 h3 h4 h5 h6 ih =>
    cases chs with
    | nil => simp at h1
    | cons c cs =>
      have hc : c ∈ c :: cs := by simp
      obtain ⟨hw1, hw2, hw3⟩ := ih c hc rfl
      refine ⟨hw1, hw2, ?_⟩
      rw [show (BTNode.mk its (c :: cs)).minNode = c.minNode from rfl, hw3,
        toList_mk]
      have hcne : c.toList ≠ [] := WFB_toList_ne_nil key hmax (h5 c hc)
      cases its with
      | nil => rw [inorderAux_cons_nil, head?_append_of_ne_nil _ hcne]
      | cons k ks => rw [inorderAux_cons_cons, head?_append_of_ne_nil _ hcne]

theorem WFB_maxNode_aux {maxI h r} {n : BTNode α}
    (hmax : 2 ≤ maxI) (hw : WFB key maxI h r n) (hr : r = false) :
    WFB key maxI 0 false n.maxNode ∧ n.maxNode.children = [] ∧
      n.maxNode.items.getLast? = n.toList.getLast? := by
  induction hw with
  | leaf its isRoot h1 h2 h3 h4 =>
    subst hr
    refine ⟨?_, ?_, ?_⟩
    · simpa [BTNode.maxNode] using
        (WFB.leaf its false h1 h2 h3 h4 : WFB key maxI 0 false (.mk its []))
    · simp [BTNode.maxNode]
    · simp [BTNode.maxNode, toList_mk]
  | internal its chs hh isRoot h1 h2 h3 h4 h5 h6 ih =>
    cases chs with
    | nil => simp at h1
    | cons c cs =>
      have hlb : its.length < (c :: cs).length := by
        simp at h1 ⊢
        omega
      have hlen : ((c :: cs).getLastD nilNode) =
          (c :: cs).get ⟨its.length, hlb⟩ := by
        rw [getLastD_eq_getElem]
        simp only [List.get_eq_getElem]
        congr 1
        simp at h1
        omega
      simp only [List.get_eq_getElem] at hlen
      have hmem : (c :: cs).getLastD nilNode ∈ c :: cs := getLastD_mem _ _ _
      obtain ⟨hw1, hw2, hw3⟩ := ih _ hmem rfl
      have hmaxeq : (BTNode.mk its (c :: cs)).maxNode =
          ((c :: cs).getLastD nilNode).maxNode := by
        rw [BTNode.maxNode]
      refine ⟨hmaxeq ▸ hw1, hmaxeq ▸ hw2, ?_⟩
      rw [hmaxeq, hw3, toList_mk, inorderAux_decomp_last (c :: cs) its h1,
        List.getLast?_append, Option.or_of_isSome (by
          simp only [List.getLast?_isSome]
          exact WFB_toList_ne_nil key hmax (h5 _ (by
            simp only [List.get_eq_getElem]
            exact List.getElem_mem _)))]
      simp only [List.get_eq_getElem]
      rw [hlen]

theorem WFB_minNode {maxI h} {n : BTNode α}
    (hmax : 2 ≤ maxI) (hw : WFB key maxI h false n) :
    WFB key maxI 0 false n.minNode ∧ n.minNode.children = [] ∧
      n.minNode.items.head? = n.toList.head? :=
  WFB_minNode_aux key hmax hw rfl

theorem WFB_maxNode {maxI h} {n : BTNode α}
    (hmax : 2 ≤ maxI) (hw : WFB key maxI h false n) :
    WFB key maxI 0 false n.maxNode ∧ n.maxNode.children = [] ∧
      n.maxNode.items.getLast? = n.toList.getLast? :=
  WFB_maxNode_aux key hmax hw rfl

end Btree

namespace Btree
variable {α κ : Type} [LinearOrder κ] [Inhabited α] (key : α → κ)

theorem getD_length_sub_one_eq_getLastD {β : Type} (l : List β) (x : β) :
    l.getD (l.length - 1) x = l.getLastD x := by
  cases l with
  | nil => simp
  | cons a t =>
    rw [List.getD_eq_getElem _ x (by simp), getLastD_eq_getElem]
    simp

theorem getD_zero_eq_headD {β : Type} (l : List β) (x : β) :
    l.getD 0 x = l.headD x := by
  cases l <;> simp

/-- C5 (amended): when the key was found at index `i` of an internal node,
the separator-replacement step of `Node.delete` computes
`left_max = children[i].max()` — the rightmost LEAF of the left subtree,
whose last item is the left subtree's maximum — and
`right_min = children[i+1].min()` — the leftmost LEAF of the right
subtree, whose first item is the right subtree's minimum; it picks
whichever of the two leaves has more items (ties to the right), overwrites
`items[i]` with that leaf's extreme item, retargets the deletion to it,
and descends into `children[i]` (left chosen) or `children[i+1]` (right
chosen): that is the returned descent index. -/
theorem C5_amended {maxI hh : Nat} (its : List α) (chs : List (BTNode α))
    (x : α) (hmax : 2 ≤ maxI)
    (hw : ∀ c ∈ chs, WFB key maxI hh false c)
    (i : Nat) (hi : i + 1 < chs.length) :
    ((chs.getD i nilNode).maxNode).children = [] ∧
    ((chs.getD (i + 1) nilNode).minNode).children = [] ∧
    sepReplace its chs i x =
      (if ((chs.getD i nilNode).maxNode).items.length >
          ((chs.getD (i + 1) nilNode).minNode).items.length then
        (i, ((chs.get ⟨i, by omega⟩).toList).getLastD x,
          its.set i (((chs.get ⟨i, by omega⟩).toList).getLastD x))
      else
        ((i + 1, ((chs.get ⟨i + 1, hi⟩).toList).headD x,
          its.set i (((chs.get ⟨i + 1, hi⟩).toList).headD x)) :
            Nat × α × List α)) := by
  have hi2 : i < chs.length := by omega
  have hgd1 : chs.getD i nilNode = chs[i] := List.getD_eq_getElem chs nilNode hi2
  have hgd2 : chs.getD (i + 1) nilNode = chs[i + 1] :=
    List.getD_eq_getElem chs nilNode hi
  obtain ⟨wfL, leafL, lastL⟩ := WFB_maxNode key hmax (hw _ (chs.getElem_mem hi2))
  obtain ⟨wfR, leafR, headR⟩ := WFB_minNode key hmax (hw _ (chs.getElem_mem hi))
  refine ⟨by rw [hgd1]; exact leafL, by rw [hgd2]; exact leafR, ?_⟩
  simp only [List.get_eq_getElem]
  simp only [sepReplace]
  rw [hgd1, hgd2]
  split
  · rw [getD_length_sub_one_eq_getLastD, List.getLastD_eq_getLast?, lastL,
      ← List.getLastD_eq_getLast?]
  · rw [getD_zero_eq_headD, List.headD_eq_head?, headR, ← List.headD_eq_head?]

theorem C5_amended_witness :
    (2 ≤ 3 ∧
      (∀ c ∈ [BTNode.mk [(10:Int)] [], BTNode.mk [30] []],
        WFB (fun z : Int => z) 3 0 false c) ∧
      0 + 1 < 2) ∧
    (sepReplace [(20:Int)] [BTNode.mk [10] [], BTNode.mk [30] []] 0 20).1 = 1 := by
  have hw : ∀ c ∈ [BTNode.mk [(10:Int)] [], BTNode.mk [30] []],
      WFB (fun z : Int => z) 3 0 false c := by
    intro c hc
    simp only [List.mem_cons, List.mem_singleton, List.not_mem_nil, or_false] at hc
    rcases hc with rfl | rfl
    · exact WFB.leaf _ _ (by simp) (by norm_num) (by norm_num) (by simp [keys])
    · exact WFB.leaf _ _ (by simp) (by norm_num) (by norm_num) (by simp [keys])
  refine ⟨⟨by norm_num, hw, by norm_num⟩, ?_⟩
  have h := C5_amended (fun z : Int => z) [20]
    [BTNode.mk [10] [], BTNode.mk [30] []] 20 (by norm_num) hw 0 (by norm_num)
  rw [h.2.2]
  simp +decide [BTNode.maxNode, BTNode.minNode, nilNode]

end Btree

namespace Btree
variable {α κ : Type} [LinearOrder κ] [Inhabited α] (key : α → κ)

@[simp] theorem insKeyList_nil (x : α) : insKeyList key x [] = [x] := by
  simp [insKeyList]

theorem insKeyList_cons_lt {x y : α} (ys : List α) (h : key x < key y) :
    insKeyList key x (y :: ys) = x :: y :: ys := by
  rw [insKeyList, if_pos h]

theorem insKeyList_cons_gt {x y : α} (ys : List α) (h : key y < key x) :
    insKeyList key x (y :: ys) = y :: insKeyList key x ys := by
  rw [insKeyList, if_neg (lt_asymm h), if_pos h]

theorem insKeyList_cons_eq {x y : α} (ys : List α) (h : key y = key x) :
    insKeyList key x (y :: ys) = x :: ys := by
  rw [insKeyList, if_neg (by rw [h]; exact lt_irrefl _),
    if_neg (by rw [h]; exact lt_irrefl _)]

theorem insKeyList_append_right (x : α) (l₁ l₂ : List α)
    (h : ∀ a ∈ l₁, key a < key x) :
    insKeyList key x (l₁ ++ l₂) = l₁ ++ insKeyList key x l₂ := by
  induction l₁ with
  | nil => simp
  | cons a t ih =>
    rw [List.cons_append, insKeyList_cons_gt key _ (h a (by simp)),
      ih (fun b hb => h b (by simp [hb])), List.cons_append]

theorem insKeyList_append_left (x : α) (l₁ l₂ : List α)
    (h : ∀ b ∈ l₂, key x < key b) :
    insKeyList key x (l₁ ++ l₂) = insKeyList key x l₁ ++ l₂ := by
  induction l₁ with
  | nil =>
    cases l₂ with
    | nil => simp
    | cons b t => rw [List.nil_append, insKeyList_cons_lt key _ (h b (by simp))]; simp
  | cons a t ih =>
    rcases lt_trichotomy (key x) (key a) with h1 | h1 | h1
    · rw [List.cons_append, insKeyList_cons_lt key _ h1,
        insKeyList_cons_lt key _ h1, List.cons_append, List.cons_append]
    · rw [List.cons_append, insKeyList_cons_eq key _ h1.symm,
        insKeyList_cons_eq key _ h1.symm, List.cons_append]
    · rw [List.cons_append, insKeyList_cons_gt key _ h1,
        insKeyList_cons_gt key _ h1, ih, List.cons_append]

theorem insKeyList_replace (x y : α) (l₁ l₂ : List α)
    (h : ∀ a ∈ l₁, key a < key x) (hy : key y = key x) :
    insKeyList key x (l₁ ++ y :: l₂) = l₁ ++ x :: l₂ := by
  rw [insKeyList_append_right key x l₁ _ h, insKeyList_cons_eq key _ hy]

theorem insKeyList_not_mem (x : α) (l : List α)
    (hl : ∀ a ∈ l, key a < key x ∨ key x < key a) :
    insKeyList key x l = l → False := by
  induction l with
  | nil => simp
  | cons a t ih =>
    rcases hl a (by simp) with h1 | h1
    · rw [insKeyList_cons_gt key _ h1]
      intro hc
      exact ih (fun b hb => hl b (by simp [hb])) (by injection hc)
    · rw [insKeyList_cons_lt key _ h1]
      intro hc
      have : (x :: a :: t).length = (a :: t).length := by rw [hc]
      simp at this

theorem insKeyList_length_not_mem (x : α) (l : List α)
    (h : key x ∉ l.map key) :
    (insKeyList key x l).length = l.length + 1 := by
  induction l with
  | nil => simp
  | cons a t ih =>
    rcases lt_trichotomy (key x) (key a) with h1 | h1 | h1
    · rw [insKeyList_cons_lt key _ h1]; simp
    · exact absurd (by simp [h1]) h
    · rw [insKeyList_cons_gt key _ h1]
      simp only [List.length_cons]
      rw [ih (by simp at h ⊢; exact fun b hb => h.2 b hb)]

theorem insKeyList_length_mem (x : α) (l : List α)
    (hs : ItemsSorted key l) (h : key x ∈ l.map key) :
    (insKeyList key x l).length = l.length := by
  induction l with
  | nil => simp at h
  | cons a t ih =>
    rcases lt_trichotomy (key x) (key a) with h1 | h1 | h1
    · exfalso
      rcases List.mem_map.mp h with ⟨b, hb, hkb⟩
      rcases List.mem_cons.mp hb with rfl | hbt
      · rw [hkb] at h1
        exact lt_irrefl _ h1
      · have := (List.pairwise_cons.mp hs).1 b hbt
        rw [hkb] at this
        exact lt_asymm h1 this
    · rw [insKeyList_cons_eq key _ h1.symm]; simp
    · rw [insKeyList_cons_gt key _ h1]
      simp only [List.length_cons]
      rw [ih (List.Pairwise.of_cons hs) ?_]
      rcases List.mem_map.mp h with ⟨b, hb, hkb⟩
      rcases List.mem_cons.mp hb with rfl | hbt
      · exact absurd hkb (by exact fun hc => absurd hc.symm (ne_of_gt h1))
      · exact List.mem_map.mpr ⟨b, hbt, hkb⟩

theorem mem_keys_insKeyList (x : α) (l : List α) (b : α) :
    key b ∈ (insKeyList key x l).map key ↔
      key b = key x ∨ key b ∈ l.map key := by
  induction l with
  | nil => simp
  | cons a t ih =>
    rcases lt_trichotomy (key x) (key a) with h1 | h1 | h1
    · rw [insKeyList_cons_lt key _ h1]
      simp [or_comm, or_assoc, or_left_comm]
    · rw [insKeyList_cons_eq key _ h1.symm]
      simp only [List.map_cons, List.mem_cons]
      constructor
      · rintro (h2 | h2)
        · exact Or.inl h2
        · exact Or.inr (Or.inr h2)
      · rintro (h2 | h2 | h2)
        · exact Or.inl h2
        · exact Or.inl (by rw [h2, h1])
        · exact Or.inr h2
    · rw [insKeyList_cons_gt key _ h1]
      simp only [List.map_cons, List.mem_cons]
      rw [ih]
      tauto

theorem insKeyList_sorted (x : α) (l : List α) (hs : ItemsSorted key l) :
    ItemsSorted key (insKeyList key x l) := by
  induction l with
  | nil => simpa [ItemsSorted] using hs
  | cons a t ih =>
    rcases lt_trichotomy (key x) (key a) with h1 | h1 | h1
    · rw [insKeyList_cons_lt key _ h1]
      refine List.Pairwise.cons ?_ hs
      intro b hb
      rcases List.mem_cons.mp hb with rfl | hbt
      · exact h1
      · exact lt_trans h1 ((List.pairwise_cons.mp hs).1 b hbt)
    · rw [insKeyList_cons_eq key _ h1.symm]
      refine List.Pairwise.cons ?_ (List.Pairwise.of_cons hs)
      intro b hb
      rw [h1]
      exact (List.pairwise_cons.mp hs).1 b hb
    · rw [insKeyList_cons_gt key _ h1]
      refine List.Pairwise.cons ?_ (ih (List.Pairwise.of_cons hs))
      intro b hb
      have hmem := (mem_keys_insKeyList key x t b).mp
        (List.mem_map_of_mem key hb)
      rcases hmem with h2 | h2
      · rw [h2]; exact h1
      · rcases List.mem_map.mp h2 with ⟨c, hc, hkc⟩
        rw [← hkc]
        exact (List.pairwise_cons.mp hs).1 c hc

end Btree

namespace Btree
variable {α κ : Type} [LinearOrder κ] [Inhabited α] (key : α → κ)

@[simp] theorem delKeyList_nil (x : α) : delKeyList key x [] = [] := by
  simp [delKeyList]

theorem delKeyList_cons_eq {x y : α} (ys : List α) (h : key y = key x) :
    delKeyList key x (y :: ys) = ys := by
  rw [delKeyList, if_pos h]

theorem delKeyList_cons_ne {x y : α} (ys : List α) (h : key y ≠ key x) :
    delKeyList key x (y :: ys) = y :: delKeyList key x ys := by
  rw [delKeyList, if_neg h]

theorem delKeyList_sublist (x : α) (l : List α) :
    (delKeyList key x l).Sublist l := by
  induction l with
  | nil => simp
  | cons a t ih =>
    by_cases h : key a = key x
    · rw [delKeyList_cons_eq key _ h]
      exact List.sublist_cons_self a t
    · rw [delKeyList_cons_ne key _ h]
      exact List.Sublist.cons₂ a ih

theorem delKeyList_sorted (x : α) (l : List α) (hs : ItemsSorted key l) :
    ItemsSorted key (delKeyList key x l) :=
  List.Pairwise.sublist (delKeyList_sublist key x l) hs

theorem delKeyList_not_mem (x : α) (l : List α) (h : key x ∉ l.map key) :
    delKeyList key x l = l := by
  induction l with
  | nil => simp
  | cons a t ih =>
    simp only [List.map_cons, List.mem_cons] at h
    push_neg at h
    rw [delKeyList_cons_ne key _ (fun hc => h.1 hc.symm), ih h.2]

theorem delKeyList_append_right (x : α) (l₁ l₂ : List α)
    (h : ∀ a ∈ l₁, key a ≠ key x) :
    delKeyList key x (l₁ ++ l₂) = l₁ ++ delKeyList key x l₂ := by
  induction l₁ with
  | nil => simp
  | cons a t ih =>
    rw [List.cons_append, delKeyList_cons_ne key _ (h a (by simp)),
      ih (fun b hb => h b (by simp [hb])), List.cons_append]

theorem delKeyList_append_left (x : α) (l₁ l₂ : List α)
    (h : ∀ b ∈ l₂, key b ≠ key x) :
    delKeyList key x (l₁ ++ l₂) = delKeyList key x l₁ ++ l₂ := by
  induction l₁ with
  | nil => simpa using delKeyList_not_mem key x l₂ (by
      intro hc
      rcases List.mem_map.mp hc with ⟨b, hb, hkb⟩
      exact h b hb hkb)
  | cons a t ih =>
    by_cases h1 : key a = key x
    · rw [List.cons_append, delKeyList_cons_eq key _ h1,
        delKeyList_cons_eq key _ h1]
    · rw [List.cons_append, delKeyList_cons_ne key _ h1,
        delKeyList_cons_ne key _ h1, ih, List.cons_append]

theorem delKeyList_length_mem (x : α) (l : List α) (h : key x ∈ l.map key) :
    (delKeyList key x l).length + 1 = l.length := by
  induction l with
  | nil => simp at h
  | cons a t ih =>
    by_cases h1 : key a = key x
    · rw [delKeyList_cons_eq key _ h1]
      simp
    · rw [delKeyList_cons_ne key _ h1]
      simp only [List.length_cons]
      rw [ih ?_]
      simp only [List.map_cons, List.mem_cons] at h
      rcases h with h2 | h2
      · exact absurd h2.symm h1
      · exact h2

theorem mem_keys_delKeyList (x : α) (l : List α) (hs : ItemsSorted key l)
    (b : α) :
    key b ∈ (delKeyList key x l).map key ↔
      key b ∈ l.map key ∧ key b ≠ key x := by
  induction l with
  | nil => simp
  | cons a t ih =>
    by_cases h1 : key a = key x
    · rw [delKeyList_cons_eq key _ h1]
      simp only [List.map_cons, List.mem_cons]
      constructor
      · intro h2
        refine ⟨Or.inr h2, ?_⟩
        rcases List.mem_map.mp h2 with ⟨c, hc, hkc⟩
        have := (List.pairwise_cons.mp hs).1 c hc
        rw [← hkc, ← h1]
        exact fun hcon => absurd hcon.symm (ne_of_lt this)
      · rintro ⟨h2 | h2, h3⟩
        · exact absurd (h2.trans h1) h3
        · exact h2
    · rw [delKeyList_cons_ne key _ h1]
      simp only [List.map_cons, List.mem_cons]
      rw [ih (List.Pairwise.of_cons hs)]
      constructor
      · rintro (h2 | ⟨h2, h3⟩)
        · exact ⟨Or.inl h2, fun hc => h1 (h2 ▸ hc)⟩
        · exact ⟨Or.inr h2, h3⟩
      · rintro ⟨h2 | h2, h3⟩
        · exact Or.inl h2
        · exact Or.inr ⟨h2, h3⟩

end Btree

namespace Btree
variable {α κ : Type} [LinearOrder κ] [Inhabited α] (key : α → κ)

theorem itemsSearch_eq_not_found (x : α) (s : List α) (hs : ItemsSorted key s)
    (i : Nat) (hi : i ≤ s.length)
    (hlow : ∀ j (hj : j < s.length), j < i → key s[j] < key x)
    (hhigh : ∀ j (hj : j < s.length), i ≤ j → key x < key s[j]) :
    itemsSearch key s x = (i, false) := by
  rcases hfound : (itemsSearch key s x).2 with hf | hf
  · obtain ⟨h1, h2⟩ := itemsSearch_not_found_spec key x s hs hfound
    have hb := itemsSearch_fst_le key x s
    rcases lt_trichotomy (itemsSearch key s x).1 i with h3 | h3 | h3
    · have hia : (itemsSearch key s x).1 < s.length := by omega
      exact absurd (hlow _ hia h3) (lt_asymm (h2 _ hia (le_refl _)))
    · exact Prod.ext h3 hfound
    · have hia : i < s.length := by omega
      exact absurd (h1 i hia h3) (lt_asymm (hhigh i hia (le_refl _)))
  · obtain ⟨hlt, heq, h1, h2⟩ := itemsSearch_found_spec key x s hs hfound
    rcases lt_trichotomy (itemsSearch key s x).1 i with h3 | h3 | h3
    · have := hlow _ hlt h3
      rw [heq] at this
      exact absurd this (lt_irrefl _)
    · have := hhigh _ hlt (le_of_eq h3.symm)
      rw [heq] at this
      exact absurd this (lt_irrefl _)
    · have hia : i < s.length := by omega
      have h4 := h1 i hia h3
      exact absurd h4 (lt_asymm (hhigh i hia (le_refl _)))

theorem itemsSearch_eq_found_at (x : α) (s : List α) (hs : ItemsSorted key s)
    (j : Nat) (hj : j < s.length) (heq : key s[j] = key x) :
    itemsSearch key s x = (j, true) := by
  have hfound : (itemsSearch key s x).2 = true :=
    (itemsSearch_found_iff key x s hs).mpr
      (heq ▸ List.mem_map_of_mem key (s.getElem_mem hj))
  obtain ⟨hlt, heq2, h1, h2⟩ := itemsSearch_found_spec key x s hs hfound
  rcases lt_trichotomy (itemsSearch key s x).1 j with h3 | h3 | h3
  · have := h2 j hj h3
    rw [heq] at this
    exact absurd this (lt_irrefl _)
  · exact Prod.ext h3 hfound
  · have := h1 j hj h3
    rw [heq] at this
    exact absurd this (lt_irrefl _)

theorem split_at_idx {β : Type} (s : List β) (i : Nat) (hi : i < s.length) :
    s = s.take i ++ s[i] :: s.drop (i + 1) := by
  conv_lhs => rw [← List.take_append_drop i s]
  rw [drop_cons_self s i hi]

theorem mem_take_lt (x : α) (s : List α) (i : Nat)
    (h1 : ∀ j (hj : j < s.length), j < i → key s[j] < key x) :
    ∀ a ∈ s.take i, key a < key x := by
  intro a ha
  rcases List.mem_take_iff_getElem.mp ha with ⟨k, hk, rfl⟩
  have hk2 : k < min i s.length := hk
  exact h1 k (by omega) (by omega)

theorem mem_drop_gt (x : α) (s : List α) (i : Nat)
    (h2 : ∀ j (hj : j < s.length), i ≤ j → key x < key s[j]) :
    ∀ a ∈ s.drop i, key x < key a := by
  intro a ha
  rcases List.mem_iff_getElem.mp ha with ⟨k, hk, rfl⟩
  rw [List.getElem_drop]
  exact h2 (i + k) _ (by omega)

theorem insKeyList_eq_listInsertAt (x : α) (s : List α) (hs : ItemsSorted key s)
    (hnf : (itemsSearch key s x).2 = false) :
    insKeyList key x s = listInsertAt s (itemsSearch key s x).1 x := by
  obtain ⟨h1, h2⟩ := itemsSearch_not_found_spec key x s hs hnf
  rw [listInsertAt]
  conv_lhs => rw [← List.take_append_drop (itemsSearch key s x).1 s]
  rw [insKeyList_append_right key x _ _ (mem_take_lt key x s _ h1)]
  congr 1
  rcases hd : s.drop (itemsSearch key s x).1 with _ | ⟨b, t⟩
  · simp
  · rw [insKeyList_cons_lt]
    have : key x < key b := by
      have hmem : b ∈ s.drop (itemsSearch key s x).1 := by rw [hd]; simp
      exact mem_drop_gt key x s _ h2 b hmem
    exact this

theorem insKeyList_eq_set (x : α) (s : List α) (hs : ItemsSorted key s)
    (hf : (itemsSearch key s x).2 = true) :
    insKeyList key x s = s.set (itemsSearch key s x).1 x := by
  obtain ⟨hlt, heq, h1, h2⟩ := itemsSearch_found_spec key x s hs hf
  rw [List.set_eq_take_append_cons_drop, if_pos hlt]
  conv_lhs => rw [split_at_idx s _ hlt]
  exact insKeyList_replace key x _ _ _ (mem_take_lt key x s _ h1) heq

theorem delKeyList_eq_listRemoveAt (x : α) (s : List α) (hs : ItemsSorted key s)
    (hf : (itemsSearch key s x).2 = true) :
    delKeyList key x s = listRemoveAt s (itemsSearch key s x).1 := by
  obtain ⟨hlt, heq, h1, h2⟩ := itemsSearch_found_spec key x s hs hf
  rw [listRemoveAt]
  conv_lhs => rw [split_at_idx s _ hlt]
  rw [delKeyList_append_right key x _ _ (fun a ha =>
    ne_of_lt (mem_take_lt key x s _ h1 a ha)),
    delKeyList_cons_eq key _ heq]

end Btree

namespace Btree
variable {α κ : Type} [LinearOrder κ] [Inhabited α] (key : α → κ)

theorem inorderAux_append (A C : List (BTNode α)) (B D : List α)
    (h : A.length = B.length) :
    inorderAux (A ++ C) (B ++ D) = inorderAux A B ++ inorderAux C D := by
  induction A generalizing B with
  | nil =>
    cases B with
    | nil => simp
    | cons b t => simp at h
  | cons a A' ih =>
    cases B with
    | nil => simp at h
    | cons b B' =>
      rw [List.cons_append, List.cons_append, inorderAux_cons_cons,
        inorderAux_cons_cons, ih B' (by simpa using h)]
      simp

theorem sorted_le_getLast (l : List α) (hs : ItemsSorted key l) {b : α}
    (hlast : l.getLast? = some b) : ∀ a ∈ l, key a ≤ key b := by
  intro a ha
  obtain ⟨hne, rfl⟩ := List.mem_getLast?_eq_getLast (by simpa using hlast)
  rw [List.getLast_eq_getElem]
  rcases List.mem_iff_getElem.mp ha with ⟨k, hk, rfl⟩
  rcases Nat.lt_or_ge k (l.length - 1) with h1 | h1
  · exact le_of_lt ((List.pairwise_iff_getElem.mp hs) k (l.length - 1) hk
      (by omega) h1)
  · have : k = l.length - 1 := by omega
    subst this
    exact le_refl _

theorem sorted_head_le (l : List α) (hs : ItemsSorted key l) {b : α}
    (hhead : l.head? = some b) : ∀ a ∈ l, key b ≤ key a := by
  intro a ha
  cases l with
  | nil => simp at hhead
  | cons c t =>
    rw [List.head?_cons, Option.some_inj] at hhead
    subst hhead
    rcases List.mem_cons.mp ha with rfl | hat
    · exact le_refl _
    · exact le_of_lt ((List.pairwise_cons.mp hs).1 a hat)

theorem take_getLast? {β : Type} (l : List β) (i : Nat) (h0 : 0 < i)
    (hi : i ≤ l.length) :
    (l.take i).getLast? = some (l[i - 1]) := by
  rw [List.getLast?_eq_getElem?]
  have hlen : (l.take i).length = i := by simp; omega
  rw [hlen, List.getElem?_take, if_pos (by omega),
    List.getElem?_eq_getElem (by omega)]

theorem listInsertAt_at_append {β : Type} (A D : List β) (m : β) :
    listInsertAt (A ++ D) A.length m = A ++ m :: D := by
  rw [listInsertAt, List.take_left, List.drop_left]

theorem listInsertAt_append_cons {β : Type} (A : List β) (b : β) (C : List β)
    (r : β) :
    listInsertAt (A ++ b :: C) (A.length + 1) r = A ++ b :: r :: C := by
  have h : A ++ b :: C = (A ++ [b]) ++ C := by simp
  have h2 : (A ++ [b]).length = A.length + 1 := by simp
  rw [h, ← h2, listInsertAt_at_append]
  simp

/-- The flatten of an internal node, decomposed around child `i`; the
prefix and suffix are stable under replacing child `i`, and under the
two-phase median/right-sibling insertion of `Node.insert`. -/
theorem inorder_set_decomp (its : List α) (chs : List (BTNode α))
    (harity : chs.length = its.length + 1) (i : Nat) (hi : i < chs.length) :
    ∃ P SUFF : List α,
      inorderAux chs its = P ++ (chs[i]).toList ++ SUFF ∧
      (∀ c', inorderAux (chs.set i c') its = P ++ c'.toList ++ SUFF) ∧
      (∀ (c' r' : BTNode α) (m' : α),
        inorderAux (listInsertAt (chs.set i c') (i + 1) r')
            (listInsertAt its i m') =
          P ++ c'.toList ++ m' :: r'.toList ++ SUFF) ∧
      P = inorderAux (chs.take i) (its.take i) ∧
      ((∀ h2 : i < its.length,
        SUFF = its[i] ::
          inorderAux (chs.drop (i + 1)) (its.drop (i + 1))) ∧
       (i = its.length → SUFF = [])) := by
  have htakelen : (chs.take i).length = (its.take i).length := by
    simp only [List.length_take]
    omega
  have hset : ∀ c' : BTNode α, chs.set i c' =
      chs.take i ++ c' :: chs.drop (i + 1) := by
    intro c'
    rw [List.set_eq_take_append_cons_drop, if_pos hi]
  have htakei : (chs.take i).length = i := by
    simp only [List.length_take]
    omega
  have htakei2 : (its.take i).length = i := by
    simp only [List.length_take]
    omega
  refine ⟨inorderAux (chs.take i) (its.take i),
    (if h2 : i < its.length then
      its[i] :: inorderAux (chs.drop (i + 1)) (its.drop (i + 1))
     else []), ?_, ?_, ?_, rfl, ?_⟩
  · split
    case isTrue h2 =>
      rw [List.append_assoc]
      exact inorderAux_decomp_mid chs its i hi h2
    case isFalse h2 =>
      have hieq : i = its.length := by omega
      subst hieq
      simpa using inorderAux_decomp_last chs its harity
  · intro c'
    rw [hset c']
    conv_lhs => rw [show its = its.take i ++ its.drop i from
      (List.take_append_drop i its).symm]
    rw [inorderAux_append _ _ _ _ htakelen, List.append_assoc]
    congr 1
    split
    case isTrue h2 =>
      rw [drop_cons_self its i h2, inorderAux_cons_cons]
    case isFalse h2 =>
      have hd : its.drop i = [] := List.drop_of_length_le (by omega)
      have hd2 : chs.drop (i + 1) = [] := List.drop_of_length_le (by omega)
      rw [hd, hd2, inorderAux_cons_nil]
      simp
  · intro c' r' m'
    have hc : listInsertAt (chs.set i c') (i + 1) r' =
        chs.take i ++ c' :: r' :: chs.drop (i + 1) := by
      have h0 := listInsertAt_append_cons (chs.take i) c' (chs.drop (i + 1)) r'
      rw [htakei] at h0
      rw [hset c', h0]
    have hm : listInsertAt its i m' = its.take i ++ m' :: its.drop i := by
      have h0 := listInsertAt_at_append (its.take i) (its.drop i) m'
      rw [htakei2, List.take_append_drop] at h0
      exact h0
    rw [hc, hm, inorderAux_append _ _ _ _ htakelen, List.append_assoc,
      List.append_assoc, List.cons_append]
    congr 1
    rw [inorderAux_cons_cons]
    congr 1
    congr 1
    split
    case isTrue h2 =>
      rw [drop_cons_self its i h2, inorderAux_cons_cons]
    case isFalse h2 =>
      have hd : its.drop i = [] := List.drop_of_length_le (by omega)
      have hd2 : chs.drop (i + 1) = [] := List.drop_of_length_le (by omega)
      rw [hd, hd2, inorderAux_cons_nil]
      simp
  · constructor
    · intro h2
      rw [dif_pos h2]
    · intro h2
      rw [dif_neg (by omega)]

end Btree

namespace Btree
variable {α κ : Type} [LinearOrder κ] [Inhabited α] (key : α → κ)

theorem take_set_self {β : Type} (l : List β) (i : Nat) (a : β) :
    (l.set i a).take i = l.take i := by
  rw [List.set_take]
  exact List.set_eq_of_length_le (by simp only [List.length_take]; omega)

/-- Keys of `P`/`M`/`SUFF` segments of a sorted flatten, around a
not-found search position. -/
theorem localize_not_found {maxI hh : Nat} {r : Bool} {its : List α}
    {chs : List (BTNode α)} (x : α) {i : Nat}
    (hw : WFB key maxI hh r (.mk its chs)) (hchs : chs ≠ [])
    (hsearch : itemsSearch key its x = (i, false)) :
    ∃ (hi : i < chs.length) (P SUFF : List α),
      chs.length = its.length + 1 ∧
      inorderAux chs its = P ++ (chs[i]).toList ++ SUFF ∧
      (∀ c', inorderAux (chs.set i c') its = P ++ c'.toList ++ SUFF) ∧
      (∀ (c' r' : BTNode α) (m' : α),
        inorderAux (listInsertAt (chs.set i c') (i + 1) r')
            (listInsertAt its i m') =
          P ++ c'.toList ++ m' :: r'.toList ++ SUFF) ∧
      (∀ a ∈ P, key a < key x) ∧
      (∀ a ∈ SUFF, key x < key a) ∧
      (∀ (j : Nat) (hj : j < its.length), j < i → its[j] ∈ P) ∧
      (∀ (j : Nat) (hj : j < its.length), i ≤ j → its[j] ∈ SUFF) ∧
      (∀ p ∈ P, ∀ c ∈ (chs[i]).toList, key p < key c) ∧
      (∀ c ∈ (chs[i]).toList, ∀ s ∈ SUFF, key c < key s) := by
  have harity : chs.length = its.length + 1 := by
    cases hw with
    | leaf => exact absurd rfl hchs
    | internal _ _ _ _ h1 => exact h1
  have hsortflat : (keys key (inorderAux chs its)).Pairwise (· < ·) := by
    have := WFB_toList_sorted key hw
    rwa [toList_mk] at this
  have hsits : ItemsSorted key its := WFB_items_sorted key hw
  have hfle : i ≤ its.length := by
    have := itemsSearch_fst_le key x its
    rw [hsearch] at this
    exact this
  have hi : i < chs.length := by omega
  obtain ⟨hlow, hhigh⟩ := itemsSearch_not_found_spec key x its hsits
    (by rw [hsearch])
  rw [hsearch] at hlow hhigh
  simp only at hlow hhigh
  obtain ⟨P, SUFF, hdec, hset, hins, hP, hSUFF⟩ :=
    inorder_set_decomp its chs harity i hi
  have hKsplit : keys key (inorderAux chs its) =
      (keys key P ++ keys key ((chs[i]).toList)) ++ keys key SUFF := by
    rw [hdec]
    simp [keys]
  have hKpair := hKsplit ▸ hsortflat
  have hPM := (List.pairwise_append.mp hKpair).1
  have hmemP : ∀ (j : Nat) (hj : j < its.length), j < i → its[j] ∈ P := by
    intro j hj hji
    have h1 : its[j] ∈ its.take i :=
      List.mem_take_iff_getElem.mpr ⟨j, by omega, rfl⟩
    rw [hP]
    exact (sublist_inorderAux (chs.take i) (its.take i)).subset h1
  have hmemS : ∀ (j : Nat) (hj : j < its.length), i ≤ j → its[j] ∈ SUFF := by
    intro j hj hij
    have h2 : i < its.length := by omega
    rw [hSUFF.1 h2]
    rcases Nat.eq_or_lt_of_le hij with rfl | hlt2
    · simp
    · have h3 : its[j] ∈ its.drop (i + 1) :=
        List.mem_iff_getElem.mpr ⟨j - (i + 1), by
          simp only [List.length_drop]
          omega, by
          rw [List.getElem_drop]
          congr 1
          omega⟩
      exact List.mem_cons_of_mem _
        ((sublist_inorderAux (chs.drop (i + 1)) (its.drop (i + 1))).subset h3)
  refine ⟨hi, P, SUFF, harity, hdec, hset, hins, ?_, ?_, hmemP, hmemS, ?_, ?_⟩
  · intro a ha
    rcases Nat.eq_zero_or_pos i with h0 | h0
    · subst h0
      rw [hP] at ha
      simp at ha
    · have hlastP : P.getLast? = some (its[i - 1]) := by
        rw [hP, inorderAux_getLast?_of_len_eq _ _ (by
            simp only [List.length_take]; omega)
          (by
            intro hc
            have := congrArg List.length hc
            simp only [List.length_take, List.length_nil] at this
            omega)]
        exact take_getLast? its i h0 (by omega)
      have hPsorted : ItemsSorted key P := by
        rw [← pairwise_keys_iff]
        exact (List.pairwise_append.mp hPM).1
      have := sorted_le_getLast key P hPsorted hlastP a ha
      exact lt_of_le_of_lt this (hlow (i - 1) (by omega) (by omega))
  · intro a ha
    rcases Nat.lt_or_ge i its.length with h2 | h2
    · have hSval := hSUFF.1 h2
      have hSsorted : ItemsSorted key SUFF := by
        rw [← pairwise_keys_iff]
        exact (List.pairwise_append.mp hKpair).2.1
      have hheadS : SUFF.head? = some (its[i]) := by
        rw [hSval]
        simp
      have := sorted_head_le key SUFF hSsorted hheadS a ha
      exact lt_of_lt_of_le (hhigh i h2 (le_refl i)) this
    · have : i = its.length := by omega
      rw [hSUFF.2 this] at ha
      simp at ha
  · intro p hp c hc
    have := (List.pairwise_append.mp hPM).2.2 (key p)
      (List.mem_map_of_mem key hp) (key c) (List.mem_map_of_mem key hc)
    exact this
  · intro c hc s hsm
    have := (List.pairwise_append.mp hKpair).2.2 (key c)
      (by
        apply List.mem_append_right
        exact List.mem_map_of_mem key hc)
      (key s) (List.mem_map_of_mem key hsm)
    exact this

/-- At a found search position of an internal node, `insert`'s in-place
overwrite of `items[i]` realises `insKeyList`, and leaves the key sequence
of the flatten unchanged. -/
theorem localize_found {maxI hh : Nat} {r : Bool} {its : List α}
    {chs : List (BTNode α)} (x : α) {i : Nat}
    (hw : WFB key maxI hh r (.mk its chs)) (hchs : chs ≠ [])
    (hsearch : itemsSearch key its x = (i, true)) :
    ∃ hlt : i < its.length,
      key (its[i]) = key x ∧
      insKeyList key x (inorderAux chs its) = inorderAux chs (its.set i x) ∧
      keys key (inorderAux chs (its.set i x)) = keys key (inorderAux chs its) := by
  have harity : chs.length = its.length + 1 := by
    cases hw with
    | leaf => exact absurd rfl hchs
    | internal _ _ _ _ h1 => exact h1
  have hsortflat : (keys key (inorderAux chs its)).Pairwise (· < ·) := by
    have := WFB_toList_sorted key hw
    rwa [toList_mk] at this
  have hsits : ItemsSorted key its := WFB_items_sorted key hw
  obtain rfl : i = (itemsSearch key its x).1 := by rw [hsearch]
  obtain ⟨hlt, heq, h1, h2⟩ := itemsSearch_found_spec key x its hsits
    (by rw [hsearch])
  set i := (itemsSearch key its x).1 with hidef
  have hdm := inorderAux_decomp_mid chs its i (by omega) hlt
  have hseteq : its.set i x = its.take i ++ x :: its.drop (i + 1) := by
    rw [List.set_eq_take_append_cons_drop, if_pos hlt]
  have hdm2 : inorderAux chs (its.set i x) =
      inorderAux (chs.take i) (its.take i) ++
        ((chs[i]).toList ++
          x :: inorderAux (chs.drop (i + 1)) (its.drop (i + 1))) := by
    conv_lhs => rw [show chs = chs.take i ++ chs.drop i from
      (List.take_append_drop i chs).symm]
    rw [hseteq, inorderAux_append _ _ _ _ (by
      simp only [List.length_take]
      omega)]
    congr 1
    rw [drop_cons_self chs i (by omega), inorderAux_cons_cons]
  refine ⟨hlt, heq, ?_, ?_⟩
  · rw [hdm, hdm2, ← List.append_assoc, ← List.append_assoc,
      insKeyList_replace key x _ _ _ ?_ heq]
    intro a ha
    have hflatkeys : keys key (inorderAux chs its) =
        keys key (inorderAux (chs.take i) (its.take i) ++ (chs[i]).toList)
          ++ keys key (its[i] :: inorderAux (chs.drop (i + 1)) (its.drop (i + 1))) := by
      rw [hdm]
      simp [keys]
    rw [hflatkeys] at hsortflat
    have := (List.pairwise_append.mp hsortflat).2.2
      (key a) (by
        unfold keys
        exact List.mem_map_of_mem key ha)
      (key (its[i])) (by simp [keys])
    rw [heq] at this
    exact this
  · rw [hdm, hdm2]
    simp [keys, heq]

end Btree

namespace Btree
variable {α κ : Type} [LinearOrder κ] [Inhabited α] (key : α → κ)

theorem insertNonleaf_found {maxI : Nat} {its : List α}
    {chs : List (BTNode α)} {m : α} {i : Nat}
    (hsearch : itemsSearch key its m = (i, true)) :
    insertNonleaf key maxI (.mk its chs) m =
      ⟨.mk (its.set i m) chs, none, false⟩ := by
  unfold insertNonleaf
  simp only [BTNode.items_mk, BTNode.children_mk, hsearch]
  simp

theorem insertNonleaf_notfull {maxI : Nat} {its : List α}
    {chs : List (BTNode α)} {m : α} {i : Nat}
    (hsearch : itemsSearch key its m = (i, false))
    (hlen : its.length < maxI) :
    insertNonleaf key maxI (.mk its chs) m =
      ⟨.mk (listInsertAt its i m) chs, none, true⟩ := by
  unfold insertNonleaf
  simp only [BTNode.items_mk, BTNode.children_mk, hsearch]
  simp [hlen]

theorem insertNonleaf_full {maxI : Nat} {its : List α}
    {chs : List (BTNode α)} {m : α} {i : Nat}
    (hsearch : itemsSearch key its m = (i, false))
    (hlen : ¬ its.length < maxI) :
    insertNonleaf key maxI (.mk its chs) m =
      splitNode key maxI (.mk its chs) m := by
  unfold insertNonleaf
  simp only [BTNode.items_mk, BTNode.children_mk, hsearch]
  simp [hlen]

theorem splitNode_left {maxI : Nat} {its : List α} {chs : List (BTNode α)}
    {m : α} (hcond : key m < key (its.getD (maxI / 2) m)) :
    splitNode key maxI (.mk its chs) m =
      ⟨.mk (listInsertAt (its.take (maxI / 2))
          (itemsSearch key (its.take (maxI / 2)) m).1 m)
        (chs.take (maxI / 2 + 1)),
        some (its.getD (maxI / 2) m,
          .mk (its.drop (maxI / 2 + 1)) (chs.drop (maxI / 2 + 1))), true⟩ := by
  unfold splitNode
  simp only [BTNode.items_mk, BTNode.children_mk]
  rw [if_pos hcond]

theorem splitNode_right {maxI : Nat} {its : List α} {chs : List (BTNode α)}
    {m : α} (hcond : ¬ key m < key (its.getD (maxI / 2) m)) :
    splitNode key maxI (.mk its chs) m =
      ⟨.mk (its.take (maxI / 2)) (chs.take (maxI / 2 + 1)),
        some (its.getD (maxI / 2) m,
          .mk (listInsertAt (its.drop (maxI / 2 + 1))
              (itemsSearch key (its.drop (maxI / 2 + 1)) m).1 m)
            (chs.drop (maxI / 2 + 1))), true⟩ := by
  unfold splitNode
  simp only [BTNode.items_mk, BTNode.children_mk]
  rw [if_neg hcond]

end Btree

namespace Btree
variable {α κ : Type} [LinearOrder κ] [Inhabited α] (key : α → κ)

theorem nodeInsert_found_eq {maxI : Nat} {its : List α} {chs : List (BTNode α)}
    {x : α} {i : Nat} (hsearch : itemsSearch key its x = (i, true)) :
    nodeInsert key maxI (.mk its chs) x = ⟨.mk (its.set i x) chs, none, false⟩ := by
  rw [nodeInsert]
  simp only [hsearch]
  simp

theorem nodeInsert_leaf_notfull_eq {maxI : Nat} {its : List α} {x : α} {i : Nat}
    (hsearch : itemsSearch key its x = (i, false)) (hlen : its.length < maxI) :
    nodeInsert key maxI (.mk its []) x =
      ⟨.mk (listInsertAt its i x) [], none, true⟩ := by
  rw [nodeInsert]
  simp only [hsearch]
  simp [hlen]

theorem nodeInsert_leaf_full_eq {maxI : Nat} {its : List α} {x : α} {i : Nat}
    (hsearch : itemsSearch key its x = (i, false)) (hlen : ¬ its.length < maxI) :
    nodeInsert key maxI (.mk its []) x = splitNode key maxI (.mk its []) x := by
  rw [nodeInsert]
  simp only [hsearch]
  simp [hlen]

theorem nodeInsert_internal_eq {maxI : Nat} {its : List α}
    {chs : List (BTNode α)} {x : α} {i : Nat}
    (hsearch : itemsSearch key its x = (i, false)) (hchs : ¬ chs.isEmpty)
    (hi : i < chs.length) :
    nodeInsert key maxI (.mk its chs) x =
      (let res := nodeInsert key maxI chs[i] x
       let n1 : BTNode α := .mk its (chs.set i res.self)
       match res.promo with
       | none => ⟨n1, none, res.ok⟩
       | some (m, r) =>
         let res2 := insertNonleaf key maxI n1 m
         let pr := itemsSearch key res2.self.items m
         if pr.2 then
           ⟨.mk res2.self.items (listInsertAt res2.self.children (pr.1 + 1) r),
             res2.promo, res2.ok⟩
         else
           match res2.promo with
           | some (m2, r2) =>
             let pr2 := itemsSearch key r2.items m
             if pr2.2 then
               ⟨res2.self,
                 some (m2, .mk r2.items (listInsertAt r2.children (pr2.1 + 1) r)),
                 res2.ok⟩
             else ⟨res2.self, res2.promo, res2.ok⟩
           | none => ⟨res2.self, none, res2.ok⟩) := by
  rw [nodeInsert]
  simp only [hsearch]
  simp only [hchs, Bool.false_eq_true, if_false, dif_pos hi]

end Btree

namespace Btree
variable {α κ : Type} [LinearOrder κ] [Inhabited α] (key : α → κ)

theorem listInsertAt_length {β : Type} (l : List β) (i : Nat) (y : β)
    (h : i ≤ l.length) : (listInsertAt l i y).length = l.length + 1 := by
  simp [listInsertAt]
  omega

theorem take_sorted (l : List α) (i : Nat) (hs : ItemsSorted key l) :
    ItemsSorted key (l.take i) :=
  List.Pairwise.sublist (List.take_sublist i l) hs

theorem drop_sorted (l : List α) (i : Nat) (hs : ItemsSorted key l) :
    ItemsSorted key (l.drop i) :=
  List.Pairwise.sublist (List.drop_sublist i l) hs

theorem take_succ_eq (l : List α) (t : Nat) (h : t < l.length) :
    l.take (t + 1) = l.take t ++ [l[t]] := by
  rw [List.take_succ, List.getElem?_eq_getElem h]
  rfl

/-- The itemsSearch of a not-found key restricted to a prefix of the
items. -/
theorem itemsSearch_take_below (x : α) (s : List α) (hs : ItemsSorted key s)
    {i : Nat} (hsearch : itemsSearch key s x = (i, false)) (t : Nat)
    (hit : i ≤ t) (ht : t ≤ s.length) :
    itemsSearch key (s.take t) x = (i, false) := by
  obtain ⟨hlow, hhigh⟩ := itemsSearch_not_found_spec key x s hs (by rw [hsearch])
  rw [hsearch] at hlow hhigh
  simp only at hlow hhigh
  apply itemsSearch_eq_not_found key x _ (take_sorted key s t hs) i
    (by simp only [List.length_take]; omega)
  · intro j hj hji
    rw [List.getElem_take]
    exact hlow j (by simp only [List.length_take] at hj; omega) hji
  · intro j hj hij
    rw [List.getElem_take]
    exact hhigh j (by simp only [List.length_take] at hj; omega) hij

/-- The itemsSearch of a not-found key restricted to a suffix of the
items. -/
theorem itemsSearch_drop_suffix (x : α) (s : List α) (hs : ItemsSorted key s)
    {i : Nat} (hsearch : itemsSearch key s x = (i, false)) (t : Nat)
    (hit : t ≤ i) :
    itemsSearch key (s.drop t) x = (i - t, false) := by
  obtain ⟨hlow, hhigh⟩ := itemsSearch_not_found_spec key x s hs (by rw [hsearch])
  rw [hsearch] at hlow hhigh
  simp only at hlow hhigh
  have hile : i ≤ s.length := by
    have := itemsSearch_fst_le key x s
    rw [hsearch] at this
    exact this
  apply itemsSearch_eq_not_found key x _ (drop_sorted key s t hs) (i - t)
    (by simp only [List.length_drop]; omega)
  · intro j hj hji
    rw [List.getElem_drop]
    exact hlow (t + j) (by simp only [List.length_drop] at hj; omega) (by omega)
  · intro j hj hij
    rw [List.getElem_drop]
    exact hhigh (t + j) (by simp only [List.length_drop] at hj; omega) (by omega)

end Btree

namespace Btree
variable {α κ : Type} [LinearOrder κ] [Inhabited α] (key : α → κ)

/-- Localization of a not-found search position, from the raw facts (arity
and a sorted flatten) rather than a full node invariant, so that it also
applies to the truncated halves handled inside `Node.split`. -/
theorem localize_nf (x : α) {its : List α} {chs : List (BTNode α)} {i : Nat}
    (harity : chs.length = its.length + 1)
    (hsortflat : (keys key (inorderAux chs its)).Pairwise (· < ·))
    (hsearch : itemsSearch key its x = (i, false)) :
    ∃ (hi : i < chs.length) (P SUFF : List α),
      chs.length = its.length + 1 ∧
      inorderAux chs its = P ++ (chs[i]).toList ++ SUFF ∧
      (∀ c', inorderAux (chs.set i c') its = P ++ c'.toList ++ SUFF) ∧
      (∀ (c' r' : BTNode α) (m' : α),
        inorderAux (listInsertAt (chs.set i c') (i + 1) r')
            (listInsertAt its i m') =
          P ++ c'.toList ++ m' :: r'.toList ++ SUFF) ∧
      (∀ a ∈ P, key a < key x) ∧
      (∀ a ∈ SUFF, key x < key a) ∧
      (∀ (j : Nat) (hj : j < its.length), j < i → its[j] ∈ P) ∧
      (∀ (j : Nat) (hj : j < its.length), i ≤ j → its[j] ∈ SUFF) ∧
      (∀ p ∈ P, ∀ c ∈ (chs[i]).toList, key p < key c) ∧
      (∀ c ∈ (chs[i]).toList, ∀ s ∈ SUFF, key c < key s) := by
  have hsits : ItemsSorted key its := by
    rw [← pairwise_keys_iff]
    exact List.Pairwise.sublist ((sublist_inorderAux chs its).map key) hsortflat
  have hfle : i ≤ its.length := by
    have := itemsSearch_fst_le key x its
    rw [hsearch] at this
    exact this
  have hi : i < chs.length := by omega
  obtain ⟨hlow, hhigh⟩ := itemsSearch_not_found_spec key x its hsits
    (by rw [hsearch])
  rw [hsearch] at hlow hhigh
  simp only at hlow hhigh
  obtain ⟨P, SUFF, hdec, hset, hins, hP, hSUFF⟩ :=
    inorder_set_decomp its chs harity i hi
  have hKsplit : keys key (inorderAux chs its) =
      (keys key P ++ keys key ((chs[i]).toList)) ++ keys key SUFF := by
    rw [hdec]
    simp [keys]
  have hKpair := hKsplit ▸ hsortflat
  have hPM := (List.pairwise_append.mp hKpair).1
  have hmemP : ∀ (j : Nat) (hj : j < its.length), j < i → its[j] ∈ P := by
    intro j hj hji
    have h1 : its[j] ∈ its.take i :=
      List.mem_take_iff_getElem.mpr ⟨j, by omega, rfl⟩
    rw [hP]
    exact (sublist_inorderAux (chs.take i) (its.take i)).subset h1
  have hmemS : ∀ (j : Nat) (hj : j < its.length), i ≤ j → its[j] ∈ SUFF := by
    intro j hj hij
    have h2 : i < its.length := by omega
    rw [hSUFF.1 h2]
    rcases Nat.eq_or_lt_of_le hij with rfl | hlt2
    · simp
    · have h3 : its[j] ∈ its.drop (i + 1) :=
        List.mem_iff_getElem.mpr ⟨j - (i + 1), by
          simp only [List.length_drop]
          omega, by
          rw [List.getElem_drop]
          congr 1
          omega⟩
      exact List.mem_cons_of_mem _
        ((sublist_inorderAux (chs.drop (i + 1)) (its.drop (i + 1))).subset h3)
  refine ⟨hi, P, SUFF, harity, hdec, hset, hins, ?_, ?_, hmemP, hmemS, ?_, ?_⟩
  · intro a ha
    rcases Nat.eq_zero_or_pos i with h0 | h0
    · subst h0
      rw [hP] at ha
      simp at ha
    · have hlastP : P.getLast? = some (its[i - 1]) := by
        rw [hP, inorderAux_getLast?_of_len_eq _ _ (by
            simp only [List.length_take]; omega)
          (by
            intro hc
            have := congrArg List.length hc
            simp only [List.length_take, List.length_nil] at this
            omega)]
        exact take_getLast? its i h0 (by omega)
      have hPsorted : ItemsSorted key P := by
        rw [← pairwise_keys_iff]
        exact (List.pairwise_append.mp hPM).1
      have := sorted_le_getLast key P hPsorted hlastP a ha
      exact lt_of_le_of_lt this (hlow (i - 1) (by omega) (by omega))
  · intro a ha
    rcases Nat.lt_or_ge i its.length with h2 | h2
    · have hSval := hSUFF.1 h2
      have hSsorted : ItemsSorted key SUFF := by
        rw [← pairwise_keys_iff]
        exact (List.pairwise_append.mp hKpair).2.1
      have hheadS : SUFF.head? = some (its[i]) := by
        rw [hSval]
        simp
      have := sorted_head_le key SUFF hSsorted hheadS a ha
      exact lt_of_lt_of_le (hhigh i h2 (le_refl i)) this
    · have : i = its.length := by omega
      rw [hSUFF.2 this] at ha
      simp at ha
  · intro p hp c hc
    have := (List.pairwise_append.mp hPM).2.2 (key p)
      (List.mem_map_of_mem key hp) (key c) (List.mem_map_of_mem key hc)
    exact this
  · intro c hc s hsm
    have := (List.pairwise_append.mp hKpair).2.2 (key c)
      (by
        apply List.mem_append_right
        exact List.mem_map_of_mem key hc)
      (key s) (List.mem_map_of_mem key hsm)
    exact this


/-- Membership in a list after a positional insertion. -/
theorem mem_listInsertAt {β : Type} {a y : β} {l : List β} {i : Nat}
    (h : a ∈ listInsertAt l i y) : a = y ∨ a ∈ l := by
  unfold listInsertAt at h
  rcases List.mem_append.mp h with h1 | h1
  · exact Or.inr ((List.take_sublist i l).subset h1)
  · rcases List.mem_cons.mp h1 with h2 | h2
    · exact Or.inl h2
    · exact Or.inr ((List.drop_sublist i l).subset h2)

/-- Searching for an item just inserted at its not-found position finds it
there. -/
theorem itemsSearch_listInsertAt_self (m : α) (s : List α)
    (hs : ItemsSorted key s) {i : Nat}
    (hsearch : itemsSearch key s m = (i, false)) :
    itemsSearch key (listInsertAt s i m) m = (i, true) := by
  have h1 := insKeyList_eq_listInsertAt key m s hs (by rw [hsearch])
  rw [hsearch] at h1
  simp only at h1
  have hnm : key m ∉ s.map key := by
    intro hc
    have := (itemsSearch_found_iff key m s hs).mpr hc
    rw [hsearch] at this
    simp at this
  have hfle : i ≤ s.length := by
    have := itemsSearch_fst_le key m s
    rw [hsearch] at this
    exact this
  have hlen : (listInsertAt s i m).length = s.length + 1 :=
    listInsertAt_length s i m hfle
  have hsorted : ItemsSorted key (listInsertAt s i m) := by
    rw [← h1]
    exact insKeyList_sorted key m s hs
  have hget : (listInsertAt s i m)[i] = m := by
    unfold listInsertAt
    rw [List.getElem_append_right (by simp only [List.length_take]; omega)]
    simp only [List.length_take]
    have : i - min i s.length = 0 := by omega
    simp [this]
  exact itemsSearch_eq_found_at key m _ hsorted i (by omega) (by rw [hget])

end Btree

namespace Btree
variable {α κ : Type} [LinearOrder κ] [Inhabited α] (key : α → κ)

/-- The key being inserted occurs in a three-part flatten exactly when it
occurs in the middle part, the outer parts being strictly on either side of
it. -/
theorem mem_flat_iff (x : α) {P M SUFF : List α}
    (hPb : ∀ a ∈ P, key a < key x) (hSb : ∀ a ∈ SUFF, key x < key a) :
    key x ∈ (P ++ M ++ SUFF).map key ↔ key x ∈ M.map key := by
  simp only [List.map_append, List.mem_append]
  constructor
  · rintro ((hp | hm) | hs)
    · rcases List.mem_map.mp hp with ⟨a, ha, hak⟩
      exact absurd hak (ne_of_lt (hPb a ha))
    · exact hm
    · rcases List.mem_map.mp hs with ⟨a, ha, hak⟩
      exact absurd hak (ne_of_gt (hSb a ha))
  · intro hm
    exact Or.inl (Or.inr hm)

end Btree

namespace Btree
variable {α κ : Type} [LinearOrder κ] [Inhabited α] (key : α → κ)

theorem nodeInsert_internal_none_eq {maxI : Nat} {its : List α}
    {chs : List (BTNode α)} {x : α} {i : Nat}
    (hsearch : itemsSearch key its x = (i, false)) (hchs : ¬ chs.isEmpty)
    (hi : i < chs.length)
    (hpromo : (nodeInsert key maxI chs[i] x).promo = none) :
    nodeInsert key maxI (.mk its chs) x =
      ⟨.mk its (chs.set i (nodeInsert key maxI chs[i] x).self), none,
        (nodeInsert key maxI chs[i] x).ok⟩ := by
  rw [nodeInsert_internal_eq key hsearch hchs hi]
  simp only [hpromo]

theorem nodeInsert_internal_some_eq {maxI : Nat} {its : List α}
    {chs : List (BTNode α)} {x : α} {i : Nat} {m : α} {rt : BTNode α}
    (hsearch : itemsSearch key its x = (i, false)) (hchs : ¬ chs.isEmpty)
    (hi : i < chs.length)
    (hpromo : (nodeInsert key maxI chs[i] x).promo = some (m, rt)) :
    nodeInsert key maxI (.mk its chs) x =
      (let res2 := insertNonleaf key maxI
        (.mk its (chs.set i (nodeInsert key maxI chs[i] x).self)) m
       let pr := itemsSearch key res2.self.items m
       if pr.2 then
         ⟨.mk res2.self.items (listInsertAt res2.self.children (pr.1 + 1) rt),
           res2.promo, res2.ok⟩
       else
         match res2.promo with
         | some (m2, r2) =>
           let pr2 := itemsSearch key r2.items m
           if pr2.2 then
             ⟨res2.self,
               some (m2, .mk r2.items (listInsertAt r2.children (pr2.1 + 1) rt)),
               res2.ok⟩
           else ⟨res2.self, res2.promo, res2.ok⟩
         | none => ⟨res2.self, none, res2.ok⟩) := by
  rw [nodeInsert_internal_eq key hsearch hchs hi]
  simp only [hpromo]

end Btree

namespace Btree
variable {α κ : Type} [LinearOrder κ] [Inhabited α] (key : α → κ)

/-- Splitting a sorted key sequence over an append. -/
theorem pairwise_keys_append {A B : List α}
    (h : (keys key (A ++ B)).Pairwise (· < ·)) :
    (keys key A).Pairwise (· < ·) ∧ (keys key B).Pairwise (· < ·) ∧
      ∀ a ∈ A, ∀ b ∈ B, key a < key b := by
  rw [keys, List.map_append] at h
  obtain ⟨h1, h2, h3⟩ := List.pairwise_append.mp h
  exact ⟨h1, h2, fun a ha b hb =>
    h3 (key a) (List.mem_map_of_mem key ha) (key b) (List.mem_map_of_mem key hb)⟩

end Btree

namespace Btree
variable {α κ : Type} [LinearOrder κ] [Inhabited α] (key : α → κ)

/-- The complete content produced by one `Node.insert` call: the flatten of
the returned receiver followed, when a split promoted a median, by that
median and the flatten of the new right sibling. -/
def insAssemble (res : InsRes α) : List α :=
  res.self.toList ++
    (match res.promo with
     | none => []
     | some (m, rt) => m :: rt.toList)

/-- Master correctness of `Node.insert` (btree.go:945-982) on a well-formed
node: the produced content is the sorted insertion (with key-replacement)
of the item into the subtree's flatten, the returned flag is `true` exactly
when the key was absent, and the node invariants are preserved — the
receiver keeps its height and root status when no split occurred, and after
a split both halves are valid non-root nodes of the same height. -/
theorem nodeInsert_main {maxI hh : Nat} {r : Bool}
    (hodd : maxI % 2 = 1) (hmax : 3 ≤ maxI) {n : BTNode α}
    (hw : WFB key maxI hh r n) (x : α) :
    insAssemble (nodeInsert key maxI n x) = insKeyList key x n.toList ∧
    ((nodeInsert key maxI n x).ok = true ↔
      key x ∉ (n.toList).map key) ∧
    ((nodeInsert key maxI n x).promo = none →
      WFB key maxI hh r (nodeInsert key maxI n x).self) ∧
    (∀ m rt, (nodeInsert key maxI n x).promo = some (m, rt) →
      (nodeInsert key maxI n x).ok = true ∧
      WFB key maxI hh false (nodeInsert key maxI n x).self ∧
      WFB key maxI hh false rt) := by
  induction hw with
  | leaf its isRoot hr1 hr2 hlen hpair =>
    have hsits : ItemsSorted key its := (pairwise_keys_iff key its).mp hpair
    have htl : BTNode.toList (.mk its ([] : List (BTNode α))) = its := by
      rw [toList_mk, inorderAux_nil]
    rcases hse : itemsSearch key its x with ⟨i, existed⟩
    cases existed with
    | true =>
      rw [nodeInsert_found_eq key hse]
      have hrepr : its.set i x = insKeyList key x its := by
        rw [insKeyList_eq_set key x its hsits (by rw [hse]), hse]
      have hmem : key x ∈ its.map key :=
        (itemsSearch_found_iff key x its hsits).mp (by rw [hse])
      refine ⟨?_, ?_, ?_, ?_⟩
      · simp only [insAssemble, htl, toList_mk, inorderAux_nil,
          List.append_nil]
        exact hrepr
      · simp only [htl]
        simpa using hmem
      · intro _
        dsimp only
        refine WFB.leaf _ _ ?_ ?_ ?_ ?_
        · intro h
          rw [List.length_set]
          exact hr1 h
        · intro h
          rw [List.length_set]
          exact hr2 h
        · rw [List.length_set]
          exact hlen
        · rw [pairwise_keys_iff, hrepr]
          exact insKeyList_sorted key x its hsits
      · intro m rt hc
        simp at hc
    | false =>
      have hnmem : key x ∉ its.map key := by
        intro hc
        have := (itemsSearch_found_iff key x its hsits).mpr hc
        rw [hse] at this
        simp at this
      have hfle : i ≤ its.length := by
        have := itemsSearch_fst_le key x its
        rw [hse] at this
        exact this
      obtain ⟨hlowx, hhighx⟩ := itemsSearch_not_found_spec key x its hsits
        (by rw [hse])
      rw [hse] at hlowx hhighx
      simp only at hlowx hhighx
      by_cases hfull : its.length < maxI
      · rw [nodeInsert_leaf_notfull_eq key hse hfull]
        have hrepr : listInsertAt its i x = insKeyList key x its := by
          rw [insKeyList_eq_listInsertAt key x its hsits (by rw [hse]), hse]
        refine ⟨?_, ?_, ?_, ?_⟩
        · simp only [insAssemble, htl, toList_mk, inorderAux_nil,
            List.append_nil]
          exact hrepr
        · simp only [htl]
          simpa using hnmem
        · intro _
          dsimp only
          refine WFB.leaf _ _ ?_ ?_ ?_ ?_
          · intro _
            rw [listInsertAt_length its i x hfle]
            omega
          · intro h
            rw [listInsertAt_length its i x hfle]
            have := hr2 h
            omega
          · rw [listInsertAt_length its i x hfle]
            omega
          · rw [pairwise_keys_iff, hrepr]
            exact insKeyList_sorted key x its hsits
        · intro m rt hc
          simp at hc
      · -- the leaf is full: it splits around the median
        have hlmax : its.length = maxI := by omega
        have ht2 : maxI = 2 * (maxI / 2) + 1 := by omega
        have htlt : maxI / 2 < its.length := by omega
        have hgetd : its.getD (maxI / 2) x = its[maxI / 2] :=
          List.getD_eq_getElem its x htlt
        rcases le_or_lt i (maxI / 2) with hit | hit
        · -- the new item belongs to the left half
          have hcond : key x < key (its.getD (maxI / 2) x) := by
            rw [hgetd]
            exact hhighx _ htlt hit
          rw [nodeInsert_leaf_full_eq key hse (by omega),
            splitNode_left key hcond]
          have hts : itemsSearch key (its.take (maxI / 2)) x = (i, false) :=
            itemsSearch_take_below key x its hsits hse _ hit (by omega)
          rw [hts]
          dsimp only [List.take_nil, List.drop_nil]
          have hreprL : listInsertAt (its.take (maxI / 2)) i x =
              insKeyList key x (its.take (maxI / 2)) := by
            rw [insKeyList_eq_listInsertAt key x _
              (take_sorted key its _ hsits) (by rw [hts]), hts]
          have hLlen : (listInsertAt (its.take (maxI / 2)) i x).length =
              maxI / 2 + 1 := by
            rw [listInsertAt_length _ _ _ (by
              simp only [List.length_take]
              omega)]
            simp only [List.length_take]
            omega
          refine ⟨?_, ?_, ?_, ?_⟩
          · simp only [insAssemble, htl, toList_mk, inorderAux_nil]
            conv_rhs => rw [split_at_idx its (maxI / 2) htlt]
            rw [insKeyList_append_left key x _ _ (by
              intro b hb
              rcases List.mem_cons.mp hb with rfl | hb2
              · exact hhighx _ htlt hit
              · exact mem_drop_gt key x its (maxI / 2 + 1)
                  (fun j hj hij => hhighx j hj (by omega)) b hb2)]
            rw [hgetd, hreprL]
            simp
          · simp only [htl]
            simpa using hnmem
          · intro hc
            simp at hc
          · intro m rt hc
            simp only [Option.some.injEq, Prod.mk.injEq] at hc
            obtain ⟨hm, hrt⟩ := hc
            subst hm hrt
            refine ⟨rfl, ?_, ?_⟩
            · refine WFB.leaf _ _ ?_ ?_ ?_ ?_
              · intro _
                rw [hLlen]
                omega
              · intro _
                rw [hLlen]
                omega
              · rw [hLlen]
                omega
              · rw [pairwise_keys_iff, hreprL]
                exact insKeyList_sorted key x _ (take_sorted key its _ hsits)
            · refine WFB.leaf _ _ ?_ ?_ ?_ ?_
              · intro _
                simp only [List.length_drop]
                omega
              · intro _
                simp only [List.length_drop]
                omega
              · simp only [List.length_drop]
                omega
              · rw [pairwise_keys_iff]
                exact drop_sorted key its _ hsits
        · -- the new item belongs to the right half
          have hcond : ¬ key x < key (its.getD (maxI / 2) x) := by
            rw [hgetd]
            exact not_lt.mpr (le_of_lt (hlowx _ htlt hit))
          rw [nodeInsert_leaf_full_eq key hse (by omega),
            splitNode_right key hcond]
          have hds : itemsSearch key (its.drop (maxI / 2 + 1)) x =
              (i - (maxI / 2 + 1), false) :=
            itemsSearch_drop_suffix key x its hsits hse _ (by omega)
          rw [hds]
          dsimp only [List.take_nil, List.drop_nil]
          have hreprR : listInsertAt (its.drop (maxI / 2 + 1))
              (i - (maxI / 2 + 1)) x =
              insKeyList key x (its.drop (maxI / 2 + 1)) := by
            rw [insKeyList_eq_listInsertAt key x _
              (drop_sorted key its _ hsits) (by rw [hds]), hds]
          have hRlen : (listInsertAt (its.drop (maxI / 2 + 1))
              (i - (maxI / 2 + 1)) x).length = maxI / 2 + 1 := by
            rw [listInsertAt_length _ _ _ (by
              simp only [List.length_drop]
              omega)]
            simp only [List.length_drop]
            omega
          refine ⟨?_, ?_, ?_, ?_⟩
          · simp only [insAssemble, htl, toList_mk, inorderAux_nil]
            conv_rhs => rw [split_at_idx its (maxI / 2) htlt]
            rw [insKeyList_append_right key x _ _
              (mem_take_lt key x its _ (fun j hj hji => hlowx j hj (by omega))),
              insKeyList_cons_gt key _ (hlowx _ htlt hit), hgetd, hreprR]
            simp
          · simp only [htl]
            simpa using hnmem
          · intro hc
            simp at hc
          · intro m rt hc
            simp only [Option.some.injEq, Prod.mk.injEq] at hc
            obtain ⟨hm, hrt⟩ := hc
            subst hm hrt
            refine ⟨rfl, ?_, ?_⟩
            · refine WFB.leaf _ _ ?_ ?_ ?_ ?_
              · intro _
                simp only [List.length_take]
                omega
              · intro _
                simp only [List.length_take]
                omega
              · simp only [List.length_take]
                omega
              · rw [pairwise_keys_iff]
                exact take_sorted key its _ hsits
            · refine WFB.leaf _ _ ?_ ?_ ?_ ?_
              · intro _
                rw [hRlen]
                omega
              · intro _
                rw [hRlen]
                omega
              · rw [hRlen]
                omega
              · rw [pairwise_keys_iff, hreprR]
                exact insKeyList_sorted key x _ (drop_sorted key its _ hsits)
  | internal its chs h isRoot h1 hr1 hr2 hlen hch hpair ih =>
    have hsortflat : (keys key (inorderAux chs its)).Pairwise (· < ·) := by
      rwa [toList_mk] at hpair
    have hsflat : ItemsSorted key (inorderAux chs its) :=
      (pairwise_keys_iff key _).mp hsortflat
    have hsits : ItemsSorted key its := by
      rw [← pairwise_keys_iff]
      exact List.Pairwise.sublist ((sublist_inorderAux chs its).map key)
        hsortflat
    have hchs_ne : chs ≠ [] := by
      intro hc
      rw [hc] at h1
      exact absurd h1.symm (Nat.succ_ne_zero _)
    rcases hse : itemsSearch key its x with ⟨i, existed⟩
    cases existed with
    | true =>
      rw [nodeInsert_found_eq key hse]
      obtain ⟨hlt, hkeq, hins_eq, hkeys_eq⟩ := localize_found key x
        (WFB.internal its chs h isRoot h1 hr1 hr2 hlen hch hpair) hchs_ne hse
      have hmem : key x ∈ (inorderAux chs its).map key := by
        rw [← hkeq]
        exact List.mem_map_of_mem key
          ((sublist_inorderAux chs its).subset (its.getElem_mem hlt))
      refine ⟨?_, ?_, ?_, ?_⟩
      · simp only [insAssemble, toList_mk, List.append_nil]
        exact hins_eq.symm
      · simp only [toList_mk]
        simpa using hmem
      · intro _
        dsimp only
        refine WFB.internal _ _ h isRoot ?_ ?_ ?_ ?_ hch ?_
        · rw [List.length_set]
          exact h1
        · intro hr
          rw [List.length_set]
          exact hr1 hr
        · intro hr
          rw [List.length_set]
          exact hr2 hr
        · rw [List.length_set]
          exact hlen
        · rw [toList_mk, pairwise_keys_iff, ← pairwise_keys_iff key, hkeys_eq]
          exact hsortflat
      · intro m rt hc
        simp at hc
    | false =>
      obtain ⟨hi, P, SUFF, harity2, hdec, hset, hins, hPb, hSb, hmemP, hmemS,
        hPC, hCS⟩ := localize_nf key x h1 hsortflat hse
      have hfle : i ≤ its.length := by
        have := itemsSearch_fst_le key x its
        rw [hse] at this
        exact this
      obtain ⟨hlowx, hhighx⟩ := itemsSearch_not_found_spec key x its hsits
        (by rw [hse])
      rw [hse] at hlowx hhighx
      simp only at hlowx hhighx
      have hne : ¬ chs.isEmpty := by
        simpa [List.isEmpty_iff] using hchs_ne
      obtain ⟨ihc, ihok, ihnone, ihsome⟩ := ih (chs[i]) (chs.getElem_mem hi)
      have hRHSform : insKeyList key x (inorderAux chs its) =
          P ++ (insKeyList key x ((chs[i]).toList) ++ SUFF) := by
        rw [hdec, List.append_assoc, insKeyList_append_right key x P _ hPb,
          insKeyList_append_left key x _ SUFF hSb]
      have hiff : key x ∈ (inorderAux chs its).map key ↔
          key x ∈ ((chs[i]).toList).map key := by
        rw [hdec]
        exact mem_flat_iff key x hPb hSb
      rcases hpromo : (nodeInsert key maxI (chs[i]) x).promo
        with _ | ⟨m, rt⟩
      · rw [nodeInsert_internal_none_eq key hse hne hi hpromo]
        have hct : (nodeInsert key maxI (chs[i]) x).self.toList = insKeyList key x ((chs[i]).toList) := by
          have h0 := ihc
          simp only [insAssemble, hpromo, List.append_nil] at h0
          exact h0
        refine ⟨?_, ?_, ?_, ?_⟩
        · simp only [insAssemble, toList_mk, List.append_nil]
          rw [hset (nodeInsert key maxI (chs[i]) x).self, hct, List.append_assoc]
          exact hRHSform.symm
        · simp only [toList_mk]
          exact ihok.trans (not_congr hiff).symm
        · intro _
          dsimp only
          refine WFB.internal _ _ h isRoot ?_ hr1 hr2 hlen ?_ ?_
          · rw [List.length_set]
            exact h1
          · intro c hc
            rcases List.mem_or_eq_of_mem_set hc with hc2 | hceq
            · exact hch c hc2
            · exact hceq ▸ ihnone hpromo
          · rw [toList_mk, pairwise_keys_iff]
            rw [hset (nodeInsert key maxI (chs[i]) x).self, hct]
            have hform : P ++ insKeyList key x ((chs[i]).toList) ++ SUFF =
                insKeyList key x (inorderAux chs its) := by
              rw [hRHSform, List.append_assoc]
            rw [hform]
            exact insKeyList_sorted key x _ hsflat
        · intro m rt hc
          simp at hc
      · -- a split in the child promoted a median to this node
        rw [nodeInsert_internal_some_eq key hse hne hi hpromo]
        obtain ⟨hok_c, hwcs, hwrt⟩ := ihsome m rt hpromo
        have hct : (nodeInsert key maxI (chs[i]) x).self.toList ++ m :: rt.toList =
            insKeyList key x ((chs[i]).toList) := by
          have h0 := ihc
          simp only [insAssemble, hpromo] at h0
          exact h0
        have hxnotin : key x ∉ ((chs[i]).toList).map key := ihok.mp hok_c
        have hmmem : key m ∈ (insKeyList key x ((chs[i]).toList)).map key := by
          rw [← hct]
          exact List.mem_map_of_mem key (by simp)
        have hmcase : key m = key x ∨ key m ∈ ((chs[i]).toList).map key :=
          (mem_keys_insKeyList key x _ m).mp hmmem
        have hPm : ∀ p ∈ P, key p < key m := by
          intro p hp
          rcases hmcase with hmx | hmM
          · rw [hmx]
            exact hPb p hp
          · rcases List.mem_map.mp hmM with ⟨c, hc, hck⟩
            rw [← hck]
            exact hPC p hp c hc
        have hmS : ∀ s ∈ SUFF, key m < key s := by
          intro s hsm
          rcases hmcase with hmx | hmM
          · rw [hmx]
            exact hSb s hsm
          · rcases List.mem_map.mp hmM with ⟨c, hc, hck⟩
            rw [← hck]
            exact hCS c hc s hsm
        have hsearch_m : itemsSearch key its m = (i, false) := by
          apply itemsSearch_eq_not_found key m its hsits i hfle
          · intro j hj hji
            exact hPm its[j] (hmemP j hj hji)
          · intro j hj hij
            exact hmS its[j] (hmemS j hj hij)
        by_cases hfull : its.length < maxI
        · rw [insertNonleaf_notfull key hsearch_m hfull]
          simp only [BTNode.items_mk, BTNode.children_mk]
          rw [itemsSearch_listInsertAt_self key m its hsits hsearch_m]
          dsimp only
          rw [if_pos (Eq.refl true)]
          have hcontent : inorderAux (listInsertAt (chs.set i (nodeInsert key maxI (chs[i]) x).self)
              (i + 1) rt) (listInsertAt its i m) =
              insKeyList key x (inorderAux chs its) := by
            rw [hins (nodeInsert key maxI (chs[i]) x).self rt m, hRHSform, ← hct]
            simp [List.append_assoc]
          refine ⟨?_, ?_, ?_, ?_⟩
          · simp only [insAssemble, toList_mk, List.append_nil]
            exact hcontent
          · simp only [toList_mk]
            have hnot : key x ∉ (inorderAux chs its).map key :=
              fun hc => hxnotin (hiff.mp hc)
            simpa using hnot
          · intro _
            dsimp only
            refine WFB.internal _ _ h isRoot ?_ ?_ ?_ ?_ ?_ ?_
            · rw [listInsertAt_length _ _ _ (by
                rw [List.length_set]
                omega), List.length_set,
                listInsertAt_length its i m hfle, h1]
            · intro _
              rw [listInsertAt_length its i m hfle]
              omega
            · intro hr
              rw [listInsertAt_length its i m hfle]
              rcases isRoot with _ | _
              · have h2 := hr2 rfl
                omega
              · exact absurd hr (by simp)
            · rw [listInsertAt_length its i m hfle]
              omega
            · intro c hc
              rcases mem_listInsertAt hc with rfl | hc2
              · exact hwrt
              · rcases List.mem_or_eq_of_mem_set hc2 with hc3 | hceq
                · exact hch c hc3
                · exact hceq ▸ hwcs
            · rw [toList_mk, pairwise_keys_iff, hcontent]
              exact insKeyList_sorted key x _ hsflat
          · intro m2 rt2 hc
            simp at hc
        · -- this node is itself full: it splits too
          have hlmax : its.length = maxI := by omega
          have ht2 : maxI = 2 * (maxI / 2) + 1 := by omega
          have htlt : maxI / 2 < its.length := by omega
          have hgetd : its.getD (maxI / 2) m = its[maxI / 2] :=
            List.getD_eq_getElem its m htlt
          obtain ⟨hlowm, hhighm⟩ := itemsSearch_not_found_spec key m its hsits
            (by rw [hsearch_m])
          rw [hsearch_m] at hlowm hhighm
          simp only at hlowm hhighm
          have harityT : (chs.take (maxI / 2 + 1)).length =
              (its.take (maxI / 2)).length + 1 := by
            simp only [List.length_take]
            omega
          have hLF : inorderAux (chs.take (maxI / 2 + 1)) (its.take (maxI / 2)) =
              inorderAux (chs.take (maxI / 2)) (its.take (maxI / 2)) ++
                (chs[maxI / 2]).toList := by
            have hsplitc : chs.take (maxI / 2 + 1) =
                chs.take (maxI / 2) ++ [chs[maxI / 2]] := by
              rw [List.take_succ,
                List.getElem?_eq_getElem (by omega : maxI / 2 < chs.length)]
              rfl
            have hstep1 : inorderAux
                (chs.take (maxI / 2) ++ [chs[maxI / 2]])
                (its.take (maxI / 2)) =
                inorderAux (chs.take (maxI / 2)) (its.take (maxI / 2)) ++
                  (chs[maxI / 2]).toList := by
              have h4 := inorderAux_append (chs.take (maxI / 2))
                [chs[maxI / 2]] (its.take (maxI / 2)) [] (by
                  simp only [List.length_take]
                  omega)
              simpa using h4
            rw [hsplitc, hstep1]
          have hdecT : inorderAux chs its =
              inorderAux (chs.take (maxI / 2 + 1)) (its.take (maxI / 2)) ++
                its[maxI / 2] ::
                  inorderAux (chs.drop (maxI / 2 + 1)) (its.drop (maxI / 2 + 1)) := by
            rw [inorderAux_decomp_mid chs its (maxI / 2) (by omega) htlt, hLF,
              List.append_assoc]
          have hsplit_pair : (keys key
              (inorderAux (chs.take (maxI / 2 + 1)) (its.take (maxI / 2)) ++
                its[maxI / 2] ::
                  inorderAux (chs.drop (maxI / 2 + 1))
                    (its.drop (maxI / 2 + 1)))).Pairwise (· < ·) := by
            rw [← hdecT]
            exact hsortflat
          obtain ⟨hsLF, hsTR, hcrossLR⟩ := pairwise_keys_append key hsplit_pair
          have hsTR2 := hsTR
          simp only [keys, List.map_cons] at hsTR2
          have hTR : ∀ b ∈ inorderAux (chs.drop (maxI / 2 + 1))
              (its.drop (maxI / 2 + 1)), key its[maxI / 2] < key b :=
            fun b hb => (List.pairwise_cons.mp hsTR2).1 (key b)
              (List.mem_map_of_mem key hb)
          have hsRF : (keys key (inorderAux (chs.drop (maxI / 2 + 1))
              (its.drop (maxI / 2 + 1)))).Pairwise (· < ·) :=
            (List.pairwise_cons.mp hsTR2).2
          rcases le_or_lt i (maxI / 2) with hit | hit
          · -- the promoted median goes to the left half
            have hcond : key m < key (its.getD (maxI / 2) m) := by
              rw [hgetd]
              exact hhighm _ htlt hit
            rw [insertNonleaf_full key hsearch_m hfull, splitNode_left key hcond]
            rw [itemsSearch_take_below key m its hsits hsearch_m _ hit (by omega)]
            rw [List.set_take, List.drop_set, if_pos (by omega : i < maxI / 2 + 1)]
            simp only [BTNode.items_mk, BTNode.children_mk]
            rw [itemsSearch_listInsertAt_self key m (its.take (maxI / 2))
              (take_sorted key its _ hsits)
              (itemsSearch_take_below key m its hsits hsearch_m _ hit (by omega))]
            dsimp only
            rw [if_pos (Eq.refl true)]
            have hsearch_xT : itemsSearch key (its.take (maxI / 2)) x = (i, false) :=
              itemsSearch_take_below key x its hsits hse _ hit (by omega)
            obtain ⟨hiT, P2, SUFF2, _, hdec2, hset2, hins2, hPb2, hSb2, _, _,
              hPC2, hCS2⟩ := localize_nf key x harityT hsLF hsearch_xT
            simp only [List.getElem_take] at hdec2 hPC2 hCS2
            have hxt : key x < key its[maxI / 2] := hhighx _ htlt hit
            have hxRF : ∀ b ∈ its[maxI / 2] ::
                inorderAux (chs.drop (maxI / 2 + 1)) (its.drop (maxI / 2 + 1)),
                key x < key b := by
              intro b hb
              rcases List.mem_cons.mp hb with rfl | hb2
              · exact hxt
              · exact lt_trans hxt (hTR b hb2)
            have hcontentL : inorderAux
                (listInsertAt ((chs.take (maxI / 2 + 1)).set i
                  (nodeInsert key maxI (chs[i]) x).self) (i + 1) rt)
                (listInsertAt (its.take (maxI / 2)) i m) =
                insKeyList key x
                  (inorderAux (chs.take (maxI / 2 + 1)) (its.take (maxI / 2))) := by
              rw [hins2 (nodeInsert key maxI (chs[i]) x).self rt m]
              conv_rhs => rw [hdec2, List.append_assoc,
                insKeyList_append_right key x P2 _ hPb2,
                insKeyList_append_left key x _ SUFF2 hSb2]
              rw [← hct]
              simp [List.append_assoc]
            have hRHS2 : insKeyList key x (inorderAux chs its) =
                insKeyList key x
                  (inorderAux (chs.take (maxI / 2 + 1)) (its.take (maxI / 2))) ++
                its[maxI / 2] ::
                  inorderAux (chs.drop (maxI / 2 + 1)) (its.drop (maxI / 2 + 1)) := by
              rw [hdecT, insKeyList_append_left key x _ _ hxRF]
            have hxnotinflat : key x ∉ (inorderAux chs its).map key := by
              intro hc
              rw [hdecT, List.map_append] at hc
              rcases List.mem_append.mp hc with hL | hTR2m
              · rw [hdec2] at hL
                exact hxnotin ((mem_flat_iff key x hPb2 hSb2).mp hL)
              · rw [List.map_cons] at hTR2m
                rcases List.mem_cons.mp hTR2m with heq | hR
                · exact absurd heq (ne_of_lt hxt)
                · rcases List.mem_map.mp hR with ⟨b, hb, hbk⟩
                  exact absurd hbk.symm (ne_of_lt (lt_trans hxt (hTR b hb)))
            refine ⟨?_, ?_, ?_, ?_⟩
            · simp only [insAssemble, toList_mk]
              rw [hgetd, hcontentL, hRHS2]
            · simp only [toList_mk]
              simpa using hxnotinflat
            · intro hcnone
              simp at hcnone
            · intro m2 rt2 hc
              simp only [Option.some.injEq, Prod.mk.injEq] at hc
              obtain ⟨hm2, hrt2⟩ := hc
              subst hm2 hrt2
              refine ⟨rfl, ?_, ?_⟩
              · have hilen : i ≤ (its.take (maxI / 2)).length := by
                  simp only [List.length_take]
                  omega
                have hclen : i + 1 ≤ ((chs.take (maxI / 2 + 1)).set i
                    (nodeInsert key maxI (chs[i]) x).self).length := by
                  rw [List.length_set]
                  simp only [List.length_take]
                  omega
                refine WFB.internal _ _ h false ?_ ?_ ?_ ?_ ?_ ?_
                · rw [listInsertAt_length _ _ _ hclen, List.length_set,
                    listInsertAt_length _ _ _ hilen]
                  simp only [List.length_take]
                  omega
                · intro hcf
                  exact absurd hcf (by simp)
                · intro _
                  rw [listInsertAt_length _ _ _ hilen]
                  simp only [List.length_take]
                  omega
                · rw [listInsertAt_length _ _ _ hilen]
                  simp only [List.length_take]
                  omega
                · intro c hcm
                  rcases mem_listInsertAt hcm with rfl | hc2
                  · exact hwrt
                  · rcases List.mem_or_eq_of_mem_set hc2 with hc3 | hceq
                    · exact hch c (List.take_subset _ _ hc3)
                    · exact hceq ▸ hwcs
                · rw [toList_mk, pairwise_keys_iff, hcontentL]
                  exact insKeyList_sorted key x _ ((pairwise_keys_iff key _).mp hsLF)
              · refine WFB.internal _ _ h false ?_ ?_ ?_ ?_ ?_ ?_
                · simp only [List.length_drop]
                  omega
                · intro hcf
                  exact absurd hcf (by simp)
                · intro _
                  simp only [List.length_drop]
                  omega
                · simp only [List.length_drop]
                  omega
                · intro c hcm
                  exact hch c (List.drop_subset _ _ hcm)
                · rw [toList_mk, pairwise_keys_iff]
                  exact (pairwise_keys_iff key _).mp hsRF
          · -- the promoted median goes to the right half
            have hcond : ¬ key m < key (its.getD (maxI / 2) m) := by
              rw [hgetd]
              exact not_lt.mpr (le_of_lt (hlowm _ htlt hit))
            rw [insertNonleaf_full key hsearch_m hfull, splitNode_right key hcond]
            rw [itemsSearch_drop_suffix key m its hsits hsearch_m _ (by omega)]
            rw [List.set_take,
              List.set_eq_of_length_le (by
                simp only [List.length_take]
                omega),
              List.drop_set, if_neg (by omega : ¬ i < maxI / 2 + 1)]
            simp only [BTNode.items_mk, BTNode.children_mk]
            have hprT : itemsSearch key (its.take (maxI / 2)) m =
                (maxI / 2, false) := by
              apply itemsSearch_eq_not_found key m _
                (take_sorted key its _ hsits) _ (by
                  simp only [List.length_take]
                  omega)
              · intro j hj hjlt
                rw [List.getElem_take]
                exact hlowm j (by
                  simp only [List.length_take] at hj
                  omega) (by omega)
              · intro j hj hge
                simp only [List.length_take] at hj
                exact absurd hge (by omega)
            rw [hprT]
            dsimp only
            rw [if_neg (by simp : ¬ (false = true))]
            try dsimp only
            rw [itemsSearch_listInsertAt_self key m (its.drop (maxI / 2 + 1))
              (drop_sorted key its _ hsits)
              (itemsSearch_drop_suffix key m its hsits hsearch_m _ (by omega))]
            dsimp only
            rw [if_pos (Eq.refl true)]
            have harityD : (chs.drop (maxI / 2 + 1)).length =
                (its.drop (maxI / 2 + 1)).length + 1 := by
              simp only [List.length_drop]
              omega
            have hsearch_xD : itemsSearch key (its.drop (maxI / 2 + 1)) x =
                (i - (maxI / 2 + 1), false) :=
              itemsSearch_drop_suffix key x its hsits hse _ (by omega)
            obtain ⟨hiD, P3, SUFF3, _, hdec3, hset3, hins3, hPb3, hSb3, _, _,
              hPC3, hCS3⟩ := localize_nf key x harityD hsRF hsearch_xD
            have hgel : (chs.drop (maxI / 2 + 1))[i - (maxI / 2 + 1)] =
                chs[i] := by
              rw [List.getElem_drop]
              congr 1
              omega
            rw [hgel] at hdec3 hPC3 hCS3
            have hLFx : ∀ a ∈ inorderAux (chs.take (maxI / 2 + 1))
                (its.take (maxI / 2)), key a < key x :=
              fun a ha => lt_trans
                (hcrossLR a ha its[maxI / 2] (List.mem_cons_self _ _))
                (hlowx _ htlt hit)
            have hcontentR : inorderAux
                (listInsertAt ((chs.drop (maxI / 2 + 1)).set (i - (maxI / 2 + 1))
                  (nodeInsert key maxI (chs[i]) x).self)
                  (i - (maxI / 2 + 1) + 1) rt)
                (listInsertAt (its.drop (maxI / 2 + 1)) (i - (maxI / 2 + 1)) m) =
                insKeyList key x
                  (inorderAux (chs.drop (maxI / 2 + 1)) (its.drop (maxI / 2 + 1))) := by
              rw [hins3 (nodeInsert key maxI (chs[i]) x).self rt m]
              conv_rhs => rw [hdec3, List.append_assoc,
                insKeyList_append_right key x P3 _ hPb3,
                insKeyList_append_left key x _ SUFF3 hSb3]
              rw [← hct]
              simp [List.append_assoc]
            have hRHS3 : insKeyList key x (inorderAux chs its) =
                inorderAux (chs.take (maxI / 2 + 1)) (its.take (maxI / 2)) ++
                its[maxI / 2] :: insKeyList key x
                  (inorderAux (chs.drop (maxI / 2 + 1)) (its.drop (maxI / 2 + 1))) := by
              rw [hdecT, insKeyList_append_right key x _ _ hLFx,
                insKeyList_cons_gt key _ (hlowx _ htlt hit)]
            have hxnotinflat : key x ∉ (inorderAux chs its).map key := by
              intro hc
              rw [hdecT, List.map_append] at hc
              rcases List.mem_append.mp hc with hL | hTR2m
              · rcases List.mem_map.mp hL with ⟨a, ha, hak⟩
                exact absurd hak (ne_of_lt (hLFx a ha))
              · rw [List.map_cons] at hTR2m
                rcases List.mem_cons.mp hTR2m with heq | hR
                · exact absurd heq.symm (ne_of_lt (hlowx _ htlt hit))
                · rw [hdec3] at hR
                  exact hxnotin ((mem_flat_iff key x hPb3 hSb3).mp hR)
            refine ⟨?_, ?_, ?_, ?_⟩
            · simp only [insAssemble, toList_mk]
              rw [hgetd, hcontentR, hRHS3]
            · simp only [toList_mk]
              simpa using hxnotinflat
            · intro hcnone
              simp at hcnone
            · intro m2 rt2 hc
              simp only [Option.some.injEq, Prod.mk.injEq] at hc
              obtain ⟨hm2, hrt2⟩ := hc
              subst hm2 hrt2
              refine ⟨rfl, ?_, ?_⟩
              · refine WFB.internal _ _ h false ?_ ?_ ?_ ?_ ?_ ?_
                · simp only [List.length_take]
                  omega
                · intro hcf
                  exact absurd hcf (by simp)
                · intro _
                  simp only [List.length_take]
                  omega
                · simp only [List.length_take]
                  omega
                · intro c hcm
                  exact hch c (List.take_subset _ _ hcm)
                · rw [toList_mk, pairwise_keys_iff]
                  exact (pairwise_keys_iff key _).mp hsLF
              · have hdlen : i - (maxI / 2 + 1) ≤ (its.drop (maxI / 2 + 1)).length := by
                  simp only [List.length_drop]
                  omega
                have hdclen : i - (maxI / 2 + 1) + 1 ≤
                    ((chs.drop (maxI / 2 + 1)).set (i - (maxI / 2 + 1))
                      (nodeInsert key maxI (chs[i]) x).self).length := by
                  rw [List.length_set]
                  simp only [List.length_drop]
                  omega
                refine WFB.internal _ _ h false ?_ ?_ ?_ ?_ ?_ ?_
                · rw [listInsertAt_length _ _ _ hdclen, List.length_set,
                    listInsertAt_length _ _ _ hdlen]
                  simp only [List.length_drop]
                  omega
                · intro hcf
                  exact absurd hcf (by simp)
                · intro _
                  rw [listInsertAt_length _ _ _ hdlen]
                  simp only [List.length_drop]
                  omega
                · rw [listInsertAt_length _ _ _ hdlen]
                  simp only [List.length_drop]
                  omega
                · intro c hcm
                  rcases mem_listInsertAt hcm with rfl | hc2
                  · exact hwrt
                  · rcases List.mem_or_eq_of_mem_set hc2 with hc3 | hceq
                    · exact hch c (List.drop_subset _ _ hc3)
                    · exact hceq ▸ hwcs
                · rw [toList_mk, pairwise_keys_iff, hcontentR]
                  exact insKeyList_sorted key x _ ((pairwise_keys_iff key _).mp hsRF)

end Btree

namespace Btree
variable {α κ : Type} [LinearOrder κ] [Inhabited α] (key : α → κ)

/-- The sorted content of a whole tree (empty when the root is `nil`). -/
def BTree.toListT (t : BTree α) : List α :=
  match t.root with
  | none => []
  | some rt => rt.toList

/-- Master correctness of `Tree.Insert` (btree.go:794-815) on a well-formed
tree: the invariants are preserved, the content becomes the sorted
key-insertion of the item, and the degree is unchanged. -/
theorem Insert_main (t : BTree α) (hw : WFT key t) (x : α) :
    WFT key (BTree.Insert key t x) ∧
    (BTree.Insert key t x).toListT = insKeyList key x t.toListT ∧
    (BTree.Insert key t x).degree = t.degree := by
  obtain ⟨hd, hroot⟩ := hw
  have hodd : t.maxI % 2 = 1 := by
    unfold BTree.maxI
    omega
  have hmax : 3 ≤ t.maxI := by
    unfold BTree.maxI
    omega
  cases hr : t.root with
  | none =>
    rw [hr] at hroot
    simp only [BTree.Insert, BTree.toListT, hr]
    refine ⟨⟨hd, ?_⟩, ?_, by trivial⟩
    · refine ⟨0, ?_, ?_⟩
      · have hx : WFB key t.maxI 0 true (.mk [x] ([] : List (BTNode α))) :=
          WFB.leaf _ _ (fun _ => by simp) (fun hc => by simp at hc)
            (by simp only [List.length_cons, List.length_nil]; omega)
            (by simp [keys])
        exact hx
      · simp only [toList_mk, inorderAux_nil]
        simp [hroot]
    · simp only [toList_mk, inorderAux_nil, insKeyList]
  | some rt =>
    rw [hr] at hroot
    obtain ⟨hh, hwb, hlen⟩ := hroot
    obtain ⟨hcontent, hok, hnone, hsome⟩ := nodeInsert_main key hodd hmax hwb x
    simp only [BTree.Insert, BTree.toListT, hr]
    rcases hp : (nodeInsert key t.maxI rt x).promo with _ | ⟨m, rr⟩
    · have hct : (nodeInsert key t.maxI rt x).self.toList =
          insKeyList key x rt.toList := by
        have h0 := hcontent
        simp only [insAssemble, hp, List.append_nil] at h0
        exact h0
      simp only [hp]
      refine ⟨⟨hd, ?_⟩, ?_, by trivial⟩
      · refine ⟨hh, hnone hp, ?_⟩
        rw [hct]
        rcases hokv : (nodeInsert key t.maxI rt x).ok with _ | _
        · have hmem : key x ∈ (rt.toList).map key := by
            by_contra hcon
            have := hok.mpr hcon
            rw [hokv] at this
            simp at this
          simp only [if_neg (by simp [hokv] : ¬ ((nodeInsert key t.maxI rt x).ok = true))]
          rw [insKeyList_length_mem key x _
            ((pairwise_keys_iff key _).mp (WFB_toList_sorted key hwb)) hmem]
          exact hlen
        · have hnm : key x ∉ (rt.toList).map key := hok.mp hokv
          simp only [if_pos hokv]
          rw [insKeyList_length_not_mem key x _ hnm, hlen]
          push_cast
          ring
      · exact hct
    · obtain ⟨hokT, hwself, hwrr⟩ := hsome m rr hp
      have hct : (nodeInsert key t.maxI rt x).self.toList ++ m :: rr.toList =
          insKeyList key x rt.toList := by
        have h0 := hcontent
        simp only [insAssemble, hp] at h0
        exact h0
      have hnm : key x ∉ (rt.toList).map key := hok.mp hokT
      have hnewtl : (BTNode.mk [m] [(nodeInsert key t.maxI rt x).self, rr]).toList =
          insKeyList key x rt.toList := by
        rw [toList_mk, ← hct]
        simp
      simp only [hp]
      refine ⟨⟨hd, ?_⟩, ?_, by trivial⟩
      · refine ⟨hh + 1, ?_, ?_⟩
        · have hx : WFB key t.maxI (hh + 1) true
              (.mk [m] [(nodeInsert key t.maxI rt x).self, rr]) := by
            refine WFB.internal _ _ hh true rfl (fun _ => by simp)
              (fun hc => by simp at hc)
              (by simp only [List.length_cons, List.length_nil]; omega) ?_ ?_
            · intro c hc
              rcases List.mem_cons.mp hc with rfl | hc2
              · exact hwself
              · rcases List.mem_cons.mp hc2 with rfl | hc3
                · exact hwrr
                · simp at hc3
            · rw [hnewtl, pairwise_keys_iff]
              exact insKeyList_sorted key x _
                ((pairwise_keys_iff key _).mp (WFB_toList_sorted key hwb))
          exact hx
        · rw [hnewtl, insKeyList_length_not_mem key x _ hnm, hlen]
          simp only [if_pos hokT]
          push_cast
          ring
      · exact hnewtl

end Btree

namespace Btree
variable {α : Type}

theorem set_getElem_self_eq {β : Type} (l : List β) (i : Nat) (h : i < l.length) :
    l.set i (l[i]) = l := by
  induction l generalizing i with
  | nil => simp at h
  | cons a t ih =>
    cases i with
    | zero => simp
    | succ j => simp [ih j (by simpa using h)]

theorem listRemoveAt_length {β : Type} (l : List β) (i : Nat)
    (h : i < l.length) : (listRemoveAt l i).length = l.length - 1 := by
  simp only [listRemoveAt, List.length_append, List.length_take,
    List.length_drop]
  omega

theorem mem_listRemoveAt {β : Type} {a : β} {l : List β} {i : Nat}
    (h : a ∈ listRemoveAt l i) : a ∈ l := by
  unfold listRemoveAt at h
  rcases List.mem_append.mp h with h1 | h1
  · exact (List.take_sublist i l).subset h1
  · exact (List.drop_sublist (i + 1) l).subset h1

theorem set_at_append {β : Type} (A : List β) (y c : β) (Z : List β) :
    (A ++ y :: Z).set A.length c = A ++ c :: Z := by
  induction A with
  | nil => simp
  | cons a t ih => simp [ih]

theorem listRemoveAt_at_append {β : Type} (A : List β) (y : β) (Z : List β) :
    listRemoveAt (A ++ y :: Z) A.length = A ++ Z := by
  induction A with
  | nil => simp [listRemoveAt]
  | cons a t ih =>
    unfold listRemoveAt at ih ⊢
    simp only [List.length_cons, List.cons_append, List.take_succ_cons,
      List.drop_succ_cons]
    congr 1

end Btree

namespace Btree
variable {α κ : Type} [LinearOrder κ] [Inhabited α] (key : α → κ)

/-- Abstract two-children decomposition: the flatten around two adjacent
children and their separator, stable under replacing both children and the
separator (rotations) and under merging the two children (merges). -/
theorem inorder_two_decomp (A D : List (BTNode α)) (B E : List α)
    (hAB : A.length = B.length) (c0 c0' : BTNode α) (s0 : α) :
    ∃ SUFF : List α,
      inorderAux (A ++ c0 :: c0' :: D) (B ++ s0 :: E) =
        inorderAux A B ++ c0.toList ++ s0 :: c0'.toList ++ SUFF ∧
      (∀ (c1 c2 : BTNode α) (s : α),
        inorderAux (((A ++ c0 :: c0' :: D).set A.length c1).set
            (A.length + 1) c2) ((B ++ s0 :: E).set A.length s) =
          inorderAux A B ++ c1.toList ++ s :: c2.toList ++ SUFF) ∧
      (∀ cm : BTNode α,
        inorderAux (listRemoveAt ((A ++ c0 :: c0' :: D).set A.length cm)
            (A.length + 1)) (listRemoveAt (B ++ s0 :: E) A.length) =
          inorderAux A B ++ cm.toList ++ SUFF) := by
  obtain ⟨SUFF, hSUFF⟩ : ∃ SUFF : List α, ∀ c2 : BTNode α,
      inorderAux (c2 :: D) E = c2.toList ++ SUFF := by
    cases E with
    | nil => exact ⟨inorderAux D [], fun c2 => by rw [inorderAux_cons_nil]⟩
    | cons e E2 => exact ⟨e :: inorderAux D E2, fun c2 => by
        rw [inorderAux_cons_cons]⟩
  refine ⟨SUFF, ?_, ?_, ?_⟩
  · rw [inorderAux_append _ _ _ _ hAB, inorderAux_cons_cons, hSUFF]
    simp [List.append_assoc]
  · intro c1 c2 s
    rw [set_at_append A c0 c1 (c0' :: D)]
    have h0 := set_at_append (A ++ [c1]) c0' c2 D
    have h0' : (A ++ c1 :: c0' :: D).set (A.length + 1) c2 =
        A ++ c1 :: c2 :: D := by
      simpa [List.append_assoc] using h0
    rw [h0', hAB, set_at_append B s0 s E,
      inorderAux_append _ _ _ _ hAB, inorderAux_cons_cons, hSUFF]
    simp [List.append_assoc]
  · intro cm
    rw [set_at_append A c0 cm (c0' :: D)]
    have h0 := listRemoveAt_at_append (A ++ [cm]) c0' D
    have h0' : listRemoveAt (A ++ cm :: c0' :: D) (A.length + 1) =
        A ++ cm :: D := by
      simpa [List.append_assoc] using h0
    have h1 : listRemoveAt (B ++ s0 :: E) A.length = B ++ E := by
      rw [hAB]
      exact listRemoveAt_at_append B s0 E
    rw [h0', h1, inorderAux_append _ _ _ _ hAB, hSUFF]
    simp [List.append_assoc]

/-- The two-children decomposition at child indices `i`, `i + 1` of a node,
phrased through the total (`getD`) accessors used by the rebalancing
code. -/
theorem inorder_set2_getD (its : List α) (chs : List (BTNode α))
    (harity : chs.length = its.length + 1) (i : Nat)
    (hi1 : i + 1 < chs.length) :
    ∃ P SUFF : List α,
      inorderAux chs its =
        P ++ (chs.getD i nilNode).toList ++
          (its.getD i default) :: (chs.getD (i + 1) nilNode).toList ++ SUFF ∧
      (∀ (c1 c2 : BTNode α) (s : α),
        inorderAux ((chs.set i c1).set (i + 1) c2) (its.set i s) =
          P ++ c1.toList ++ s :: c2.toList ++ SUFF) ∧
      (∀ cm : BTNode α,
        inorderAux (listRemoveAt (chs.set i cm) (i + 1)) (listRemoveAt its i) =
          P ++ cm.toList ++ SUFF) := by
  have hilt : i < its.length := by omega
  have hlenA : (chs.take i).length = i := by
    simp only [List.length_take]
    omega
  have hlenB : (its.take i).length = i := by
    simp only [List.length_take]
    omega
  have hAB : (chs.take i).length = (its.take i).length := by
    rw [hlenA, hlenB]
  have hA : chs = chs.take i ++ chs.getD i nilNode ::
      chs.getD (i + 1) nilNode :: chs.drop (i + 2) := by
    rw [List.getD_eq_getElem _ _ (show i < chs.length by omega),
      List.getD_eq_getElem _ _ hi1]
    conv_lhs => rw [split_at_idx chs i (by omega)]
    congr 1
    congr 1
    exact drop_cons_self chs (i + 1) hi1
  have hB : its = its.take i ++ its.getD i default :: its.drop (i + 1) := by
    rw [List.getD_eq_getElem _ _ hilt]
    exact split_at_idx its i hilt
  obtain ⟨SUFF, hbase, hset2, hrem⟩ := inorder_two_decomp (chs.take i)
    (chs.drop (i + 2)) (its.take i) (its.drop (i + 1)) hAB
    (chs.getD i nilNode) (chs.getD (i + 1) nilNode) (its.getD i default)
  refine ⟨inorderAux (chs.take i) (its.take i), SUFF, ?_, ?_, ?_⟩
  · conv_lhs => rw [hA, hB]
    exact hbase
  · intro c1 c2 s
    have e1 : (chs.set i c1).set (i + 1) c2 =
        ((chs.take i ++ chs.getD i nilNode :: chs.getD (i + 1) nilNode ::
          chs.drop (i + 2)).set (chs.take i).length c1).set
          ((chs.take i).length + 1) c2 := by
      rw [hlenA, ← hA]
    have e2 : its.set i s = (its.take i ++ its.getD i default ::
        its.drop (i + 1)).set (chs.take i).length s := by
      rw [hlenA, ← hB]
    rw [e1, e2]
    exact hset2 c1 c2 s
  · intro cm
    have e1 : listRemoveAt (chs.set i cm) (i + 1) =
        listRemoveAt ((chs.take i ++ chs.getD i nilNode ::
          chs.getD (i + 1) nilNode :: chs.drop (i + 2)).set
          (chs.take i).length cm) ((chs.take i).length + 1) := by
      rw [hlenA, ← hA]
    have e2 : listRemoveAt its i = listRemoveAt (its.take i ++
        its.getD i default :: its.drop (i + 1)) (chs.take i).length := by
      rw [hlenA, ← hB]
    rw [e1, e2]
    exact hrem cm

end Btree

namespace Btree
variable {α κ : Type} [LinearOrder κ] [Inhabited α] (key : α → κ)

theorem listInsertAt_end {β : Type} (l : List β) (x : β) :
    listInsertAt l l.length x = l ++ [x] := by
  have h0 := listInsertAt_at_append l ([] : List β) x
  simpa using h0

theorem listRemoveAt_zero {β : Type} (l : List β) :
    listRemoveAt l 0 = l.drop 1 := by
  simp [listRemoveAt]

/-- A flatten whose items run one past the children ends in the extra
item. -/
theorem inorderAux_snoc_item (chs : List (BTNode α)) (its : List α) (s : α)
    (h : chs.length = its.length + 1) :
    inorderAux chs (its ++ [s]) = inorderAux chs its ++ [s] := by
  induction chs generalizing its with
  | nil => simp at h
  | cons c cs ih =>
    cases its with
    | nil =>
      simp only [List.nil_append, List.length_cons, List.length_nil] at h ⊢
      have hcs : cs = [] := List.eq_nil_of_length_eq_zero (by omega)
      subst hcs
      rw [inorderAux_cons_cons, inorderAux_cons_nil]
      simp
    | cons k ks =>
      rw [List.cons_append, inorderAux_cons_cons, inorderAux_cons_cons,
        ih ks (by simpa using h)]
      simp

theorem pairwise_keys_infix {L M R : List α}
    (h : (keys key (L ++ M ++ R)).Pairwise (· < ·)) :
    (keys key M).Pairwise (· < ·) := by
  rw [List.append_assoc] at h
  obtain ⟨-, h2, -⟩ := pairwise_keys_append key h
  exact (pairwise_keys_append key h2).1

theorem getElem_listRemoveAt {β : Type} (l : List β) (i j : Nat)
    (hi : i < l.length) (hj : j < (listRemoveAt l i).length) :
    (listRemoveAt l i)[j] =
      if hlt : j < i then l.get ⟨j, by
        rw [listRemoveAt_length l i hi] at hj
        omega⟩
      else l.get ⟨j + 1, by
        rw [listRemoveAt_length l i hi] at hj
        omega⟩ := by
  simp only [List.get_eq_getElem]
  rw [listRemoveAt_length l i hi] at hj
  unfold listRemoveAt
  split
  case isTrue hlt =>
    rw [List.getElem_append_left (by
      simp only [List.length_take]
      omega)]
    simp only [List.getElem_take]
  case isFalse hlt =>
    rw [List.getElem_append_right (by
      simp only [List.length_take]
      omega)]
    rw [List.getElem_drop]
    congr 1
    simp only [List.length_take]
    omega

theorem WFB_leaf_inv {maxI : Nat} {r : Bool} {its : List α}
    {chs : List (BTNode α)} (hw : WFB key maxI 0 r (.mk its chs)) :
    chs = [] := by
  cases hw with
  | leaf => rfl

theorem WFB_internal_inv {maxI hk : Nat} {r : Bool} {its : List α}
    {chs : List (BTNode α)} (hw : WFB key maxI (hk + 1) r (.mk its chs)) :
    chs.length = its.length + 1 ∧ (∀ c ∈ chs, WFB key maxI hk false c) := by
  cases hw with
  | internal _ _ _ _ h1 _ _ _ h5 _ => exact ⟨h1, h5⟩

theorem WFB_length_bounds {maxI h : Nat} {its : List α}
    {chs : List (BTNode α)} (hw : WFB key maxI h false (.mk its chs)) :
    maxI / 2 ≤ its.length ∧ its.length ≤ maxI := by
  cases hw with
  | leaf _ _ _ h2 h3 => exact ⟨h2 rfl, h3⟩
  | internal _ _ _ _ _ _ h3 h4 => exact ⟨h3 rfl, h4⟩

theorem WFB_items_len {maxI h : Nat} {r : Bool} {its : List α}
    {chs : List (BTNode α)} (hw : WFB key maxI h r (.mk its chs)) :
    its.length ≤ maxI := by
  cases hw with
  | leaf _ _ _ _ h3 => exact h3
  | internal _ _ _ _ _ _ _ h4 => exact h4

end Btree

namespace Btree
variable {α κ : Type} [LinearOrder κ] [Inhabited α] (key : α → κ)

theorem listRemoveAt_last {β : Type} (l : List β) :
    listRemoveAt l (l.length - 1) = l.dropLast := by
  unfold listRemoveAt
  rw [List.drop_of_length_le (by omega), List.append_nil,
    ← List.dropLast_eq_take]

theorem dropLast_append_getLastD {β : Type} (l : List β) (d : β)
    (h : l ≠ []) : l.dropLast ++ [l.getLastD d] = l := by
  rw [List.getLastD_eq_getLast?, List.getLast?_eq_getLast l h]
  exact List.dropLast_concat_getLast h

/-- Merging two adjacent nodes around their separator concatenates the
flattens. -/
theorem seg_merge_internal (aits bits : List α) (achs bchs : List (BTNode α))
    (sep : α) (ha : achs.length = aits.length + 1) :
    (BTNode.mk (listInsertAt aits aits.length sep ++ bits)
        (achs ++ bchs)).toList =
      (BTNode.mk aits achs).toList ++ sep :: (BTNode.mk bits bchs).toList := by
  rw [listInsertAt_end]
  simp only [toList_mk]
  rw [List.append_assoc, List.singleton_append,
    show aits ++ sep :: bits = (aits ++ [sep]) ++ bits by
      simp [List.append_assoc]]
  rw [inorderAux_append achs bchs (aits ++ [sep]) bits (by
    simp only [List.length_append, List.length_cons, List.length_nil]
    omega), inorderAux_snoc_item _ _ _ ha]
  simp [List.append_assoc]

theorem seg_merge_leaf (aits bits : List α) (sep : α) :
    (BTNode.mk (listInsertAt aits aits.length sep ++ bits)
        ([] : List (BTNode α))).toList =
      (BTNode.mk aits ([] : List (BTNode α))).toList ++
        sep :: (BTNode.mk bits ([] : List (BTNode α))).toList := by
  rw [listInsertAt_end]
  simp [toList_mk, List.append_assoc]

/-- Rotating the first item of the right sibling over the separator
preserves the combined flatten (internal case). -/
theorem seg_rotL_internal (cits sibits : List α)
    (cchs sibchs : List (BTNode α)) (sep : α)
    (hc : cchs.length = cits.length + 1)
    (hs : sibchs.length = sibits.length + 1) (hsne : sibits ≠ []) :
    (BTNode.mk (listInsertAt cits cits.length sep)
        (listInsertAt cchs cchs.length (sibchs.getD 0 nilNode))).toList ++
      (sibits.getD 0 default) ::
        (BTNode.mk (listRemoveAt sibits 0) (listRemoveAt sibchs 0)).toList =
      (BTNode.mk cits cchs).toList ++ sep ::
        (BTNode.mk sibits sibchs).toList := by
  rw [listInsertAt_end, listInsertAt_end, listRemoveAt_zero, listRemoveAt_zero]
  simp only [toList_mk]
  have hsiblt : 0 < sibits.length := List.length_pos.mpr hsne
  have hsgetd : sibits.getD 0 default = sibits[0] :=
    List.getD_eq_getElem _ _ hsiblt
  have hscgetd : sibchs.getD 0 nilNode = sibchs[0] :=
    List.getD_eq_getElem _ _ (by omega)
  have hdecs : inorderAux sibchs sibits =
      (sibchs[0]).toList ++ (sibits[0]) ::
        inorderAux (sibchs.drop 1) (sibits.drop 1) := by
    have h0 := inorderAux_decomp_mid sibchs sibits 0 (by omega) hsiblt
    simpa using h0
  have hlast : inorderAux (cchs ++ [sibchs.getD 0 nilNode])
      (cits ++ [sep]) =
      inorderAux cchs (cits ++ [sep]) ++ (sibchs.getD 0 nilNode).toList := by
    have h0 := inorderAux_append cchs [sibchs.getD 0 nilNode]
      (cits ++ [sep]) [] (by
        simp only [List.length_append, List.length_cons, List.length_nil]
        omega)
    simpa using h0
  rw [hlast, inorderAux_snoc_item _ _ _ hc, hdecs, hsgetd, hscgetd]
  simp [List.append_assoc]

theorem seg_rotL_leaf (cits sibits : List α) (sep : α) (hsne : sibits ≠ []) :
    (BTNode.mk (listInsertAt cits cits.length sep)
        ([] : List (BTNode α))).toList ++
      (sibits.getD 0 default) ::
        (BTNode.mk (listRemoveAt sibits 0) ([] : List (BTNode α))).toList =
      (BTNode.mk cits ([] : List (BTNode α))).toList ++ sep ::
        (BTNode.mk sibits ([] : List (BTNode α))).toList := by
  rw [listInsertAt_end, listRemoveAt_zero]
  simp only [toList_mk, inorderAux_nil]
  have hsiblt : 0 < sibits.length := List.length_pos.mpr hsne
  have hsgetd : sibits.getD 0 default = sibits[0] :=
    List.getD_eq_getElem _ _ hsiblt
  rw [hsgetd]
  rw [List.append_assoc, List.singleton_append]
  congr 1
  congr 1
  exact (drop_cons_self sibits 0 hsiblt).symm

/-- Rotating the last item of the left sibling over the separator preserves
the combined flatten (internal case). -/
theorem seg_rotR_internal (lsits cits : List α)
    (lschs cchs : List (BTNode α)) (sep : α)
    (hls : lschs.length = lsits.length + 1)
    (hc : cchs.length = cits.length + 1) (hlsne : lsits ≠ []) :
    (BTNode.mk (listRemoveAt lsits (lsits.length - 1))
        (listRemoveAt lschs (lschs.length - 1))).toList ++
      (lsits.getD (lsits.length - 1) default) ::
        (BTNode.mk (listInsertAt cits 0 sep)
          (listInsertAt cchs 0
            (lschs.getD (lschs.length - 1) nilNode))).toList =
      (BTNode.mk lsits lschs).toList ++ sep ::
        (BTNode.mk cits cchs).toList := by
  rw [listRemoveAt_last, listRemoveAt_last]
  simp only [toList_mk]
  have h01 : listInsertAt cits 0 sep = sep :: cits := by
    simp [listInsertAt]
  have h02 : listInsertAt cchs 0 (lschs.getD (lschs.length - 1) nilNode) =
      (lschs.getD (lschs.length - 1) nilNode) :: cchs := by
    simp [listInsertAt]
  rw [h01, h02, inorderAux_cons_cons]
  have hlspos : 0 < lsits.length := List.length_pos.mpr hlsne
  have hidx : lschs.length - 1 = lsits.length := by omega
  have hlsdec : inorderAux lschs lsits =
      inorderAux lschs.dropLast lsits ++
        (lschs.getD (lschs.length - 1) nilNode).toList := by
    have h0 := inorderAux_decomp_last lschs lsits hls
    simp only [List.get_eq_getElem] at h0
    rw [← List.getD_eq_getElem lschs nilNode
      (show lsits.length < lschs.length by omega)] at h0
    rw [List.dropLast_eq_take, hidx]
    exact h0
  have hlsitems : inorderAux lschs.dropLast lsits =
      inorderAux lschs.dropLast lsits.dropLast ++
        [lsits.getD (lsits.length - 1) default] := by
    conv_lhs => rw [← dropLast_append_getLastD lsits default hlsne]
    rw [← getD_length_sub_one_eq_getLastD]
    exact inorderAux_snoc_item _ _ _ (by
      rw [List.length_dropLast, List.length_dropLast]
      omega)
  rw [hlsdec, hlsitems]
  simp [List.append_assoc]

theorem seg_rotR_leaf (lsits cits : List α) (sep : α) (hlsne : lsits ≠ []) :
    (BTNode.mk (listRemoveAt lsits (lsits.length - 1))
        ([] : List (BTNode α))).toList ++
      (lsits.getD (lsits.length - 1) default) ::
        (BTNode.mk (listInsertAt cits 0 sep) ([] : List (BTNode α))).toList =
      (BTNode.mk lsits ([] : List (BTNode α))).toList ++ sep ::
        (BTNode.mk cits ([] : List (BTNode α))).toList := by
  rw [listRemoveAt_last]
  simp only [toList_mk, inorderAux_nil]
  have h01 : listInsertAt cits 0 sep = sep :: cits := by
    simp [listInsertAt]
  rw [h01]
  conv_rhs => rw [← dropLast_append_getLastD lsits default hlsne]
  rw [← getD_length_sub_one_eq_getLastD]
  simp [List.append_assoc]

end Btree

namespace Btree
variable {α κ : Type} [LinearOrder κ] [Inhabited α] (key : α → κ)

/-- An under-full node as handed to `rebalance`: one item short of the
minimum, with all invariants below it intact. -/
def ShortNode (maxI hkid : Nat) (n : BTNode α) : Prop :=
  ∃ its chs, n = .mk its chs ∧ its.length + 1 = maxI / 2 ∧
    ((chs = [] ∧ hkid = 0) ∨
     (∃ hk2, hkid = hk2 + 1 ∧ chs.length = its.length + 1 ∧
       ∀ c ∈ chs, WFB key maxI hk2 false c))

/-- Common wrap-up for the two rotations: replacing two adjacent children
and their separator by a segment-preserving trio keeps the flatten, and
node invariants follow once both new children are well-formed given their
(extracted) sortedness. -/
theorem rot_pair_finish {maxI hkid : Nat} {its2 : List α}
    {chs2 : List (BTNode α)} {i : Nat}
    (harity : chs2.length = its2.length + 1)
    (hi1 : i + 1 < chs2.length)
    (hsort : (keys key (inorderAux chs2 its2)).Pairwise (· < ·))
    (hothers : ∀ (j : Nat) (hj : j < chs2.length), j ≠ i → j ≠ i + 1 →
      WFB key maxI hkid false (chs2[j]))
    (n' sib' : BTNode α) (newsep : α)
    (hseg : n'.toList ++ newsep :: sib'.toList =
      (chs2.getD i nilNode).toList ++ (its2.getD i default) ::
        (chs2.getD (i + 1) nilNode).toList)
    (hwf_n' : (keys key n'.toList).Pairwise (· < ·) →
      WFB key maxI hkid false n')
    (hwf_sib' : (keys key sib'.toList).Pairwise (· < ·) →
      WFB key maxI hkid false sib') :
    inorderAux ((chs2.set i n').set (i + 1) sib') (its2.set i newsep) =
      inorderAux chs2 its2 ∧
    (∀ c ∈ (chs2.set i n').set (i + 1) sib', WFB key maxI hkid false c) := by
  obtain ⟨P, SUFF, hbase, hset2, hrem⟩ :=
    inorder_set2_getD its2 chs2 harity i hi1
  have hflat : inorderAux ((chs2.set i n').set (i + 1) sib')
      (its2.set i newsep) = inorderAux chs2 its2 := by
    rw [hset2 n' sib' newsep, hbase]
    calc P ++ n'.toList ++ newsep :: sib'.toList ++ SUFF
        = P ++ (n'.toList ++ newsep :: sib'.toList) ++ SUFF := by
          simp [List.append_assoc]
      _ = P ++ ((chs2.getD i nilNode).toList ++ (its2.getD i default) ::
            (chs2.getD (i + 1) nilNode).toList) ++ SUFF := by rw [hseg]
      _ = P ++ (chs2.getD i nilNode).toList ++ (its2.getD i default) ::
            (chs2.getD (i + 1) nilNode).toList ++ SUFF := by
          simp [List.append_assoc]
  have hnewsorted : (keys key (P ++ n'.toList ++ newsep :: sib'.toList ++
      SUFF)).Pairwise (· < ·) := by
    rw [← hset2 n' sib' newsep, hflat]
    exact hsort
  have hn'sorted : (keys key n'.toList).Pairwise (· < ·) :=
    pairwise_keys_infix key (L := P) (R := newsep :: sib'.toList ++ SUFF) (by
      have h0 : P ++ n'.toList ++ (newsep :: sib'.toList ++ SUFF) =
          P ++ n'.toList ++ newsep :: sib'.toList ++ SUFF := by
        simp [List.append_assoc]
      rw [h0]
      exact hnewsorted)
  have hsib'sorted : (keys key sib'.toList).Pairwise (· < ·) :=
    pairwise_keys_infix key (L := P ++ n'.toList ++ [newsep]) (R := SUFF) (by
      have h0 : (P ++ n'.toList ++ [newsep]) ++ sib'.toList ++ SUFF =
          P ++ n'.toList ++ newsep :: sib'.toList ++ SUFF := by
        simp [List.append_assoc]
      rw [h0]
      exact hnewsorted)
  refine ⟨hflat, ?_⟩
  intro c hcm
  obtain ⟨j, hj, hcj⟩ := List.mem_iff_getElem.mp hcm
  simp only [List.length_set] at hj
  rw [List.getElem_set, List.getElem_set] at hcj
  by_cases hj1 : i + 1 = j
  · rw [if_pos hj1] at hcj
    subst hcj
    exact hwf_sib' hsib'sorted
  · rw [if_neg hj1] at hcj
    by_cases hj0 : i = j
    · rw [if_pos hj0] at hcj
      subst hcj
      exact hwf_n' hn'sorted
    · rw [if_neg hj0] at hcj
      subst hcj
      exact hothers j hj (fun h => hj0 h.symm) (fun h => hj1 h.symm)

/-- Common wrap-up for the two merges: replacing two adjacent children and
their separator by one segment-preserving merged child keeps the
flatten, and invariants follow from the merged child's well-formedness. -/
theorem merge_finish {maxI hkid : Nat} {its2 : List α}
    {chs2 : List (BTNode α)} {i : Nat}
    (harity : chs2.length = its2.length + 1)
    (hi1 : i + 1 < chs2.length)
    (hsort : (keys key (inorderAux chs2 its2)).Pairwise (· < ·))
    (hothers : ∀ (j : Nat) (hj : j < chs2.length), j ≠ i → j ≠ i + 1 →
      WFB key maxI hkid false (chs2[j]))
    (cm : BTNode α)
    (hseg : cm.toList =
      (chs2.getD i nilNode).toList ++ (its2.getD i default) ::
        (chs2.getD (i + 1) nilNode).toList)
    (hwf_cm : (keys key cm.toList).Pairwise (· < ·) →
      WFB key maxI hkid false cm) :
    inorderAux (listRemoveAt (chs2.set i cm) (i + 1))
      (listRemoveAt its2 i) = inorderAux chs2 its2 ∧
    (∀ c ∈ listRemoveAt (chs2.set i cm) (i + 1),
      WFB key maxI hkid false c) := by
  obtain ⟨P, SUFF, hbase, hset2, hrem⟩ :=
    inorder_set2_getD its2 chs2 harity i hi1
  have hflat : inorderAux (listRemoveAt (chs2.set i cm) (i + 1))
      (listRemoveAt its2 i) = inorderAux chs2 its2 := by
    rw [hrem cm, hbase, hseg]
    simp [List.append_assoc]
  have hcmsorted : (keys key cm.toList).Pairwise (· < ·) := by
    have h0 : (keys key (P ++ cm.toList ++ SUFF)).Pairwise (· < ·) := by
      rw [← hrem cm, hflat]
      exact hsort
    exact pairwise_keys_infix key h0
  refine ⟨hflat, ?_⟩
  intro c hcm2
  obtain ⟨j, hj, hcj⟩ := List.mem_iff_getElem.mp hcm2
  have hjlen : j < (listRemoveAt (chs2.set i cm) (i + 1)).length := hj
  rw [listRemoveAt_length _ _ (by
    rw [List.length_set]
    omega)] at hj
  simp only [List.length_set] at hj
  rw [getElem_listRemoveAt _ _ _ (by
    rw [List.length_set]
    omega) hjlen] at hcj
  simp only [List.get_eq_getElem] at hcj
  by_cases hjlt : j < i + 1
  · rw [dif_pos hjlt] at hcj
    rw [List.getElem_set] at hcj
    by_cases hj0 : i = j
    · rw [if_pos hj0] at hcj
      subst hcj
      exact hwf_cm hcmsorted
    · rw [if_neg hj0] at hcj
      subst hcj
      exact hothers j (by omega) (fun h => hj0 h.symm) (by omega)
  · rw [dif_neg hjlt] at hcj
    rw [List.getElem_set] at hcj
    rw [if_neg (by omega)] at hcj
    subst hcj
    exact hothers (j + 1) (by omega) (by omega) (by omega)

end Btree

namespace Btree
variable {α κ : Type} [LinearOrder κ] [Inhabited α] (key : α → κ)

theorem rotateLeftP_main {maxI hkid : Nat} {its2 : List α}
    {chs2 : List (BTNode α)} {ci : Nat} {nl : Bool} {cits sibits : List α}
    {cchs sibchs : List (BTNode α)} (hmax : 3 ≤ maxI)
    (harity : chs2.length = its2.length + 1)
    (hci : ci < chs2.length) (hci1 : ci + 1 < chs2.length)
    (hceq : chs2[ci] = .mk cits cchs)
    (hsibeq : chs2[ci + 1] = .mk sibits sibchs)
    (hsort : (keys key (inorderAux chs2 its2)).Pairwise (· < ·))
    (hclen : cits.length + 1 = maxI / 2)
    (hckind : (cchs = [] ∧ hkid = 0) ∨
      (∃ hk2, hkid = hk2 + 1 ∧ cchs.length = cits.length + 1 ∧
        ∀ c ∈ cchs, WFB key maxI hk2 false c))
    (hsib : ∀ (j : Nat) (hj : j < chs2.length), j ≠ ci →
      WFB key maxI hkid false (chs2[j]))
    (hnl : nl = true ↔ cchs ≠ [])
    (hsiblen : maxI / 2 < sibits.length) :
    ∃ chs3,
      rotateLeftP (.mk its2 chs2) ci nl =
        .mk (its2.set ci (sibits.getD 0 default)) chs3 ∧
      inorderAux chs3 (its2.set ci (sibits.getD 0 default)) =
        inorderAux chs2 its2 ∧
      chs3.length = chs2.length ∧
      (∀ c ∈ chs3, WFB key maxI hkid false c) := by
  have hcgetD : chs2.getD ci nilNode = .mk cits cchs := by
    rw [List.getD_eq_getElem _ _ hci, hceq]
  have hsgetD : chs2.getD (ci + 1) nilNode = .mk sibits sibchs := by
    rw [List.getD_eq_getElem _ _ hci1, hsibeq]
  have hsibne : sibits ≠ [] := by
    intro hc
    rw [hc] at hsiblen
    simp at hsiblen
  have hwsib : WFB key maxI hkid false (.mk sibits sibchs) := by
    have h0 := hsib (ci + 1) hci1 (by omega)
    rwa [hsibeq] at h0
  have hsibmax : sibits.length ≤ maxI := (WFB_length_bounds key hwsib).2
  rcases hckind with ⟨hcnil, hk0⟩ | ⟨hk2, hkeq, hcar, hcwf⟩
  · -- leaf level
    have hnlf : nl = false := by
      rcases nl with _ | _
      · rfl
      · exact absurd (hnl.mp rfl) (by simp [hcnil])
    subst hnlf hcnil hk0
    have hsibleaf : sibchs = [] := WFB_leaf_inv key hwsib
    subst hsibleaf
    have hrot : rotateLeftP (.mk its2 chs2) ci false =
        .mk (its2.set ci (sibits.getD 0 default))
          ((chs2.set ci (.mk (listInsertAt cits cits.length
              (its2.getD ci default)) [])).set (ci + 1)
            (.mk (listRemoveAt sibits 0) [])) := by
      unfold rotateLeftP
      simp only [BTNode.items_mk, BTNode.children_mk, hcgetD, hsgetD,
        Bool.false_eq_true, if_false]
    rw [hrot]
    obtain ⟨hflat, hwfall⟩ := rot_pair_finish key harity hci1 hsort
      (fun j hj hji _ => hsib j hj hji)
      (.mk (listInsertAt cits cits.length (its2.getD ci default)) [])
      (.mk (listRemoveAt sibits 0) []) (sibits.getD 0 default)
      (by
        rw [hcgetD, hsgetD]
        exact seg_rotL_leaf cits sibits (its2.getD ci default) hsibne)
      (by
        intro hp
        simp only [toList_mk, inorderAux_nil] at hp
        refine WFB.leaf _ _ (fun hc => by simp at hc) ?_ ?_ ?_
        · intro _
          rw [listInsertAt_end, List.length_append]
          simp only [List.length_cons, List.length_nil]
          omega
        · rw [listInsertAt_end, List.length_append]
          simp only [List.length_cons, List.length_nil]
          omega
        · exact hp)
      (by
        intro hp
        simp only [toList_mk, inorderAux_nil] at hp
        refine WFB.leaf _ _ (fun hc => by simp at hc) ?_ ?_ ?_
        · intro _
          rw [listRemoveAt_length _ _ (by omega)]
          omega
        · rw [listRemoveAt_length _ _ (by omega)]
          omega
        · exact hp)
    exact ⟨_, rfl, hflat, by simp only [List.length_set], hwfall⟩
  · -- internal level
    subst hkeq
    have hcne : cchs ≠ [] := by
      intro hc
      rw [hc] at hcar
      simp at hcar
    have hnlt : nl = true := hnl.mpr hcne
    subst hnlt
    obtain ⟨hsar, hswf⟩ := WFB_internal_inv key hwsib
    have hrot : rotateLeftP (.mk its2 chs2) ci true =
        .mk (its2.set ci (sibits.getD 0 default))
          ((chs2.set ci (.mk (listInsertAt cits cits.length
              (its2.getD ci default))
            (listInsertAt cchs cchs.length (sibchs.getD 0 nilNode)))).set
            (ci + 1)
            (.mk (listRemoveAt sibits 0) (listRemoveAt sibchs 0))) := by
      unfold rotateLeftP
      simp only [BTNode.items_mk, BTNode.children_mk, hcgetD, hsgetD,
        if_true]
    rw [hrot]
    obtain ⟨hflat, hwfall⟩ := rot_pair_finish key harity hci1 hsort
      (fun j hj hji _ => hsib j hj hji)
      (.mk (listInsertAt cits cits.length (its2.getD ci default))
        (listInsertAt cchs cchs.length (sibchs.getD 0 nilNode)))
      (.mk (listRemoveAt sibits 0) (listRemoveAt sibchs 0))
      (sibits.getD 0 default)
      (by
        rw [hcgetD, hsgetD]
        exact seg_rotL_internal cits sibits cchs sibchs
          (its2.getD ci default) hcar hsar hsibne)
      (by
        intro hp
        refine WFB.internal _ _ hk2 false ?_ (fun hc => by simp at hc) ?_ ?_
          ?_ ?_
        · rw [listInsertAt_end, listInsertAt_end, List.length_append,
            List.length_append]
          simp only [List.length_cons, List.length_nil]
          omega
        · intro _
          rw [listInsertAt_end, List.length_append]
          simp only [List.length_cons, List.length_nil]
          omega
        · rw [listInsertAt_end, List.length_append]
          simp only [List.length_cons, List.length_nil]
          omega
        · intro cc hcc
          rw [listInsertAt_end] at hcc
          rcases List.mem_append.mp hcc with hcc2 | hcc2
          · exact hcwf cc hcc2
          · rw [List.mem_singleton] at hcc2
            subst hcc2
            apply hswf
            rw [List.getD_eq_getElem _ _ (by omega)]
            exact List.getElem_mem _
        · exact hp)
      (by
        intro hp
        refine WFB.internal _ _ hk2 false ?_ (fun hc => by simp at hc) ?_ ?_
          ?_ ?_
        · rw [listRemoveAt_length _ _ (by omega),
            listRemoveAt_length _ _ (by omega)]
          omega
        · intro _
          rw [listRemoveAt_length _ _ (by omega)]
          omega
        · rw [listRemoveAt_length _ _ (by omega)]
          omega
        · intro cc hcc
          exact hswf cc (mem_listRemoveAt hcc)
        · exact hp)
    exact ⟨_, rfl, hflat, by simp only [List.length_set], hwfall⟩

end Btree

namespace Btree
variable {α κ : Type} [LinearOrder κ] [Inhabited α] (key : α → κ)

theorem rotateRightP_main {maxI hkid : Nat} {its2 : List α}
    {chs2 : List (BTNode α)} {ci : Nat} {nl : Bool} {cits lsits : List α}
    {cchs lschs : List (BTNode α)} (hmax : 3 ≤ maxI)
    (harity : chs2.length = its2.length + 1)
    (hci : ci < chs2.length) (hci0 : 0 < ci)
    (hceq : chs2[ci] = .mk cits cchs)
    (hlseq : chs2[ci - 1] = .mk lsits lschs)
    (hsort : (keys key (inorderAux chs2 its2)).Pairwise (· < ·))
    (hclen : cits.length + 1 = maxI / 2)
    (hckind : (cchs = [] ∧ hkid = 0) ∨
      (∃ hk2, hkid = hk2 + 1 ∧ cchs.length = cits.length + 1 ∧
        ∀ c ∈ cchs, WFB key maxI hk2 false c))
    (hsib : ∀ (j : Nat) (hj : j < chs2.length), j ≠ ci →
      WFB key maxI hkid false (chs2[j]))
    (hnl : nl = true ↔ cchs ≠ [])
    (hlslen : maxI / 2 < lsits.length) :
    ∃ chs3,
      rotateRightP (.mk its2 chs2) ci nl =
        .mk (its2.set (ci - 1) (lsits.getD (lsits.length - 1) default)) chs3 ∧
      inorderAux chs3
          (its2.set (ci - 1) (lsits.getD (lsits.length - 1) default)) =
        inorderAux chs2 its2 ∧
      chs3.length = chs2.length ∧
      (∀ c ∈ chs3, WFB key maxI hkid false c) := by
  have hidx : ci - 1 + 1 = ci := by omega
  have hcgetD : chs2.getD ci nilNode = .mk cits cchs := by
    rw [List.getD_eq_getElem _ _ hci, hceq]
  have hlsgetD : chs2.getD (ci - 1) nilNode = .mk lsits lschs := by
    rw [List.getD_eq_getElem _ _ (by omega), hlseq]
  have hlsne : lsits ≠ [] := by
    intro hc
    rw [hc] at hlslen
    simp at hlslen
  have hwls : WFB key maxI hkid false (.mk lsits lschs) := by
    have h0 := hsib (ci - 1) (by omega) (by omega)
    rwa [hlseq] at h0
  have hlsmax : lsits.length ≤ maxI := (WFB_length_bounds key hwls).2
  rcases hckind with ⟨hcnil, hk0⟩ | ⟨hk2, hkeq, hcar, hcwf⟩
  · -- leaf level
    have hnlf : nl = false := by
      rcases nl with _ | _
      · rfl
      · exact absurd (hnl.mp rfl) (by simp [hcnil])
    subst hnlf hcnil hk0
    have hlsleaf : lschs = [] := WFB_leaf_inv key hwls
    subst hlsleaf
    have hrot : rotateRightP (.mk its2 chs2) ci false =
        .mk (its2.set (ci - 1) (lsits.getD (lsits.length - 1) default))
          ((chs2.set (ci - 1)
            (.mk (listRemoveAt lsits (lsits.length - 1)) [])).set
            (ci - 1 + 1)
            (.mk (listInsertAt cits 0 (its2.getD (ci - 1) default)) [])) := by
      unfold rotateRightP
      simp only [BTNode.items_mk, BTNode.children_mk, hcgetD, hlsgetD,
        Bool.false_eq_true, if_false]
      rw [hidx, List.set_comm _ _ _ (by omega)]
    rw [hrot]
    obtain ⟨hflat, hwfall⟩ := rot_pair_finish key harity
      (show ci - 1 + 1 < chs2.length by omega) hsort
      (fun j hj hj1 hj2 => hsib j hj (by omega))
      (.mk (listRemoveAt lsits (lsits.length - 1)) [])
      (.mk (listInsertAt cits 0 (its2.getD (ci - 1) default)) [])
      (lsits.getD (lsits.length - 1) default)
      (by
        rw [hlsgetD, hidx, hcgetD]
        exact seg_rotR_leaf lsits cits (its2.getD (ci - 1) default) hlsne)
      (by
        intro hp
        simp only [toList_mk, inorderAux_nil] at hp
        refine WFB.leaf _ _ (fun hc => by simp at hc) ?_ ?_ ?_
        · intro _
          rw [listRemoveAt_length _ _ (by omega)]
          omega
        · rw [listRemoveAt_length _ _ (by omega)]
          omega
        · exact hp)
      (by
        intro hp
        simp only [toList_mk, inorderAux_nil] at hp
        refine WFB.leaf _ _ (fun hc => by simp at hc) ?_ ?_ ?_
        · intro _
          rw [listInsertAt_length _ _ _ (by omega)]
          omega
        · rw [listInsertAt_length _ _ _ (by omega)]
          omega
        · exact hp)
    exact ⟨_, rfl, hflat, by simp only [List.length_set], hwfall⟩
  · -- internal level
    subst hkeq
    have hcne : cchs ≠ [] := by
      intro hc
      rw [hc] at hcar
      simp at hcar
    have hnlt : nl = true := hnl.mpr hcne
    subst hnlt
    obtain ⟨hlsar, hlswf⟩ := WFB_internal_inv key hwls
    have hrot : rotateRightP (.mk its2 chs2) ci true =
        .mk (its2.set (ci - 1) (lsits.getD (lsits.length - 1) default))
          ((chs2.set (ci - 1)
            (.mk (listRemoveAt lsits (lsits.length - 1))
              (listRemoveAt lschs (lschs.length - 1)))).set (ci - 1 + 1)
            (.mk (listInsertAt cits 0 (its2.getD (ci - 1) default))
              (listInsertAt cchs 0
                (lschs.getD (lschs.length - 1) nilNode)))) := by
      unfold rotateRightP
      simp only [BTNode.items_mk, BTNode.children_mk, hcgetD, hlsgetD,
        if_true]
      rw [hidx, List.set_comm _ _ _ (by omega)]
    rw [hrot]
    obtain ⟨hflat, hwfall⟩ := rot_pair_finish key harity
      (show ci - 1 + 1 < chs2.length by omega) hsort
      (fun j hj hj1 hj2 => hsib j hj (by omega))
      (.mk (listRemoveAt lsits (lsits.length - 1))
        (listRemoveAt lschs (lschs.length - 1)))
      (.mk (listInsertAt cits 0 (its2.getD (ci - 1) default))
        (listInsertAt cchs 0 (lschs.getD (lschs.length - 1) nilNode)))
      (lsits.getD (lsits.length - 1) default)
      (by
        rw [hlsgetD, hidx, hcgetD]
        exact seg_rotR_internal lsits cits lschs cchs
          (its2.getD (ci - 1) default) hlsar hcar hlsne)
      (by
        intro hp
        refine WFB.internal _ _ hk2 false ?_ (fun hc => by simp at hc) ?_ ?_
          ?_ ?_
        · rw [listRemoveAt_length _ _ (by omega),
            listRemoveAt_length _ _ (by omega)]
          omega
        · intro _
          rw [listRemoveAt_length _ _ (by omega)]
          omega
        · rw [listRemoveAt_length _ _ (by omega)]
          omega
        · intro cc hcc
          exact hlswf cc (mem_listRemoveAt hcc)
        · exact hp)
      (by
        intro hp
        refine WFB.internal _ _ hk2 false ?_ (fun hc => by simp at hc) ?_ ?_
          ?_ ?_
        · rw [listInsertAt_length _ _ _ (by omega),
            listInsertAt_length _ _ _ (by omega)]
          omega
        · intro _
          rw [listInsertAt_length _ _ _ (by omega)]
          omega
        · rw [listInsertAt_length _ _ _ (by omega)]
          omega
        · intro cc hcc
          rcases mem_listInsertAt hcc with rfl | hcc2
          · apply hlswf
            rw [List.getD_eq_getElem _ _ (by omega)]
            exact List.getElem_mem _
          · exact hcwf cc hcc2
        · exact hp)
    exact ⟨_, rfl, hflat, by simp only [List.length_set], hwfall⟩

end Btree

namespace Btree
variable {α κ : Type} [LinearOrder κ] [Inhabited α] (key : α → κ)

theorem mergeLeftP_main {maxI hkid : Nat} {its2 : List α}
    {chs2 : List (BTNode α)} {ci : Nat} {nl : Bool} {cits sibits : List α}
    {cchs sibchs : List (BTNode α)} (hmax : 3 ≤ maxI)
    (harity : chs2.length = its2.length + 1)
    (hci : ci < chs2.length) (hci1 : ci + 1 < chs2.length)
    (hceq : chs2[ci] = .mk cits cchs)
    (hsibeq : chs2[ci + 1] = .mk sibits sibchs)
    (hsort : (keys key (inorderAux chs2 its2)).Pairwise (· < ·))
    (hclen : cits.length + 1 = maxI / 2)
    (hckind : (cchs = [] ∧ hkid = 0) ∨
      (∃ hk2, hkid = hk2 + 1 ∧ cchs.length = cits.length + 1 ∧
        ∀ c ∈ cchs, WFB key maxI hk2 false c))
    (hsib : ∀ (j : Nat) (hj : j < chs2.length), j ≠ ci →
      WFB key maxI hkid false (chs2[j]))
    (hnl : nl = true ↔ cchs ≠ [])
    (hsiblen : sibits.length ≤ maxI / 2) :
    ∃ chs3,
      mergeLeftP (.mk its2 chs2) ci nl =
        .mk (listRemoveAt its2 ci) chs3 ∧
      inorderAux chs3 (listRemoveAt its2 ci) = inorderAux chs2 its2 ∧
      chs3.length + 1 = chs2.length ∧
      (∀ c ∈ chs3, WFB key maxI hkid false c) := by
  have hcgetD : chs2.getD ci nilNode = .mk cits cchs := by
    rw [List.getD_eq_getElem _ _ hci, hceq]
  have hsgetD : chs2.getD (ci + 1) nilNode = .mk sibits sibchs := by
    rw [List.getD_eq_getElem _ _ hci1, hsibeq]
  have hwsib : WFB key maxI hkid false (.mk sibits sibchs) := by
    have h0 := hsib (ci + 1) hci1 (by omega)
    rwa [hsibeq] at h0
  have hsibmin : maxI / 2 ≤ sibits.length := (WFB_length_bounds key hwsib).1
  rcases hckind with ⟨hcnil, hk0⟩ | ⟨hk2, hkeq, hcar, hcwf⟩
  · -- leaf level
    have hnlf : nl = false := by
      rcases nl with _ | _
      · rfl
      · exact absurd (hnl.mp rfl) (by simp [hcnil])
    subst hnlf hcnil hk0
    have hsibleaf : sibchs = [] := WFB_leaf_inv key hwsib
    subst hsibleaf
    have hmrg : mergeLeftP (.mk its2 chs2) ci false =
        .mk (listRemoveAt its2 ci)
          (listRemoveAt (chs2.set ci
            (.mk (listInsertAt cits cits.length (its2.getD ci default) ++
              sibits) [])) (ci + 1)) := by
      unfold mergeLeftP
      simp only [BTNode.items_mk, BTNode.children_mk, hcgetD, hsgetD,
        Bool.false_eq_true, if_false]
    rw [hmrg]
    obtain ⟨hflat, hwfall⟩ := merge_finish key harity hci1 hsort
      (fun j hj hji _ => hsib j hj hji)
      (.mk (listInsertAt cits cits.length (its2.getD ci default) ++
        sibits) [])
      (by
        rw [hcgetD, hsgetD]
        exact seg_merge_leaf cits sibits (its2.getD ci default))
      (by
        intro hp
        simp only [toList_mk, inorderAux_nil] at hp
        refine WFB.leaf _ _ (fun hc => by simp at hc) ?_ ?_ ?_
        · intro _
          rw [List.length_append, listInsertAt_end, List.length_append]
          simp only [List.length_cons, List.length_nil]
          omega
        · rw [List.length_append, listInsertAt_end, List.length_append]
          simp only [List.length_cons, List.length_nil]
          omega
        · exact hp)
    refine ⟨_, rfl, hflat, ?_, hwfall⟩
    rw [listRemoveAt_length _ _ (by
      rw [List.length_set]
      omega)]
    rw [List.length_set]
    omega
  · -- internal level
    subst hkeq
    have hcne : cchs ≠ [] := by
      intro hc
      rw [hc] at hcar
      simp at hcar
    have hnlt : nl = true := hnl.mpr hcne
    subst hnlt
    obtain ⟨hsar, hswf⟩ := WFB_internal_inv key hwsib
    have hmrg : mergeLeftP (.mk its2 chs2) ci true =
        .mk (listRemoveAt its2 ci)
          (listRemoveAt (chs2.set ci
            (.mk (listInsertAt cits cits.length (its2.getD ci default) ++
              sibits) (cchs ++ sibchs))) (ci + 1)) := by
      unfold mergeLeftP
      simp only [BTNode.items_mk, BTNode.children_mk, hcgetD, hsgetD,
        if_true]
    rw [hmrg]
    obtain ⟨hflat, hwfall⟩ := merge_finish key harity hci1 hsort
      (fun j hj hji _ => hsib j hj hji)
      (.mk (listInsertAt cits cits.length (its2.getD ci default) ++
        sibits) (cchs ++ sibchs))
      (by
        rw [hcgetD, hsgetD]
        exact seg_merge_internal cits sibits cchs sibchs
          (its2.getD ci default) hcar)
      (by
        intro hp
        refine WFB.internal _ _ hk2 false ?_ (fun hc => by simp at hc) ?_ ?_
          ?_ ?_
        · rw [List.length_append, List.length_append, listInsertAt_end,
            List.length_append]
          simp only [List.length_cons, List.length_nil]
          omega
        · intro _
          rw [List.length_append, listInsertAt_end, List.length_append]
          simp only [List.length_cons, List.length_nil]
          omega
        · rw [List.length_append, listInsertAt_end, List.length_append]
          simp only [List.length_cons, List.length_nil]
          omega
        · intro cc hcc
          rcases List.mem_append.mp hcc with hcc2 | hcc2
          · exact hcwf cc hcc2
          · exact hswf cc hcc2
        · exact hp)
    refine ⟨_, rfl, hflat, ?_, hwfall⟩
    rw [listRemoveAt_length _ _ (by
      rw [List.length_set]
      omega)]
    rw [List.length_set]
    omega

theorem mergeRightP_main {maxI hkid : Nat} {its2 : List α}
    {chs2 : List (BTNode α)} {ci : Nat} {nl : Bool} {cits lsits : List α}
    {cchs lschs : List (BTNode α)} (hmax : 3 ≤ maxI)
    (harity : chs2.length = its2.length + 1)
    (hci : ci < chs2.length) (hci0 : 0 < ci)
    (hceq : chs2[ci] = .mk cits cchs)
    (hlseq : chs2[ci - 1] = .mk lsits lschs)
    (hsort : (keys key (inorderAux chs2 its2)).Pairwise (· < ·))
    (hclen : cits.length + 1 = maxI / 2)
    (hckind : (cchs = [] ∧ hkid = 0) ∨
      (∃ hk2, hkid = hk2 + 1 ∧ cchs.length = cits.length + 1 ∧
        ∀ c ∈ cchs, WFB key maxI hk2 false c))
    (hsib : ∀ (j : Nat) (hj : j < chs2.length), j ≠ ci →
      WFB key maxI hkid false (chs2[j]))
    (hnl : nl = true ↔ cchs ≠ [])
    (hlslen : lsits.length ≤ maxI / 2) :
    ∃ chs3,
      mergeRightP (.mk its2 chs2) ci nl =
        .mk (listRemoveAt its2 (ci - 1)) chs3 ∧
      inorderAux chs3 (listRemoveAt its2 (ci - 1)) = inorderAux chs2 its2 ∧
      chs3.length + 1 = chs2.length ∧
      (∀ c ∈ chs3, WFB key maxI hkid false c) := by
  have hidx : ci - 1 + 1 = ci := by omega
  have hcgetD : chs2.getD ci nilNode = .mk cits cchs := by
    rw [List.getD_eq_getElem _ _ hci, hceq]
  have hlsgetD : chs2.getD (ci - 1) nilNode = .mk lsits lschs := by
    rw [List.getD_eq_getElem _ _ (by omega), hlseq]
  have hwls : WFB key maxI hkid false (.mk lsits lschs) := by
    have h0 := hsib (ci - 1) (by omega) (by omega)
    rwa [hlseq] at h0
  have hlsmin : maxI / 2 ≤ lsits.length := (WFB_length_bounds key hwls).1
  rcases hckind with ⟨hcnil, hk0⟩ | ⟨hk2, hkeq, hcar, hcwf⟩
  · -- leaf level
    have hnlf : nl = false := by
      rcases nl with _ | _
      · rfl
      · exact absurd (hnl.mp rfl) (by simp [hcnil])
    subst hnlf hcnil hk0
    have hlsleaf : lschs = [] := WFB_leaf_inv key hwls
    subst hlsleaf
    have hmrg : mergeRightP (.mk its2 chs2) ci false =
        .mk (listRemoveAt its2 (ci - 1))
          (listRemoveAt (chs2.set (ci - 1)
            (.mk (listInsertAt lsits lsits.length
              (its2.getD (ci - 1) default) ++ cits) [])) (ci - 1 + 1)) := by
      unfold mergeRightP
      simp only [BTNode.items_mk, BTNode.children_mk, hcgetD, hlsgetD,
        Bool.false_eq_true, if_false]
      rw [hidx]
    rw [hmrg]
    obtain ⟨hflat, hwfall⟩ := merge_finish key harity
      (show ci - 1 + 1 < chs2.length by omega) hsort
      (fun j hj hj1 hj2 => hsib j hj (by omega))
      (.mk (listInsertAt lsits lsits.length
        (its2.getD (ci - 1) default) ++ cits) [])
      (by
        rw [hlsgetD, hidx, hcgetD]
        exact seg_merge_leaf lsits cits (its2.getD (ci - 1) default))
      (by
        intro hp
        simp only [toList_mk, inorderAux_nil] at hp
        refine WFB.leaf _ _ (fun hc => by simp at hc) ?_ ?_ ?_
        · intro _
          rw [List.length_append, listInsertAt_end, List.length_append]
          simp only [List.length_cons, List.length_nil]
          omega
        · rw [List.length_append, listInsertAt_end, List.length_append]
          simp only [List.length_cons, List.length_nil]
          omega
        · exact hp)
    refine ⟨_, rfl, hflat, ?_, hwfall⟩
    rw [listRemoveAt_length _ _ (by
      rw [List.length_set]
      omega)]
    rw [List.length_set]
    omega
  · -- internal level
    subst hkeq
    have hcne : cchs ≠ [] := by
      intro hc
      rw [hc] at hcar
      simp at hcar
    have hnlt : nl = true := hnl.mpr hcne
    subst hnlt
    obtain ⟨hlsar, hlswf⟩ := WFB_internal_inv key hwls
    have hmrg : mergeRightP (.mk its2 chs2) ci true =
        .mk (listRemoveAt its2 (ci - 1))
          (listRemoveAt (chs2.set (ci - 1)
            (.mk (listInsertAt lsits lsits.length
              (its2.getD (ci - 1) default) ++ cits) (lschs ++ cchs)))
            (ci - 1 + 1)) := by
      unfold mergeRightP
      simp only [BTNode.items_mk, BTNode.children_mk, hcgetD, hlsgetD,
        if_true]
      rw [hidx]
    rw [hmrg]
    obtain ⟨hflat, hwfall⟩ := merge_finish key harity
      (show ci - 1 + 1 < chs2.length by omega) hsort
      (fun j hj hj1 hj2 => hsib j hj (by omega))
      (.mk (listInsertAt lsits lsits.length
        (its2.getD (ci - 1) default) ++ cits) (lschs ++ cchs))
      (by
        rw [hlsgetD, hidx, hcgetD]
        exact seg_merge_internal lsits cits lschs cchs
          (its2.getD (ci - 1) default) hlsar)
      (by
        intro hp
        refine WFB.internal _ _ hk2 false ?_ (fun hc => by simp at hc) ?_ ?_
          ?_ ?_
        · rw [List.length_append, List.length_append, listInsertAt_end,
            List.length_append]
          simp only [List.length_cons, List.length_nil]
          omega
        · intro _
          rw [List.length_append, listInsertAt_end, List.length_append]
          simp only [List.length_cons, List.length_nil]
          omega
        · rw [List.length_append, listInsertAt_end, List.length_append]
          simp only [List.length_cons, List.length_nil]
          omega
        · intro cc hcc
          rcases List.mem_append.mp hcc with hcc2 | hcc2
          · exact hlswf cc hcc2
          · exact hcwf cc hcc2
        · exact hp)
    refine ⟨_, rfl, hflat, ?_, hwfall⟩
    rw [listRemoveAt_length _ _ (by
      rw [List.length_set]
      omega)]
    rw [List.length_set]
    omega

end Btree

namespace Btree
variable {α κ : Type} [LinearOrder κ] [Inhabited α] (key : α → κ)

/-- Master correctness of `Node.rebalance` (btree.go:1032-1048) run at the
parent of an under-full child: the flatten is unchanged, the arity is
restored, the parent loses at most one item (to a merge), and every child
of the parent satisfies the node invariants again. -/
theorem rebalanceP_main {maxI hkid : Nat} (hmax : 3 ≤ maxI)
    {its2 : List α} {chs2 : List (BTNode α)} {ci : Nat} {nl : Bool}
    (harity : chs2.length = its2.length + 1)
    (hits2 : 1 ≤ its2.length)
    (hsort : (keys key (inorderAux chs2 its2)).Pairwise (· < ·))
    (hci : ci < chs2.length)
    (hshort : ShortNode key maxI hkid (chs2[ci]))
    (hnl : nl = true ↔ (chs2[ci]).children ≠ [])
    (hsib : ∀ (j : Nat) (hj : j < chs2.length), j ≠ ci →
      WFB key maxI hkid false (chs2[j])) :
    ∃ its3 chs3,
      rebalanceP maxI (.mk its2 chs2) ci nl = .mk its3 chs3 ∧
      inorderAux chs3 its3 = inorderAux chs2 its2 ∧
      chs3.length = its3.length + 1 ∧
      (its3.length = its2.length ∨ its3.length + 1 = its2.length) ∧
      (∀ c ∈ chs3, WFB key maxI hkid false c) := by
  obtain ⟨cits, cchs, hceq, hclen, hckind⟩ := hshort
  rw [hceq, BTNode.children_mk] at hnl
  by_cases hR : ci + 1 < chs2.length
  · rcases hsibeq : chs2[ci + 1] with ⟨sibits, sibchs⟩
    have hrsiv : rightSiblingItems (.mk its2 chs2) ci = sibits.length := by
      unfold rightSiblingItems
      simp only [BTNode.children_mk]
      rw [if_neg (by omega), List.getD_eq_getElem _ _ hR, hsibeq,
        BTNode.items_mk]
    have hwsib : WFB key maxI hkid false (.mk sibits sibchs) := by
      have h0 := hsib (ci + 1) hR (by omega)
      rwa [hsibeq] at h0
    have hsibmin : maxI / 2 ≤ sibits.length := (WFB_length_bounds key hwsib).1
    by_cases hRot : maxI / 2 < sibits.length
    · obtain ⟨chs3, heq, hflat, hlen3, hwf⟩ := rotateLeftP_main key hmax
        harity hci hR hceq hsibeq hsort hclen hckind hsib hnl hRot
      refine ⟨_, chs3, ?_, hflat, ?_, Or.inl (by
        simp only [List.length_set]), hwf⟩
      · have hreb : rebalanceP maxI (.mk its2 chs2) ci nl =
            rotateLeftP (.mk its2 chs2) ci nl := by
          unfold rebalanceP
          rw [hrsiv, if_pos hRot]
        rw [hreb]
        exact heq
      · rw [hlen3, harity, List.length_set]
    · by_cases hL : 0 < ci
      · rcases hlseq : chs2[ci - 1] with ⟨lsits, lschs⟩
        have hlsiv : leftSiblingItems (.mk its2 chs2) ci = lsits.length := by
          unfold leftSiblingItems
          simp only [BTNode.children_mk]
          rw [if_neg (by omega), List.getD_eq_getElem _ _ (by omega), hlseq,
            BTNode.items_mk]
        by_cases hRotR : maxI / 2 < lsits.length
        · obtain ⟨chs3, heq, hflat, hlen3, hwf⟩ := rotateRightP_main key hmax
            harity hci hL hceq hlseq hsort hclen hckind hsib hnl hRotR
          refine ⟨_, chs3, ?_, hflat, ?_, Or.inl (by
            simp only [List.length_set]), hwf⟩
          · have hreb : rebalanceP maxI (.mk its2 chs2) ci nl =
                rotateRightP (.mk its2 chs2) ci nl := by
              unfold rebalanceP
              rw [hrsiv, if_neg hRot, hlsiv, if_pos hRotR]
            rw [hreb]
            exact heq
          · rw [hlen3, harity, List.length_set]
        · obtain ⟨chs3, heq, hflat, hlen3, hwf⟩ := mergeLeftP_main key hmax
            harity hci hR hceq hsibeq hsort hclen hckind hsib hnl (by omega)
          refine ⟨_, chs3, ?_, hflat, ?_, Or.inr (by
            rw [listRemoveAt_length _ _ (by omega)]
            omega), hwf⟩
          · have hreb : rebalanceP maxI (.mk its2 chs2) ci nl =
                mergeLeftP (.mk its2 chs2) ci nl := by
              unfold rebalanceP
              rw [hrsiv, if_neg hRot, hlsiv, if_neg hRotR,
                if_pos (by omega : sibits.length > 0)]
            rw [hreb]
            exact heq
          · rw [listRemoveAt_length _ _ (by omega)]
            omega
      · have hlsiv : leftSiblingItems (.mk its2 chs2) ci = 0 := by
          unfold leftSiblingItems
          simp only [BTNode.children_mk]
          rw [if_pos (by omega)]
        obtain ⟨chs3, heq, hflat, hlen3, hwf⟩ := mergeLeftP_main key hmax
          harity hci hR hceq hsibeq hsort hclen hckind hsib hnl (by omega)
        refine ⟨_, chs3, ?_, hflat, ?_, Or.inr (by
          rw [listRemoveAt_length _ _ (by omega)]
          omega), hwf⟩
        · have hreb : rebalanceP maxI (.mk its2 chs2) ci nl =
              mergeLeftP (.mk its2 chs2) ci nl := by
            unfold rebalanceP
            rw [hrsiv, if_neg hRot, hlsiv,
              if_neg (by omega : ¬ (0 > maxI / 2)),
              if_pos (by omega : sibits.length > 0)]
          rw [hreb]
          exact heq
        · rw [listRemoveAt_length _ _ (by omega)]
          omega
  · -- no right sibling: the child is the last one
    have hrsiv : rightSiblingItems (.mk its2 chs2) ci = 0 := by
      unfold rightSiblingItems
      simp only [BTNode.children_mk]
      rw [if_pos (by omega)]
    have hL : 0 < ci := by omega
    rcases hlseq : chs2[ci - 1] with ⟨lsits, lschs⟩
    have hlsiv : leftSiblingItems (.mk its2 chs2) ci = lsits.length := by
      unfold leftSiblingItems
      simp only [BTNode.children_mk]
      rw [if_neg (by omega), List.getD_eq_getElem _ _ (by omega), hlseq,
        BTNode.items_mk]
    have hwls : WFB key maxI hkid false (.mk lsits lschs) := by
      have h0 := hsib (ci - 1) (by omega) (by omega)
      rwa [hlseq] at h0
    have hlsmin : maxI / 2 ≤ lsits.length := (WFB_length_bounds key hwls).1
    by_cases hRotR : maxI / 2 < lsits.length
    · obtain ⟨chs3, heq, hflat, hlen3, hwf⟩ := rotateRightP_main key hmax
        harity hci hL hceq hlseq hsort hclen hckind hsib hnl hRotR
      refine ⟨_, chs3, ?_, hflat, ?_, Or.inl (by
        simp only [List.length_set]), hwf⟩
      · have hreb : rebalanceP maxI (.mk its2 chs2) ci nl =
            rotateRightP (.mk its2 chs2) ci nl := by
          unfold rebalanceP
          rw [hrsiv, if_neg (by omega : ¬ (0 > maxI / 2)), hlsiv,
            if_pos hRotR]
        rw [hreb]
        exact heq
      · rw [hlen3, harity, List.length_set]
    · obtain ⟨chs3, heq, hflat, hlen3, hwf⟩ := mergeRightP_main key hmax
        harity hci hL hceq hlseq hsort hclen hckind hsib hnl (by omega)
      refine ⟨_, chs3, ?_, hflat, ?_, Or.inr (by
        rw [listRemoveAt_length _ _ (by omega)]
        omega), hwf⟩
      · have hreb : rebalanceP maxI (.mk its2 chs2) ci nl =
            mergeRightP (.mk its2 chs2) ci nl := by
          unfold rebalanceP
          rw [hrsiv, if_neg (by omega : ¬ (0 > maxI / 2)), hlsiv,
            if_neg hRotR, if_neg (by omega : ¬ (0 > 0)),
            if_pos (by omega : lsits.length > 0)]
        rw [hreb]
        exact heq
      · rw [listRemoveAt_length _ _ (by omega)]
        omega

end Btree

namespace Btree
variable {α κ : Type} [LinearOrder κ] [Inhabited α] (key : α → κ)

theorem getLastD_mem_of_ne_nil {β : Type} {l : List β} (d : β)
    (h : l ≠ []) : l.getLastD d ∈ l := by
  cases l with
  | nil => exact absurd rfl h
  | cons c cs => exact getLastD_mem d c cs

theorem delKeyList_flat (x : α) {P M SUFF : List α}
    (hPb : ∀ a ∈ P, key a < key x) (hSb : ∀ a ∈ SUFF, key x < key a) :
    delKeyList key x (P ++ M ++ SUFF) = P ++ delKeyList key x M ++ SUFF := by
  rw [List.append_assoc,
    delKeyList_append_right key x P _ (fun a ha => ne_of_lt (hPb a ha)),
    delKeyList_append_left key x M SUFF (fun b hb => ne_of_gt (hSb b hb)),
    List.append_assoc]

theorem delKeyList_getLastD (l : List α) (d : α) (hs : ItemsSorted key l)
    (h : l ≠ []) : delKeyList key (l.getLastD d) l = l.dropLast := by
  obtain ⟨l2, a, hdecomp⟩ : ∃ l2 a, l = l2 ++ [a] :=
    ⟨l.dropLast, l.getLast h, (List.dropLast_concat_getLast h).symm⟩
  subst hdecomp
  have hlast : (l2 ++ [a]).getLastD d = a := by simp
  have hdrop : (l2 ++ [a]).dropLast = l2 := by simp
  rw [hlast, hdrop, delKeyList_append_right key a l2 [a] ?_,
    delKeyList_cons_eq key _ rfl, List.append_nil]
  intro b hb
  rw [← pairwise_keys_iff] at hs
  obtain ⟨-, -, hcross⟩ := pairwise_keys_append key hs
  exact ne_of_lt (hcross b hb a (by simp))

theorem delKeyList_headD (l : List α) (d : α) (h : l ≠ []) :
    delKeyList key (l.headD d) l = l.tail := by
  cases l with
  | nil => exact absurd rfl h
  | cons a t =>
    simp only [List.headD_cons, List.tail_cons]
    exact delKeyList_cons_eq key _ rfl

/-- The separator-replacement step of `Node.delete` at a found index of an
internal node: the produced descent index is in range, the new target's key
is stored in that child, the items keep their length, and deleting the new
target from that child realises the key-deletion of the original item from
the whole flatten. -/
theorem sepReplace_main {maxI hh : Nat} {r : Bool} {its : List α}
    {chs : List (BTNode α)} (hmax : 3 ≤ maxI) {x : α} {i : Nat}
    (hw : WFB key maxI (hh + 1) r (.mk its chs))
    (hsearch : itemsSearch key its x = (i, true)) :
    ∃ (hi2 : (sepReplace its chs i x).1 < chs.length),
      key (sepReplace its chs i x).2.1 ∈
        (((chs[(sepReplace its chs i x).1]).toList)).map key ∧
      (sepReplace its chs i x).2.2.length = its.length ∧
      (∀ c' : BTNode α,
        c'.toList = delKeyList key (sepReplace its chs i x).2.1
          ((chs[(sepReplace its chs i x).1]).toList) →
        inorderAux (chs.set (sepReplace its chs i x).1 c')
            (sepReplace its chs i x).2.2 =
          delKeyList key x (inorderAux chs its)) ∧
      key x ∈ ((inorderAux chs its)).map key := by
  have harity : chs.length = its.length + 1 := (WFB_internal_inv key hw).1
  have hch : ∀ c ∈ chs, WFB key maxI hh false c := (WFB_internal_inv key hw).2
  have hsortflat : (keys key (inorderAux chs its)).Pairwise (· < ·) := by
    have := WFB_toList_sorted key hw
    rwa [toList_mk] at this
  have hsits : ItemsSorted key its := WFB_items_sorted key hw
  obtain ⟨hlt0, hkeq0, -, -⟩ := itemsSearch_found_spec key x its hsits
    (by rw [hsearch])
  have hfst : (itemsSearch key its x).1 = i := by
    rw [hsearch]
  have hlt : i < its.length := by
    rw [← hfst]
    exact hlt0
  have hkeq : key (its[i]) = key x := by
    have h0 : its[i] = its[(itemsSearch key its x).1] := by
      congr 1
      exact hfst.symm
    rw [h0]
    exact hkeq0
  have hi1 : i + 1 < chs.length := by omega
  have hxmem : key x ∈ (inorderAux chs its).map key := by
    rw [← hkeq]
    exact List.mem_map_of_mem key
      ((sublist_inorderAux chs its).subset (its.getElem_mem hlt))
  obtain ⟨P, SUFF, hbase, hset2, hrem⟩ := inorder_set2_getD its chs harity i hi1
  have hcg1 : chs.getD i nilNode = chs[i] :=
    List.getD_eq_getElem _ _ (by omega)
  have hcg2 : chs.getD (i + 1) nilNode = chs[i + 1] :=
    List.getD_eq_getElem _ _ hi1
  have hig : its.getD i default = its[i] := List.getD_eq_getElem _ _ hlt
  rw [hcg1, hcg2, hig] at hbase
  have hwc1 : WFB key maxI hh false (chs[i]) :=
    hch _ (List.getElem_mem _)
  have hwc2 : WFB key maxI hh false (chs[i + 1]) :=
    hch _ (List.getElem_mem _)
  have hM1ne : (chs[i]).toList ≠ [] :=
    WFB_toList_ne_nil key (by omega) hwc1
  have hM2ne : (chs[i + 1]).toList ≠ [] :=
    WFB_toList_ne_nil key (by omega) hwc2
  -- sorted pieces and bounds around the separator
  have hsplit : (keys key ((P ++ (chs[i]).toList) ++
      ((its[i]) :: (chs[i + 1]).toList ++ SUFF))).Pairwise (· < ·) := by
    have h0 : (P ++ (chs[i]).toList) ++
        ((its[i]) :: (chs[i + 1]).toList ++ SUFF) =
        P ++ (chs[i]).toList ++ (its[i]) ::
          (chs[i + 1]).toList ++ SUFF := by
      simp [List.append_assoc]
    rw [h0, ← hbase]
    exact hsortflat
  obtain ⟨hsA, hsR, hcross⟩ := pairwise_keys_append key hsplit
  have hAlt : ∀ a ∈ P ++ (chs[i]).toList,
      key a < key x := by
    intro a ha
    rw [← hkeq]
    exact hcross a ha _ (by simp)
  have hsR2 := hsR
  simp only [keys, List.cons_append, List.map_cons] at hsR2
  have hRgt : ∀ b ∈ (chs[i + 1]).toList ++ SUFF, key x < key b := by
    intro b hb
    rw [← hkeq]
    exact (List.pairwise_cons.mp hsR2).1 (key b) (List.mem_map_of_mem key hb)
  have hMisorted : ItemsSorted key ((chs[i]).toList) := by
    rw [← pairwise_keys_iff]
    exact (pairwise_keys_append key hsA).2.1
  -- the deletion target in list form
  have hdel : delKeyList key x (inorderAux chs its) =
      (P ++ (chs[i]).toList) ++
        ((chs[i + 1]).toList ++ SUFF) := by
    rw [hbase]
    have h0 : P ++ (chs[i]).toList ++
        (its[i]) :: (chs[i + 1]).toList ++ SUFF =
        (P ++ (chs[i]).toList) ++ (its[i]) ::
          ((chs[i + 1]).toList ++ SUFF) := by
      simp [List.append_assoc]
    rw [h0, delKeyList_append_right key x _ _
      (fun a ha => ne_of_lt (hAlt a ha)), delKeyList_cons_eq key _ hkeq]
  -- evaluate the max/min leaves
  obtain ⟨-, -, hmaxlast⟩ := WFB_maxNode key (by omega : 2 ≤ maxI) hwc1
  obtain ⟨hminwf, -, hminhead⟩ := WFB_minNode key (by omega : 2 ≤ maxI) hwc2
  obtain ⟨hmaxwf, -, -⟩ := WFB_maxNode key (by omega : 2 ≤ maxI) hwc1
  by_cases hsel : ((chs.getD i nilNode).maxNode).items.length >
      ((chs.getD (i + 1) nilNode).minNode).items.length
  · -- the left subtree's maximum replaces the separator
    have hsr : sepReplace its chs i x =
        (i, ((chs.getD i nilNode).maxNode).items.getD
            (((chs.getD i nilNode).maxNode).items.length - 1) x,
          its.set i (((chs.getD i nilNode).maxNode).items.getD
            (((chs.getD i nilNode).maxNode).items.length - 1) x)) := by
      unfold sepReplace
      rw [if_pos hsel]
    have hnewsep : ((chs.getD i nilNode).maxNode).items.getD
        (((chs.getD i nilNode).maxNode).items.length - 1) x =
        ((chs[i]).toList).getLastD x := by
      rw [getD_length_sub_one_eq_getLastD, List.getLastD_eq_getLast?, hcg1,
        hmaxlast, ← List.getLastD_eq_getLast?]
    rw [hsr]
    simp only
    refine ⟨by omega, ?_, by rw [List.length_set], ?_, hxmem⟩
    · rw [hnewsep]
      exact List.mem_map_of_mem key (getLastD_mem_of_ne_nil x hM1ne)
    · intro c' hc'
      rw [hnewsep] at hc' ⊢
      rw [delKeyList_getLastD key _ x hMisorted hM1ne] at hc'
      have h1 : (chs.set i c').set (i + 1) (chs[i + 1]) =
          chs.set i c' := by
        have hslen : i + 1 < (chs.set i c').length := by
          rw [List.length_set]
          omega
        have h2 : (chs.set i c')[i + 1] = chs[i + 1] := by
          rw [List.getElem_set]
          rw [if_neg (by omega)]
        rw [← h2]
        exact set_getElem_self_eq _ _ _
      rw [← h1, hset2 c' _ _, hdel, hc']
      have h3 : (chs[i]).toList =
          ((chs[i]).toList).dropLast ++
            [((chs[i]).toList).getLastD x] :=
        (dropLast_append_getLastD _ x hM1ne).symm
      conv_rhs => rw [h3]
      simp [List.append_assoc]
  · -- the right subtree's minimum replaces the separator
    have hsr : sepReplace its chs i x =
        (i + 1, ((chs.getD (i + 1) nilNode).minNode).items.getD 0 x,
          its.set i (((chs.getD (i + 1) nilNode).minNode).items.getD 0 x)) := by
      unfold sepReplace
      rw [if_neg hsel]
    have hnewsep : ((chs.getD (i + 1) nilNode).minNode).items.getD 0 x =
        ((chs[i + 1]).toList).headD x := by
      rw [getD_zero_eq_headD, List.headD_eq_head?, hcg2, hminhead,
        ← List.headD_eq_head?]
    rw [hsr]
    simp only
    refine ⟨hi1, ?_, by rw [List.length_set], ?_, hxmem⟩
    · rw [hnewsep]
      have hmem0 : ((chs[i + 1]).toList).headD x ∈
          (chs[i + 1]).toList := by
        cases hcl : (chs[i + 1]).toList with
        | nil => exact absurd hcl hM2ne
        | cons a t => simp
      exact List.mem_map_of_mem key hmem0
    · intro c' hc'
      rw [hnewsep] at hc' ⊢
      rw [delKeyList_headD key _ x hM2ne] at hc'
      have h1 : chs.set i (chs[i]) = chs :=
        set_getElem_self_eq _ _ _
      have h2 : chs.set (i + 1) c' =
          (chs.set i (chs[i])).set (i + 1) c' := by
        rw [h1]
      rw [h2, hset2 _ c' _, hdel, hc']
      have h3 : (chs[i + 1]).toList =
          ((chs[i + 1]).toList).headD x ::
            ((chs[i + 1]).toList).tail := by
        cases hcl : (chs[i + 1]).toList with
        | nil => exact absurd hcl hM2ne
        | cons a t => simp
      conv_rhs => rw [h3]
      simp [List.append_assoc]

end Btree

namespace Btree
variable {α κ : Type} [LinearOrder κ] [Inhabited α] (key : α → κ)

theorem nodeDelete_leaf_found_eq {maxI : Nat} {its : List α} {x : α}
    {hp : Bool} {i : Nat} (hsearch : itemsSearch key its x = (i, true)) :
    nodeDelete key maxI (.mk its []) x hp =
      { self := .mk (listRemoveAt its i) []
        rootRet := if (listRemoveAt its i).length > 0 then
            some (.mk (listRemoveAt its i) []) else none
        ok := true
        reb := if hp = true ∧ (listRemoveAt its i).length < maxI / 2 then
            some false else none } := by
  rw [nodeDelete]
  simp only [hsearch]
  simp

theorem nodeDelete_leaf_notfound_eq {maxI : Nat} {its : List α} {x : α}
    {hp : Bool} {i : Nat} (hsearch : itemsSearch key its x = (i, false)) :
    nodeDelete key maxI (.mk its []) x hp =
      { self := .mk its [], rootRet := some (.mk its []), ok := false
        reb := none } := by
  rw [nodeDelete]
  simp only [hsearch]
  simp

theorem nodeDelete_found_internal_eq {maxI : Nat} {its : List α}
    {chs : List (BTNode α)} {x : α} {hp : Bool} {i i2 : Nat} {item2 : α}
    {its2 : List α} (hsearch : itemsSearch key its x = (i, true))
    (hchs : ¬ chs.isEmpty) (hstep : sepReplace its chs i x = (i2, item2, its2))
    (hi2 : i2 < chs.length) :
    nodeDelete key maxI (.mk its chs) x hp =
      (let cres := nodeDelete key maxI (chs[i2]) item2 true
       let n1 : BTNode α := .mk its2 (chs.set i2 cres.self)
       let n2 := match cres.reb with
         | some nlv => rebalanceP maxI n1 i2 nlv
         | none => n1
       if hp then
         { self := n2, rootRet := some n2, ok := cres.ok
           reb := if n2.items.length < maxI / 2 then some true else none }
       else
         { self := n2
           rootRet := if n2.items.length = 0 ∧ n2.children.length > 0 then
               some (n2.children.getD 0 nilNode) else some n2
           ok := cres.ok
           reb := none }) := by
  rw [nodeDelete]
  simp only [hsearch, hstep]
  rw [if_neg (by
    intro hc
    exact hchs hc.2)]
  simp only [if_true, hstep]
  rw [dif_pos hi2]

theorem nodeDelete_notfound_internal_eq {maxI : Nat} {its : List α}
    {chs : List (BTNode α)} {x : α} {hp : Bool} {i : Nat}
    (hsearch : itemsSearch key its x = (i, false))
    (hi2 : i < chs.length) :
    nodeDelete key maxI (.mk its chs) x hp =
      (let cres := nodeDelete key maxI (chs[i]) x true
       let n1 : BTNode α := .mk its (chs.set i cres.self)
       let n2 := match cres.reb with
         | some nlv => rebalanceP maxI n1 i nlv
         | none => n1
       if hp then
         { self := n2, rootRet := some n2, ok := cres.ok
           reb := if n2.items.length < maxI / 2 then some true else none }
       else
         { self := n2
           rootRet := if n2.items.length = 0 ∧ n2.children.length > 0 then
               some (n2.children.getD 0 nilNode) else some n2
           ok := cres.ok
           reb := none }) := by
  rw [nodeDelete]
  simp only [hsearch]
  rw [if_neg (by
    intro hc
    simp at hc)]
  simp only [Bool.false_eq_true, if_false]
  rw [dif_pos hi2]

end Btree

namespace Btree
variable {α κ : Type} [LinearOrder κ] [Inhabited α] (key : α → κ)

theorem WFB_false_to_true {maxI h : Nat} {n : BTNode α} (hmax : 2 ≤ maxI)
    (hw : WFB key maxI h false n) : WFB key maxI h true n := by
  cases hw with
  | leaf its _ ha1 ha2 ha3 ha4 =>
    exact WFB.leaf its true (fun _ => by
      have := ha2 rfl
      omega) (fun hc => by simp at hc) ha3 ha4
  | internal its chs hk _ ha1 ha2 ha3 ha4 ha5 ha6 =>
    exact WFB.internal its chs hk true ha1 (fun _ => by
      have := ha3 rfl
      omega) (fun hc => by simp at hc) ha4 ha5 ha6

/-- The shared continuation of `Node.delete` after the descent target
`(i2, item2, its2)` has been fixed: recurse, reattach, rebalance on demand,
and package the results for a parented or root call. -/
def delCont (maxI : Nat) (its2 : List α) (chs : List (BTNode α)) (i2 : Nat)
    (item2 : α) (hp : Bool) : DelRes α :=
  let cres := nodeDelete key maxI (chs.getD i2 nilNode) item2 true
  let n1 : BTNode α := .mk its2 (chs.set i2 cres.self)
  let n2 := match cres.reb with
    | some nlv => rebalanceP maxI n1 i2 nlv
    | none => n1
  if hp then
    { self := n2, rootRet := some n2, ok := cres.ok
      reb := if n2.items.length < maxI / 2 then some true else none }
  else
    { self := n2
      rootRet := if n2.items.length = 0 ∧ n2.children.length > 0 then
          some (n2.children.getD 0 nilNode) else some n2
      ok := cres.ok
      reb := none }

theorem nodeDelete_found_internal_eq2 {maxI : Nat} {its : List α}
    {chs : List (BTNode α)} {x : α} {hp : Bool} {i i2 : Nat} {item2 : α}
    {its2 : List α} (hsearch : itemsSearch key its x = (i, true))
    (hchs : ¬ chs.isEmpty) (hstep : sepReplace its chs i x = (i2, item2, its2))
    (hi2 : i2 < chs.length) :
    nodeDelete key maxI (.mk its chs) x hp =
      delCont key maxI its2 chs i2 item2 hp := by
  rw [nodeDelete_found_internal_eq key hsearch hchs hstep hi2]
  unfold delCont
  rw [List.getD_eq_getElem _ _ hi2]

theorem nodeDelete_notfound_internal_eq2 {maxI : Nat} {its : List α}
    {chs : List (BTNode α)} {x : α} {hp : Bool} {i : Nat}
    (hsearch : itemsSearch key its x = (i, false))
    (hi2 : i < chs.length) :
    nodeDelete key maxI (.mk its chs) x hp =
      delCont key maxI its chs i x hp := by
  rw [nodeDelete_notfound_internal_eq key hsearch hi2]
  unfold delCont
  rw [List.getD_eq_getElem _ _ hi2]

end Btree

namespace Btree
variable {α κ : Type} [LinearOrder κ] [Inhabited α] (key : α → κ)

/-- Correctness of the shared delete continuation, given the facts
established for the chosen descent target by either search outcome. -/
theorem delCont_main {maxI h : Nat} {isRoot : Bool} {its its2 : List α}
    {chs : List (BTNode α)} {x item2 : α} {i2 : Nat}
    (hodd : maxI % 2 = 1) (hmax : 3 ≤ maxI)
    (h1 : chs.length = its.length + 1)
    (hr1 : isRoot = true → 1 ≤ its.length)
    (hr2 : isRoot = false → maxI / 2 ≤ its.length)
    (hlen : its.length ≤ maxI)
    (hch : ∀ c ∈ chs, WFB key maxI h false c)
    (hsortflat : (keys key (inorderAux chs its)).Pairwise (· < ·))
    (hi2 : i2 < chs.length)
    (hits2len : its2.length = its.length)
    (hcontent : ∀ c' : BTNode α,
      c'.toList = delKeyList key item2 ((chs.getD i2 nilNode).toList) →
      inorderAux (chs.set i2 c') its2 =
        delKeyList key x (inorderAux chs its))
    (hmem_iff : key item2 ∈ ((chs.getD i2 nilNode).toList).map key ↔
      key x ∈ ((inorderAux chs its)).map key)
    (ihcont : (nodeDelete key maxI (chs.getD i2 nilNode) item2
        true).self.toList =
      delKeyList key item2 ((chs.getD i2 nilNode).toList))
    (ihok : (nodeDelete key maxI (chs.getD i2 nilNode) item2 true).ok =
        true ↔
      key item2 ∈ ((chs.getD i2 nilNode).toList).map key)
    (ihnone : (nodeDelete key maxI (chs.getD i2 nilNode) item2 true).reb =
        none →
      WFB key maxI h false
        (nodeDelete key maxI (chs.getD i2 nilNode) item2 true).self)
    (ihsome : ∀ nlv,
      (nodeDelete key maxI (chs.getD i2 nilNode) item2 true).reb =
        some nlv →
      ShortNode key maxI h
        (nodeDelete key maxI (chs.getD i2 nilNode) item2 true).self ∧
      (nlv = true ↔
        (nodeDelete key maxI (chs.getD i2 nilNode) item2
          true).self.children ≠ [])) :
    (delCont key maxI its2 chs i2 item2 (!isRoot)).self.toList =
      delKeyList key x (inorderAux chs its) ∧
    ((delCont key maxI its2 chs i2 item2 (!isRoot)).ok = true ↔
      key x ∈ ((inorderAux chs its)).map key) ∧
    (isRoot = false →
      ((delCont key maxI its2 chs i2 item2 (!isRoot)).reb = none →
        WFB key maxI (h + 1) false
          (delCont key maxI its2 chs i2 item2 (!isRoot)).self) ∧
      (∀ nlv, (delCont key maxI its2 chs i2 item2 (!isRoot)).reb =
          some nlv →
        ShortNode key maxI (h + 1)
          (delCont key maxI its2 chs i2 item2 (!isRoot)).self ∧
        (nlv = true ↔
          (delCont key maxI its2 chs i2 item2
            (!isRoot)).self.children ≠ []))) ∧
    (isRoot = true →
      (delCont key maxI its2 chs i2 item2 (!isRoot)).reb = none ∧
      ((delCont key maxI its2 chs i2 item2 (!isRoot)).rootRet = none →
        delKeyList key x (inorderAux chs its) = []) ∧
      (∀ r2, (delCont key maxI its2 chs i2 item2 (!isRoot)).rootRet =
          some r2 →
        r2.toList = delKeyList key x (inorderAux chs its) ∧
        ∃ h2, WFB key maxI h2 true r2)) := by
  have hits1 : 1 ≤ its.length := by
    cases isRoot with
    | false =>
      have := hr2 rfl
      omega
    | true =>
      have := hr1 rfl
      omega
  have htsorted : ItemsSorted key (delKeyList key x (inorderAux chs its)) :=
    delKeyList_sorted key x _ ((pairwise_keys_iff key _).mp hsortflat)
  have hokiff : ((nodeDelete key maxI (chs.getD i2 nilNode) item2
      true).ok = true) ↔ key x ∈ ((inorderAux chs its)).map key :=
    ihok.trans hmem_iff
  rcases hcreb : (nodeDelete key maxI (chs.getD i2 nilNode) item2
    true).reb with _ | nlv
  · -- the child needed no rebalancing
    have hwcs := ihnone hcreb
    have hn1flat : inorderAux (chs.set i2
        (nodeDelete key maxI (chs.getD i2 nilNode) item2 true).self) its2 =
        delKeyList key x (inorderAux chs its) := hcontent _ ihcont
    have hnoshort : ¬ its2.length < maxI / 2 ∨ isRoot = true := by
      cases isRoot with
      | false =>
        left
        have := hr2 rfl
        omega
      | true => exact Or.inr rfl
    have hchall : ∀ c ∈ chs.set i2
        (nodeDelete key maxI (chs.getD i2 nilNode) item2 true).self,
        WFB key maxI h false c := by
      intro c hc
      rcases List.mem_or_eq_of_mem_set hc with hc2 | hceq
      · exact hch c hc2
      · exact hceq ▸ hwcs
    have hwn1 : ∀ fl : Bool, (fl = true → 1 ≤ its2.length) →
        (fl = false → maxI / 2 ≤ its2.length) →
        WFB key maxI (h + 1) fl (.mk its2 (chs.set i2
          (nodeDelete key maxI (chs.getD i2 nilNode) item2 true).self)) := by
      intro fl hf1 hf2
      refine WFB.internal _ _ h fl ?_ hf1 hf2 (by omega) hchall ?_
      · rw [List.length_set]
        omega
      · rw [toList_mk, pairwise_keys_iff, hn1flat]
        exact htsorted
    cases isRoot with
    | false =>
      have hdelc : delCont key maxI its2 chs i2 item2 (!false) =
          { self := .mk its2 (chs.set i2 (nodeDelete key maxI
              (chs.getD i2 nilNode) item2 true).self)
            rootRet := some (.mk its2 (chs.set i2 (nodeDelete key maxI
              (chs.getD i2 nilNode) item2 true).self))
            ok := (nodeDelete key maxI (chs.getD i2 nilNode) item2 true).ok
            reb := if its2.length < maxI / 2 then some true else none } := by
        unfold delCont
        dsimp only
        rw [hcreb]
        simp only [Bool.not_false, if_true, BTNode.items_mk]
      refine ⟨?_, ?_, ?_, ?_⟩
      · rw [hdelc]
        simp only [toList_mk]
        exact hn1flat
      · rw [hdelc]
        exact hokiff
      · intro _
        rw [hdelc]
        have hns : ¬ its2.length < maxI / 2 := by
          rcases hnoshort with h0 | h0
          · exact h0
          · simp at h0
        constructor
        · intro _
          simp only
          exact hwn1 false (fun hc => by simp at hc) (fun _ => by omega)
        · intro nlv2 hc
          simp only [if_neg hns] at hc
          simp at hc
      · intro hc
        simp at hc
    | true =>
      have hdelc : delCont key maxI its2 chs i2 item2 (!true) =
          { self := .mk its2 (chs.set i2 (nodeDelete key maxI
              (chs.getD i2 nilNode) item2 true).self)
            rootRet := if its2.length = 0 ∧
                (chs.set i2 (nodeDelete key maxI (chs.getD i2 nilNode)
                  item2 true).self).length > 0 then
                some ((chs.set i2 (nodeDelete key maxI (chs.getD i2 nilNode)
                  item2 true).self).getD 0 nilNode)
              else some (.mk its2 (chs.set i2 (nodeDelete key maxI
                (chs.getD i2 nilNode) item2 true).self))
            ok := (nodeDelete key maxI (chs.getD i2 nilNode) item2 true).ok
            reb := none } := by
        unfold delCont
        dsimp only
        rw [hcreb]
        simp only [Bool.not_true, Bool.false_eq_true, if_false,
          BTNode.items_mk, BTNode.children_mk]
      have hits2pos : ¬ its2.length = 0 := by omega
      refine ⟨?_, ?_, ?_, ?_⟩
      · rw [hdelc]
        simp only [toList_mk]
        exact hn1flat
      · rw [hdelc]
        exact hokiff
      · intro hc
        simp at hc
      · intro _
        rw [hdelc]
        refine ⟨rfl, ?_, ?_⟩
        · intro hc
          rw [if_neg (by
            intro hc2
            exact hits2pos hc2.1)] at hc
          simp at hc
        · intro r2 hc
          rw [if_neg (by
            intro hc2
            exact hits2pos hc2.1)] at hc
          simp only [Option.some.injEq] at hc
          subst hc
          refine ⟨by
            simp only [toList_mk]
            exact hn1flat, h + 1, ?_⟩
          exact hwn1 true (fun _ => by omega) (fun hc2 => by simp at hc2)
  · -- the child came back short and was rebalanced here
    obtain ⟨hshortc, hnlvc⟩ := ihsome nlv hcreb
    have hn1flat : inorderAux (chs.set i2
        (nodeDelete key maxI (chs.getD i2 nilNode) item2 true).self) its2 =
        delKeyList key x (inorderAux chs its) := hcontent _ ihcont
    have harity2 : (chs.set i2 (nodeDelete key maxI (chs.getD i2 nilNode)
        item2 true).self).length = its2.length + 1 := by
      rw [List.length_set]
      omega
    have hsort2 : (keys key (inorderAux (chs.set i2 (nodeDelete key maxI
        (chs.getD i2 nilNode) item2 true).self) its2)).Pairwise (· < ·) := by
      rw [hn1flat, pairwise_keys_iff]
      exact htsorted
    have hci2 : i2 < (chs.set i2 (nodeDelete key maxI (chs.getD i2 nilNode)
        item2 true).self).length := by
      rw [List.length_set]
      exact hi2
    have hgetset : (chs.set i2 (nodeDelete key maxI (chs.getD i2 nilNode)
        item2 true).self)[i2] =
        (nodeDelete key maxI (chs.getD i2 nilNode) item2 true).self :=
      List.getElem_set_self hci2
    obtain ⟨its3, chs3, heq3, hflat3, harity3, hlen3, hwf3⟩ :=
      rebalanceP_main key hmax harity2 (by omega) hsort2 hci2
        (by
          rw [hgetset]
          exact hshortc)
        (by
          rw [hgetset]
          exact hnlvc)
        (by
          intro j hj hji
          rw [List.getElem_set, if_neg (by omega)]
          apply hch
          exact List.getElem_mem _)
    have hn2flat : inorderAux chs3 its3 =
        delKeyList key x (inorderAux chs its) := by
      rw [hflat3]
      exact hn1flat
    have hwn2 : ∀ fl : Bool, (fl = true → 1 ≤ its3.length) →
        (fl = false → maxI / 2 ≤ its3.length) →
        WFB key maxI (h + 1) fl (.mk its3 chs3) := by
      intro fl hf1 hf2
      refine WFB.internal _ _ h fl harity3 hf1 hf2 (by omega) hwf3 ?_
      rw [toList_mk, pairwise_keys_iff, hn2flat]
      exact htsorted
    cases isRoot with
    | false =>
      have hdelc : delCont key maxI its2 chs i2 item2 (!false) =
          { self := .mk its3 chs3
            rootRet := some (.mk its3 chs3)
            ok := (nodeDelete key maxI (chs.getD i2 nilNode) item2 true).ok
            reb := if its3.length < maxI / 2 then some true else none } := by
        unfold delCont
        dsimp only
        rw [hcreb]
        dsimp only
        rw [heq3]
        simp only [Bool.not_false, if_true, BTNode.items_mk]
      have hminI : maxI / 2 ≤ its.length := hr2 rfl
      refine ⟨?_, ?_, ?_, ?_⟩
      · rw [hdelc]
        simp only [toList_mk]
        exact hn2flat
      · rw [hdelc]
        exact hokiff
      · intro _
        rw [hdelc]
        constructor
        · intro hc
          by_cases hns : its3.length < maxI / 2
          · rw [if_pos hns] at hc
            simp at hc
          · simp only
            exact hwn2 false (fun hc2 => by simp at hc2) (fun _ => by omega)
        · intro nlv2 hc
          by_cases hns : its3.length < maxI / 2
          · rw [if_pos hns] at hc
            simp only [Option.some.injEq] at hc
            subst hc
            refine ⟨⟨its3, chs3, rfl, by omega, Or.inr ⟨h, rfl, harity3,
              hwf3⟩⟩, ?_⟩
            simp only [BTNode.children_mk]
            constructor
            · intro _
              intro hc2
              rw [hc2] at harity3
              simp at harity3
            · intro _
              trivial
          · rw [if_neg hns] at hc
            simp at hc
      · intro hc
        simp at hc
    | true =>
      have hdelc : delCont key maxI its2 chs i2 item2 (!true) =
          { self := .mk its3 chs3
            rootRet := if its3.length = 0 ∧ chs3.length > 0 then
                some (chs3.getD 0 nilNode)
              else some (.mk its3 chs3)
            ok := (nodeDelete key maxI (chs.getD i2 nilNode) item2 true).ok
            reb := none } := by
        unfold delCont
        dsimp only
        rw [hcreb]
        dsimp only
        rw [heq3]
        simp only [Bool.not_true, Bool.false_eq_true, if_false,
          BTNode.items_mk, BTNode.children_mk]
      refine ⟨?_, ?_, ?_, ?_⟩
      · rw [hdelc]
        simp only [toList_mk]
        exact hn2flat
      · rw [hdelc]
        exact hokiff
      · intro hc
        simp at hc
      · intro _
        rw [hdelc]
        refine ⟨rfl, ?_, ?_⟩
        · intro hc
          by_cases hz : its3.length = 0 ∧ chs3.length > 0
          · rw [if_pos hz] at hc
            simp at hc
          · rw [if_neg hz] at hc
            simp at hc
        · intro r2 hc
          by_cases hz : its3.length = 0 ∧ chs3.length > 0
          · rw [if_pos hz] at hc
            simp only [Option.some.injEq] at hc
            have hits3nil : its3 = [] :=
              List.eq_nil_of_length_eq_zero hz.1
            have hc0len : chs3.length = 1 := by omega
            have hr2mem : r2 ∈ chs3 := by
              rw [← hc, List.getD_eq_getElem _ _ (by omega)]
              exact List.getElem_mem _
            have hwc0 : WFB key maxI h false r2 := hwf3 r2 hr2mem
            refine ⟨?_, h, WFB_false_to_true key (by omega) hwc0⟩
            have hchs3 : chs3 = [r2] := by
              cases chs3 with
              | nil =>
                simp only [List.length_nil] at hc0len
                omega
              | cons a t =>
                cases t with
                | nil =>
                  simp only [List.getD_cons_zero] at hc
                  rw [hc]
                | cons b t2 =>
                  simp only [List.length_cons] at hc0len
                  omega
            rw [← hn2flat, hchs3, hits3nil]
            simp
          · rw [if_neg hz] at hc
            simp only [Option.some.injEq] at hc
            subst hc
            have hits3pos : 1 ≤ its3.length := by
              rcases Nat.eq_zero_or_pos its3.length with h0 | h0
              · exfalso
                apply hz
                refine ⟨h0, ?_⟩
                omega
              · exact h0
            refine ⟨by
              simp only [toList_mk]
              exact hn2flat, h + 1, ?_⟩
            exact hwn2 true (fun _ => hits3pos) (fun hc2 => by simp at hc2)

end Btree

namespace Btree
variable {α κ : Type} [LinearOrder κ] [Inhabited α] (key : α → κ)

/-- Master correctness of `Node.delete` (btree.go:984-1030) on a well-formed
node (called with `parentIndex >= 0`, i.e. `hasParent`, exactly on non-root
nodes): the receiver's final content is the key-deletion of the item from
its flatten, the returned flag reports whether the key was present, a
parented call either keeps the invariants or hands back an exactly
one-short node together with a pending rebalance request, and the root call
returns the correct new root. -/
theorem nodeDelete_main {maxI hh : Nat} {r : Bool}
    (hodd : maxI % 2 = 1) (hmax : 3 ≤ maxI) {n : BTNode α}
    (hw : WFB key maxI hh r n) (x : α) :
    (nodeDelete key maxI n x (!r)).self.toList =
      delKeyList key x n.toList ∧
    ((nodeDelete key maxI n x (!r)).ok = true ↔
      key x ∈ (n.toList).map key) ∧
    (r = false →
      ((nodeDelete key maxI n x (!r)).reb = none →
        WFB key maxI hh false (nodeDelete key maxI n x (!r)).self) ∧
      (∀ nlv, (nodeDelete key maxI n x (!r)).reb = some nlv →
        ShortNode key maxI hh (nodeDelete key maxI n x (!r)).self ∧
        (nlv = true ↔
          (nodeDelete key maxI n x (!r)).self.children ≠ []))) ∧
    (r = true →
      (nodeDelete key maxI n x (!r)).reb = none ∧
      ((nodeDelete key maxI n x (!r)).rootRet = none →
        delKeyList key x n.toList = []) ∧
      (∀ r2, (nodeDelete key maxI n x (!r)).rootRet = some r2 →
        r2.toList = delKeyList key x n.toList ∧
        ∃ h2, WFB key maxI h2 true r2)) := by
  induction hw generalizing x with
  | leaf its isRoot hb1 hb2 hb3 hb4 =>
    have hsits : ItemsSorted key its := (pairwise_keys_iff key its).mp hb4
    rcases hse : itemsSearch key its x with ⟨i, existed⟩
    cases existed with
    | true =>
      rw [nodeDelete_leaf_found_eq key hse]
      have hmem : key x ∈ its.map key :=
        (itemsSearch_found_iff key x its hsits).mp (by rw [hse])
      have hlt : i < its.length := by
        have h0 := (itemsSearch_found_spec key x its hsits
          (by rw [hse])).1
        rw [hse] at h0
        simpa using h0
      have hdel : delKeyList key x its = listRemoveAt its i := by
        rw [delKeyList_eq_listRemoveAt key x its hsits (by rw [hse]), hse]
      have hrlen : (listRemoveAt its i).length = its.length - 1 :=
        listRemoveAt_length its i hlt
      have hrsorted : ItemsSorted key (listRemoveAt its i) := by
        rw [← hdel]
        exact delKeyList_sorted key x its hsits
      refine ⟨?_, ?_, ?_, ?_⟩
      · simp only [toList_mk, inorderAux_nil]
        exact hdel.symm
      · simp only [toList_mk, inorderAux_nil]
        simpa using hmem
      · intro hrf
        subst hrf
        have hminb : maxI / 2 ≤ its.length := hb2 rfl
        constructor
        · intro hrn
          by_cases hsh : (listRemoveAt its i).length < maxI / 2
          · rw [if_pos (show (!false) = true ∧ (listRemoveAt its i).length < maxI / 2 from ⟨Bool.not_false, hsh⟩)] at hrn
            simp at hrn
          · refine WFB.leaf _ _ (fun hc => by simp at hc) (fun _ => by
              omega) (by omega) ?_
            rw [pairwise_keys_iff]
            exact hrsorted
        · intro nlv hrs
          by_cases hsh : (listRemoveAt its i).length < maxI / 2
          · rw [if_pos (show (!false) = true ∧ (listRemoveAt its i).length < maxI / 2 from ⟨Bool.not_false, hsh⟩)] at hrs
            simp only [Option.some.injEq] at hrs
            subst hrs
            refine ⟨⟨listRemoveAt its i, [], rfl, by omega,
              Or.inl ⟨rfl, rfl⟩⟩, ?_⟩
            simp
          · rw [if_neg (show ¬((!false) = true ∧ (listRemoveAt its i).length < maxI / 2) from fun hc => hsh hc.2)] at hrs
            simp at hrs
      · intro hrt
        subst hrt
        refine ⟨by
          rw [if_neg (show ¬((!true) = true ∧ (listRemoveAt its i).length < maxI / 2) from fun hc => by simpa using hc.1)], ?_, ?_⟩
        · intro h0
          by_cases hpos : (listRemoveAt its i).length > 0
          · rw [if_pos hpos] at h0
            simp at h0
          · simp only [toList_mk, inorderAux_nil]
            rw [hdel]
            exact List.eq_nil_of_length_eq_zero (by omega)
        · intro r2 h0
          by_cases hpos : (listRemoveAt its i).length > 0
          · rw [if_pos hpos] at h0
            simp only [Option.some.injEq] at h0
            subst h0
            refine ⟨by
              simp only [toList_mk, inorderAux_nil]
              exact hdel.symm, 0, ?_⟩
            refine WFB.leaf _ _ (fun _ => by omega) (fun hc => by
              simp at hc) (by omega) ?_
            rw [pairwise_keys_iff]
            exact hrsorted
          · rw [if_neg hpos] at h0
            simp at h0
    | false =>
      rw [nodeDelete_leaf_notfound_eq key hse]
      have hnm : key x ∉ its.map key := by
        intro hc
        have := (itemsSearch_found_iff key x its hsits).mpr hc
        rw [hse] at this
        simp at this
      have hdel : delKeyList key x its = its := delKeyList_not_mem key x its hnm
      refine ⟨?_, ?_, ?_, ?_⟩
      · simp only [toList_mk, inorderAux_nil]
        exact hdel.symm
      · simp only [toList_mk, inorderAux_nil]
        simpa using hnm
      · intro hrf
        subst hrf
        exact ⟨fun _ => WFB.leaf its false hb1 hb2 hb3 hb4,
          fun nlv hc => by simp at hc⟩
      · intro hrt
        subst hrt
        refine ⟨rfl, fun h0 => by simp at h0, ?_⟩
        intro r2 h0
        simp only [Option.some.injEq] at h0
        subst h0
        refine ⟨by
          simp only [toList_mk, inorderAux_nil]
          exact hdel.symm, 0, WFB.leaf its true hb1 hb2 hb3 hb4⟩
  | internal its chs h isRoot h1 hr1 hr2 hlen hch hpair ih =>
    have hsortflat : (keys key (inorderAux chs its)).Pairwise (· < ·) := by
      rwa [toList_mk] at hpair
    have hsits : ItemsSorted key its := by
      rw [← pairwise_keys_iff]
      exact List.Pairwise.sublist ((sublist_inorderAux chs its).map key)
        hsortflat
    have hchs_ne : chs ≠ [] := by
      intro hc
      rw [hc] at h1
      exact absurd h1.symm (Nat.succ_ne_zero _)
    rcases hse : itemsSearch key its x with ⟨i, existed⟩
    cases existed with
    | true =>
      obtain ⟨hi2, hmem2, hits2len, hcontent0, hxmem⟩ := sepReplace_main key
        hmax (WFB.internal its chs h isRoot h1 hr1 hr2 hlen hch hpair) hse
      rw [nodeDelete_found_internal_eq2 key hse
        (by simpa [List.isEmpty_iff] using hchs_ne)
        (rfl : sepReplace its chs i x = ((sepReplace its chs i x).1,
          (sepReplace its chs i x).2.1, (sepReplace its chs i x).2.2)) hi2]
      have hgd : chs.getD (sepReplace its chs i x).1 nilNode =
          chs[(sepReplace its chs i x).1] :=
        List.getD_eq_getElem _ _ hi2
      obtain ⟨ihcont, ihok, ihfalse, -⟩ :=
        ih (chs[(sepReplace its chs i x).1]) (List.getElem_mem _)
          (sepReplace its chs i x).2.1
      obtain ⟨ihnone, ihsome⟩ := ihfalse rfl
      simp only [Bool.not_false] at ihcont ihok ihnone ihsome
      rw [← hgd] at ihcont ihok ihnone ihsome
      have hcontent' : ∀ c' : BTNode α,
          c'.toList = delKeyList key ((sepReplace its chs i x).2.1)
            ((chs.getD (sepReplace its chs i x).1 nilNode).toList) →
          inorderAux (chs.set (sepReplace its chs i x).1 c')
            ((sepReplace its chs i x).2.2) =
            delKeyList key x (inorderAux chs its) := by
        intro c' hc'
        apply hcontent0
        rwa [← hgd]
      have hmem_iff' : key ((sepReplace its chs i x).2.1) ∈
          ((chs.getD (sepReplace its chs i x).1 nilNode).toList).map key ↔
          key x ∈ ((inorderAux chs its)).map key := by
        rw [hgd]
        exact iff_of_true hmem2 hxmem
      simp only [toList_mk]
      exact delCont_main key hodd hmax h1 hr1 hr2 hlen hch hsortflat hi2
        hits2len hcontent' hmem_iff' ihcont ihok ihnone ihsome
    | false =>
      obtain ⟨hi, P, SUFF, -, hdec, hset, -, hPb, hSb, -, -, -, -⟩ :=
        localize_nf key x h1 hsortflat hse
      rw [nodeDelete_notfound_internal_eq2 key hse hi]
      have hgd : chs.getD i nilNode = chs[i] :=
        List.getD_eq_getElem _ _ hi
      obtain ⟨ihcont, ihok, ihfalse, -⟩ :=
        ih (chs[i]) (List.getElem_mem _) x
      obtain ⟨ihnone, ihsome⟩ := ihfalse rfl
      simp only [Bool.not_false] at ihcont ihok ihnone ihsome
      rw [← hgd] at ihcont ihok ihnone ihsome
      have hcontent' : ∀ c' : BTNode α,
          c'.toList = delKeyList key x ((chs.getD i nilNode).toList) →
          inorderAux (chs.set i c') its =
            delKeyList key x (inorderAux chs its) := by
        intro c' hc'
        rw [hset c', hdec, delKeyList_flat key x hPb hSb]
        rw [hgd] at hc'
        rw [hc']
      have hmem_iff' : key x ∈ ((chs.getD i nilNode).toList).map key ↔
          key x ∈ ((inorderAux chs its)).map key := by
        rw [hgd, hdec]
        exact (mem_flat_iff key x hPb hSb).symm
      simp only [toList_mk]
      exact delCont_main key hodd hmax h1 hr1 hr2 hlen hch hsortflat hi rfl
        hcontent' hmem_iff' ihcont ihok ihnone ihsome

end Btree

namespace Btree
variable {α κ : Type} [LinearOrder κ] [Inhabited α] (key : α → κ)

/-- Master correctness of `Tree.Delete` (btree.go:823-833) on a well-formed
tree: the invariants are preserved, the content becomes the key-deletion of
the item, and the degree is unchanged. -/
theorem Delete_main (t : BTree α) (hw : WFT key t) (x : α) :
    WFT key (BTree.Delete key t x) ∧
    (BTree.Delete key t x).toListT = delKeyList key x t.toListT ∧
    (BTree.Delete key t x).degree = t.degree := by
  obtain ⟨hd, hroot⟩ := hw
  have hodd : t.maxI % 2 = 1 := by
    unfold BTree.maxI
    omega
  have hmax : 3 ≤ t.maxI := by
    unfold BTree.maxI
    omega
  cases hr : t.root with
  | none =>
    rw [hr] at hroot
    simp only [BTree.Delete, BTree.toListT, hr]
    exact ⟨⟨hd, hroot⟩, by simp, by trivial⟩
  | some rt =>
    rw [hr] at hroot
    obtain ⟨hh, hwb, hlen⟩ := hroot
    obtain ⟨hcont, hok, -, hroot4⟩ := nodeDelete_main key hodd hmax hwb x
    simp only [Bool.not_true] at hcont hok hroot4
    obtain ⟨-, hrnone, hrsome⟩ := hroot4 trivial
    simp only [BTree.Delete, BTree.toListT, hr]
    rcases hrr : (nodeDelete key t.maxI rt x false).rootRet with _ | r2
    · have hnil := hrnone hrr
      simp only [hrr]
      refine ⟨⟨hd, ?_⟩, hnil.symm, by trivial⟩
      rcases hokv : (nodeDelete key t.maxI rt x false).ok with _ | _
      · have hnm : key x ∉ (rt.toList).map key := by
          intro hm
          have := hok.mpr hm
          rw [hokv] at this
          simp at this
        have h0 : rt.toList = [] := by
          rw [← delKeyList_not_mem key x _ hnm]
          exact hnil
        simp only [if_neg (by simp [hokv] :
          ¬ ((nodeDelete key t.maxI rt x false).ok = true))]
        rw [hlen, h0]
        simp
      · have hmem : key x ∈ (rt.toList).map key := hok.mp hokv
        have hlend := delKeyList_length_mem key x _ hmem
        have h0 : (delKeyList key x rt.toList).length = 0 := by
          rw [hnil]
          simp
        rw [if_pos (Eq.refl true)]
        rw [hlen]
        dsimp only
        omega
    · obtain ⟨hr2l, h2, hwr2⟩ := hrsome r2 hrr
      simp only [hrr]
      refine ⟨⟨hd, ?_⟩, hr2l, by trivial⟩
      refine ⟨h2, hwr2, ?_⟩
      rw [hr2l]
      rcases hokv : (nodeDelete key t.maxI rt x false).ok with _ | _
      · have hnm : key x ∉ (rt.toList).map key := by
          intro hm
          have := hok.mpr hm
          rw [hokv] at this
          simp at this
        rw [delKeyList_not_mem key x _ hnm]
        simp only [if_neg (by simp [hokv] :
          ¬ ((nodeDelete key t.maxI rt x false).ok = true))]
        exact hlen
      · have hmem : key x ∈ (rt.toList).map key := hok.mp hokv
        have hlend := delKeyList_length_mem key x _ hmem
        rw [if_pos (Eq.refl true)]
        rw [hlen]
        dsimp only
        omega

end Btree

namespace Btree
variable {α κ : Type} [LinearOrder κ] [Inhabited α] (key : α → κ)

/-- The effect of one public mutating call on the sorted content. -/
def opList (op : Op α) (l : List α) : List α :=
  match op with
  | .ins x => insKeyList key x l
  | .del x => delKeyList key x l

/-- The content an operation sequence produces, starting from a given
content list. -/
def opsList (ops : List (Op α)) (l : List α) : List α :=
  ops.foldl (fun l op => opList key op l) l

theorem toListT_sorted (t : BTree α) (hw : WFT key t) :
    ItemsSorted key t.toListT := by
  obtain ⟨-, hroot⟩ := hw
  cases hr : t.root with
  | none =>
    simp only [BTree.toListT, hr]
    exact List.Pairwise.nil
  | some rt =>
    rw [hr] at hroot
    obtain ⟨hh, hwb, -⟩ := hroot
    simp only [BTree.toListT, hr]
    exact (pairwise_keys_iff key _).mp (WFB_toList_sorted key hwb)

theorem foldl_ops_main (ops : List (Op α)) (t : BTree α) (hw : WFT key t) :
    WFT key (ops.foldl (applyOp key) t) ∧
    (ops.foldl (applyOp key) t).toListT = opsList key ops t.toListT ∧
    (ops.foldl (applyOp key) t).degree = t.degree := by
  induction ops generalizing t with
  | nil => exact ⟨hw, rfl, rfl⟩
  | cons op rest ih =>
    rcases op with x | x
    · obtain ⟨hw2, hc2, hd2⟩ := Insert_main key t hw x
      obtain ⟨hw3, hc3, hd3⟩ := ih _ hw2
      refine ⟨hw3, ?_, ?_⟩
      · show (rest.foldl (applyOp key) (BTree.Insert key t x)).toListT =
          opsList key rest (insKeyList key x t.toListT)
        rw [hc3, hc2]
      · show (rest.foldl (applyOp key) (BTree.Insert key t x)).degree =
          t.degree
        rw [hd3, hd2]
    · obtain ⟨hw2, hc2, hd2⟩ := Delete_main key t hw x
      obtain ⟨hw3, hc3, hd3⟩ := ih _ hw2
      refine ⟨hw3, ?_, ?_⟩
      · show (rest.foldl (applyOp key) (BTree.Delete key t x)).toListT =
          opsList key rest (delKeyList key x t.toListT)
        rw [hc3, hc2]
      · show (rest.foldl (applyOp key) (BTree.Delete key t x)).degree =
          t.degree
        rw [hd3, hd2]

theorem applyOps_main (degree : Int) (hd : 2 ≤ degree) (ops : List (Op α)) :
    WFT key (applyOps key degree ops) ∧
    (applyOps key degree ops).toListT = opsList key ops [] ∧
    (applyOps key degree ops).degree = degree := by
  have h0 : WFT key (⟨degree, 0, none⟩ : BTree α) := ⟨hd, rfl⟩
  exact foldl_ops_main key ops _ h0

end Btree

namespace Btree
variable {α κ : Type} [LinearOrder κ] [Inhabited α] (key : α → κ)

theorem WFT_length (t : BTree α) (hw : WFT key t) :
    t.length = ((t.toListT).length : Int) := by
  obtain ⟨-, hroot⟩ := hw
  cases hr : t.root with
  | none =>
    rw [hr] at hroot
    simp only [BTree.toListT, hr, List.length_nil, Int.ofNat_zero]
    exact hroot
  | some rt =>
    rw [hr] at hroot
    obtain ⟨hh, -, hlen⟩ := hroot
    simp only [BTree.toListT, hr]
    exact hlen

/-- C1: after `New(degree)` with `degree ≥ 2` followed by any sequence of
`Insert`/`Delete` calls, the tree is well-formed: the root is `none`
exactly for the empty tree, and `WFB` holds below the root, which states
the node invariants — every non-root node has between `maxI/2 = degree-1`
and `maxI = 2*degree-1` items, every internal node has `|children| =
|items|+1` children, all leaves sit at the same height (the `Nat` index of
`WFB`), and the keys of the in-order flattening are strictly increasing
(equivalently: each node's items strictly increase and each child's keys
lie strictly between the adjacent parent separators).  Parent pointers are
modelled parent-side, so "each child's parent names its true parent" is
by construction. -/
theorem C1_invariants_preserved (degree : Int) (hd : 2 ≤ degree)
    (ops : List (Op α)) :
    WFT key (applyOps key degree ops) :=
  (applyOps_main key degree hd ops).1

theorem C1_witness :
    2 ≤ (2 : Int) ∧
    WFT (fun z : Int => z)
      (applyOps (fun z : Int => z) 2 [Op.ins 5, Op.ins 7, Op.del 5]) :=
  ⟨by norm_num, C1_invariants_preserved (fun z : Int => z) 2 (by norm_num)
    [Op.ins 5, Op.ins 7, Op.del 5]⟩

/-- C4: after `New` and any sequence of public operations, `length` equals
the number of stored items (the length of the in-order flattening from the
root); `Insert` increments `length` exactly when the key was absent,
`Delete` decrements it exactly when the key was present, `Clear` resets it
to 0, and `New` starts it at 0. -/
theorem C4_length_accounting (degree : Int) (hd : 2 ≤ degree)
    (ops : List (Op α)) (x : α) :
    (applyOps key degree ops).length =
      (((applyOps key degree ops).toListT).length : Int) ∧
    ((applyOps key degree ops).Insert key x).length =
      (if key x ∈ ((applyOps key degree ops).toListT).map key
       then (applyOps key degree ops).length
       else (applyOps key degree ops).length + 1) ∧
    ((applyOps key degree ops).Delete key x).length =
      (if key x ∈ ((applyOps key degree ops).toListT).map key
       then (applyOps key degree ops).length - 1
       else (applyOps key degree ops).length) ∧
    ((applyOps key degree ops).Clear).length = 0 ∧
    (∀ (d2 : Int) (t0 : BTree α), NewT d2 = some t0 → t0.length = 0) := by
  obtain ⟨hw, -, -⟩ := applyOps_main key degree hd ops
  refine ⟨WFT_length key _ hw, ?_, ?_, rfl, ?_⟩
  · obtain ⟨hwI, hcI, -⟩ := Insert_main key _ hw x
    rw [WFT_length key _ hwI, hcI, WFT_length key _ hw]
    by_cases hm : key x ∈ ((applyOps key degree ops).toListT).map key
    · rw [if_pos hm,
        insKeyList_length_mem key x _ (toListT_sorted key _ hw) hm]
    · rw [if_neg hm, insKeyList_length_not_mem key x _ hm]
      push_cast
      ring
  · obtain ⟨hwD, hcD, -⟩ := Delete_main key _ hw x
    rw [WFT_length key _ hwD, hcD, WFT_length key _ hw]
    by_cases hm : key x ∈ ((applyOps key degree ops).toListT).map key
    · rw [if_pos hm]
      have := delKeyList_length_mem key x _ hm
      omega
    · rw [if_neg hm, delKeyList_not_mem key x _ hm]
  · intro d2 t0 h0
    unfold NewT at h0
    split at h0
    · simp at h0
    · rw [Option.some_inj] at h0
      subst h0
      rfl

theorem C4_witness :
    2 ≤ (2 : Int) ∧
    ((applyOps (fun z : Int => z) 2 [Op.ins 5]).Insert (fun z : Int => z)
        9).length =
      (if (9 : Int) ∈ ((applyOps (fun z : Int => z) 2
            [Op.ins 5]).toListT).map (fun z : Int => z)
       then (applyOps (fun z : Int => z) 2 [Op.ins 5]).length
       else (applyOps (fun z : Int => z) 2 [Op.ins 5]).length + 1) :=
  ⟨by norm_num,
    (C4_length_accounting (fun z : Int => z) 2 (by norm_num) [Op.ins 5]
      9).2.1⟩

end Btree

namespace Btree
variable {α κ : Type} [LinearOrder κ] [Inhabited α] (key : α → κ)

theorem nodeSearch_found_eq {its : List α} {chs : List (BTNode α)} {x : α}
    {i : Nat} (hsearch : itemsSearch key its x = (i, true)) :
    nodeSearch key (.mk its chs) x = some (its.getD i x) := by
  rw [nodeSearch]
  simp only [hsearch]
  simp

theorem nodeSearch_notfound_eq {its : List α} {chs : List (BTNode α)} {x : α}
    {i : Nat} (hsearch : itemsSearch key its x = (i, false)) :
    nodeSearch key (.mk its chs) x =
      if h : i < chs.length then nodeSearch key (chs[i]) x else none := by
  rw [nodeSearch]
  simp only [hsearch]
  simp

/-- Correctness of `Node.search` (btree.go:922-932) on a well-formed node:
it returns an item of the subtree with the searched key when the key is
present, and `none` when it is absent. -/
theorem nodeSearch_main {maxI hh : Nat} {r : Bool} {n : BTNode α}
    (hw : WFB key maxI hh r n) (x : α) :
    (key x ∈ (n.toList).map key →
      ∃ y, nodeSearch key n x = some y ∧ y ∈ n.toList ∧ key y = key x) ∧
    (key x ∉ (n.toList).map key → nodeSearch key n x = none) := by
  induction hw with
  | leaf its isRoot hb1 hb2 hb3 hb4 =>
    have hsits : ItemsSorted key its := (pairwise_keys_iff key its).mp hb4
    rcases hse : itemsSearch key its x with ⟨i, existed⟩
    cases existed with
    | true =>
      have hmem : key x ∈ its.map key :=
        (itemsSearch_found_iff key x its hsits).mp (by rw [hse])
      have hspec := itemsSearch_found_spec key x its hsits (by rw [hse])
      rw [hse] at hspec
      obtain ⟨hlt, hkeq, -, -⟩ := hspec
      refine ⟨fun _ => ?_, fun hnm => absurd ?_ hnm⟩
      · refine ⟨its.getD i x, nodeSearch_found_eq key hse, ?_, ?_⟩
        · simp only [toList_mk, inorderAux_nil]
          rw [List.getD_eq_getElem its x hlt]
          exact List.getElem_mem _
        · rw [List.getD_eq_getElem its x hlt]
          exact hkeq
      · simp only [toList_mk, inorderAux_nil]
        exact hmem
    | false =>
      have hnm : key x ∉ its.map key := by
        intro hc
        have := (itemsSearch_found_iff key x its hsits).mpr hc
        rw [hse] at this
        simp at this
      refine ⟨fun hm => ?_, fun _ => ?_⟩
      · simp only [toList_mk, inorderAux_nil] at hm
        exact absurd hm hnm
      · rw [nodeSearch_notfound_eq key hse]
        simp
  | internal its chs h isRoot h1 hr1 hr2 hlen hch hpair ih =>
    have hsortflat : (keys key (inorderAux chs its)).Pairwise (· < ·) := by
      rwa [toList_mk] at hpair
    have hsits : ItemsSorted key its := by
      rw [← pairwise_keys_iff]
      exact List.Pairwise.sublist ((sublist_inorderAux chs its).map key)
        hsortflat
    rcases hse : itemsSearch key its x with ⟨i, existed⟩
    cases existed with
    | true =>
      have hmem : key x ∈ its.map key :=
        (itemsSearch_found_iff key x its hsits).mp (by rw [hse])
      have hspec := itemsSearch_found_spec key x its hsits (by rw [hse])
      rw [hse] at hspec
      obtain ⟨hlt, hkeq, -, -⟩ := hspec
      refine ⟨fun _ => ?_, fun hnm => absurd ?_ hnm⟩
      · refine ⟨its.getD i x, nodeSearch_found_eq key hse, ?_, ?_⟩
        · simp only [toList_mk]
          rw [List.getD_eq_getElem its x hlt]
          exact (sublist_inorderAux chs its).subset (List.getElem_mem _)
        · rw [List.getD_eq_getElem its x hlt]
          exact hkeq
      · simp only [toList_mk]
        exact ((sublist_inorderAux chs its).map key).subset hmem
    | false =>
      obtain ⟨hi, P, SUFF, -, hdec, -, -, hPb, hSb, -, -, -, -⟩ :=
        localize_nf key x h1 hsortflat hse
      rw [nodeSearch_notfound_eq key hse]
      rw [dif_pos hi]
      have hmiff : key x ∈ ((chs[i]).toList).map key ↔
          key x ∈ ((BTNode.toList (.mk its chs))).map key := by
        rw [toList_mk, hdec]
        exact (mem_flat_iff key x hPb hSb).symm
      obtain ⟨ihm, ihn⟩ := ih (chs[i]) (List.getElem_mem _)
      refine ⟨fun hm => ?_, fun hnm => ?_⟩
      · obtain ⟨y, hy1, hy2, hy3⟩ := ihm (hmiff.mpr (by
          rw [toList_mk] at hm ⊢
          exact hm))
        refine ⟨y, hy1, ?_, hy3⟩
        rw [toList_mk, hdec]
        exact List.mem_append_left SUFF (List.mem_append_right P hy2)
      · apply ihn
        intro hc
        exact hnm (hmiff.mp hc)

end Btree

namespace Btree
variable {α κ : Type} [LinearOrder κ] [Inhabited α] (key : α → κ)

/-- C3: after any sequence of `Insert`/`Delete` from `New(degree)`,
`Search(x)` returns an item whose key equals `x`'s (the derived equality
`!Less(a,b) && !Less(b,a)` is equality of the projected keys) whenever the
key is stored (inserted and not subsequently deleted), returns `none`
whenever it is absent, and returns `none` on the empty tree. -/
theorem C3_search_correct (degree : Int) (hd : 2 ≤ degree)
    (ops : List (Op α)) (x : α) :
    (key x ∈ (((applyOps key degree ops).toListT)).map key →
      ∃ y, (applyOps key degree ops).Search key x = some y ∧
        key y = key x ∧ y ∈ (applyOps key degree ops).toListT) ∧
    (key x ∉ (((applyOps key degree ops).toListT)).map key →
      (applyOps key degree ops).Search key x = none) ∧
    ((⟨degree, 0, none⟩ : BTree α).Search key x = none) := by
  obtain ⟨hw, -, -⟩ := applyOps_main key degree hd ops
  obtain ⟨-, hroot⟩ := hw
  cases hr : (applyOps key degree ops).root with
  | none =>
    refine ⟨?_, ?_, rfl⟩
    · intro hm
      simp only [BTree.toListT, hr] at hm
      simp at hm
    · intro hnm
      simp [BTree.Search, hr]
  | some rt =>
    rw [hr] at hroot
    obtain ⟨hh, hwb, -⟩ := hroot
    obtain ⟨hfound, habsent⟩ := nodeSearch_main key hwb x
    refine ⟨?_, ?_, rfl⟩
    · intro hm
      simp only [BTree.toListT, hr] at hm ⊢
      obtain ⟨y, hy1, hy2, hy3⟩ := hfound hm
      refine ⟨y, ?_, hy3, hy2⟩
      simp only [BTree.Search, hr]
      exact hy1
    · intro hnm
      simp only [BTree.toListT, hr] at hnm
      simp only [BTree.Search, hr]
      exact habsent hnm

theorem C3_witness :
    2 ≤ (2 : Int) ∧
    ((⟨2, 0, none⟩ : BTree Int).Search (fun z : Int => z) 5 = none) :=
  ⟨by norm_num,
    (C3_search_correct (fun z : Int => z) 2 (by norm_num) [] 5).2.2⟩

end Btree

namespace Btree
variable {α κ : Type} [LinearOrder κ] [Inhabited α] (key : α → κ)

theorem nodeDelete_absent {maxI hh : Nat} {r : Bool} {n : BTNode α}
    (hw : WFB key maxI hh r n) (x : α)
    (hab : key x ∉ (n.toList).map key) :
    nodeDelete key maxI n x (!r) = ⟨n, some n, false, none⟩ := by
  induction hw with
  | leaf its isRoot hb1 hb2 hb3 hb4 =>
    have hsits : ItemsSorted key its := (pairwise_keys_iff key its).mp hb4
    rcases hse : itemsSearch key its x with ⟨i, existed⟩
    cases existed with
    | true =>
      have hmem : key x ∈ its.map key :=
        (itemsSearch_found_iff key x its hsits).mp (by rw [hse])
      simp only [toList_mk, inorderAux_nil] at hab
      exact absurd hmem hab
    | false => exact nodeDelete_leaf_notfound_eq key hse
  | internal its chs h isRoot h1 hr1 hr2 hlen hch hpair ih =>
    have hsortflat : (keys key (inorderAux chs its)).Pairwise (· < ·) := by
      rwa [toList_mk] at hpair
    have hsits : ItemsSorted key its := by
      rw [← pairwise_keys_iff]
      exact List.Pairwise.sublist ((sublist_inorderAux chs its).map key)
        hsortflat
    rcases hse : itemsSearch key its x with ⟨i, existed⟩
    cases existed with
    | true =>
      have hmem : key x ∈ its.map key :=
        (itemsSearch_found_iff key x its hsits).mp (by rw [hse])
      rw [toList_mk] at hab
      exact absurd (((sublist_inorderAux chs its).map key).subset hmem) hab
    | false =>
      obtain ⟨hi, P, SUFF, -, hdec, -, -, hPb, hSb, -, -, -, -⟩ :=
        localize_nf key x h1 hsortflat hse
      have habc : key x ∉ ((chs[i]).toList).map key := by
        intro hc
        apply hab
        rw [toList_mk, hdec]
        exact (mem_flat_iff key x hPb hSb).mpr hc
      have ihc := ih (chs[i]) (List.getElem_mem _) habc
      simp only [Bool.not_false] at ihc
      rw [nodeDelete_notfound_internal_eq key hse hi]
      dsimp only
      rw [ihc]
      dsimp only
      rw [set_getElem_self_eq chs i hi]
      cases isRoot with
      | false =>
        simp only [Bool.not_false, if_true]
        have hnr : ¬ ((BTNode.mk its chs).items.length < maxI / 2) := by
          simp only [BTNode.items_mk]
          have := hr2 rfl
          omega
        rw [if_neg hnr]
      | true =>
        simp only [Bool.not_true, if_false]
        have hnc : ¬ ((BTNode.mk its chs).items.length = 0 ∧
            (BTNode.mk its chs).children.length > 0) := by
          intro hc
          have h2 := hr1 rfl
          simp only [BTNode.items_mk] at hc
          omega
        rw [if_neg hnc]
        rfl

/-- C8: deleting an item whose key is absent from a well-formed tree is a
complete no-op — the tree (root node structure, all items, all children,
`length`, `degree`) is returned unchanged — and the deletion reports "not
found" (`Node.delete`'s boolean result is false, so `Tree.Delete` does not
touch `length`). -/
theorem C8_delete_absent_noop (t : BTree α) (hw : WFT key t) (x : α)
    (hab : key x ∉ (t.toListT).map key) :
    BTree.Delete key t x = t ∧
    (∀ rt, t.root = some rt →
      (nodeDelete key t.maxI rt x false).ok = false) := by
  obtain ⟨-, hroot⟩ := hw
  rcases t with ⟨d, l, r0⟩
  cases r0 with
  | none => exact ⟨rfl, fun rt hrt => by simp at hrt⟩
  | some rt =>
    obtain ⟨hh, hwb, -⟩ := hroot
    have habs : key x ∉ (rt.toList).map key := by
      simpa only [BTree.toListT] using hab
    have hnd := nodeDelete_absent key hwb x habs
    simp only [Bool.not_true] at hnd
    constructor
    · show BTree.Delete key ⟨d, l, some rt⟩ x = ⟨d, l, some rt⟩
      simp only [BTree.Delete, hnd]
      rfl
    · intro rt2 hrt2
      simp only [Option.some_inj] at hrt2
      subst hrt2
      rw [hnd]

theorem C8_witness :
    WFT (fun z : Int => z) (⟨2, 0, none⟩ : BTree Int) ∧
    ((9 : Int) ∉ (((⟨2, 0, none⟩ : BTree Int).toListT)).map
      (fun z : Int => z)) ∧
    BTree.Delete (fun z : Int => z) (⟨2, 0, none⟩ : BTree Int) 9 =
      (⟨2, 0, none⟩ : BTree Int) := by
  have hw : WFT (fun z : Int => z) (⟨2, 0, none⟩ : BTree Int) :=
    ⟨by norm_num, rfl⟩
  refine ⟨hw, by decide, ?_⟩
  exact (C8_delete_absent_noop (fun z : Int => z) ⟨2, 0, none⟩ hw 9
    (by decide)).1

end Btree

namespace Btree
variable {α : Type}

mutual

/-- The shape of a node: the node skeleton with every item erased. -/
def shape : BTNode α → BTNode Unit
  | .mk its chs => .mk (its.map fun _ => ()) (shapeL chs)
termination_by n => sizeOf n
decreasing_by
  simp [BTNode.mk.sizeOf_spec] <;> omega

/-- The shapes of a list of nodes. -/
def shapeL : List (BTNode α) → List (BTNode Unit)
  | [] => []
  | c :: cs => shape c :: shapeL cs
termination_by l => sizeOf l
decreasing_by
  all_goals simp
  all_goals omega

end

/-- The shape of a whole tree. -/
def treeShape (t : BTree α) : Option (BTNode Unit) := t.root.map shape

theorem shape_mk (its : List α) (chs : List (BTNode α)) :
    shape (.mk its chs) = .mk (its.map fun _ => ()) (shapeL chs) := by
  rw [shape]

theorem shapeL_eq_map (l : List (BTNode α)) : shapeL l = l.map shape := by
  induction l with
  | nil =>
    rw [shapeL]
    simp
  | cons c cs ih =>
    rw [shapeL, ih]
    simp

theorem set_unit (u : List Unit) (i : Nat) : u.set i () = u := by
  induction u generalizing i with
  | nil => simp
  | cons a t ih =>
    cases a
    cases i with
    | zero => rfl
    | succ j =>
      simp only [List.set_cons_succ]
      rw [ih]

theorem map_unit_set (l : List α) (i : Nat) (a : α) :
    ((l.set i a).map fun _ => ()) = l.map fun _ => () := by
  rw [List.map_set]
  exact set_unit _ _

theorem shapeL_set (l : List (BTNode α)) (i : Nat) (c : BTNode α) :
    shapeL (l.set i c) = (shapeL l).set i (shape c) := by
  rw [shapeL_eq_map, shapeL_eq_map, List.map_set]

theorem shapeL_set_self (l : List (BTNode α)) (i : Nat) (hi : i < l.length)
    (c : BTNode α) (hc : shape c = shape (l[i])) :
    shapeL (l.set i c) = shapeL l := by
  rw [shapeL_set, hc, shapeL_eq_map]
  have hb : i < (l.map shape).length := by simpa using hi
  rw [show shape (l[i]) = (l.map shape).get ⟨i, hb⟩ by simp]
  simp only [List.get_eq_getElem]
  exact set_getElem_self_eq _ _ hb

end Btree

namespace Btree
variable {α κ : Type} [LinearOrder κ] [Inhabited α] (key : α → κ)

theorem insKeyList_keys_mem (x : α) (s : List α) (hs : ItemsSorted key s)
    (hm : key x ∈ s.map key) :
    (insKeyList key x s).map key = s.map key := by
  have hf := (itemsSearch_found_iff key x s hs).mpr hm
  obtain ⟨hlt, heq, -, -⟩ := itemsSearch_found_spec key x s hs hf
  rw [insKeyList_eq_set key x s hs hf, List.map_set, ← heq]
  have hb : (itemsSearch key s x).1 < (s.map key).length := by simpa using hlt
  rw [show key (s[(itemsSearch key s x).1]) = (s.map key).get
    ⟨(itemsSearch key s x).1, hb⟩ by simp]
  simp only [List.get_eq_getElem]
  exact set_getElem_self_eq _ _ hb

theorem insKeyList_replace_decomp (x : α) (s : List α)
    (hs : ItemsSorted key s) (hm : key x ∈ s.map key) :
    ∃ l1 y l2, s = l1 ++ y :: l2 ∧ key y = key x ∧
      insKeyList key x s = l1 ++ x :: l2 := by
  have hf := (itemsSearch_found_iff key x s hs).mpr hm
  obtain ⟨hlt, heq, -, -⟩ := itemsSearch_found_spec key x s hs hf
  refine ⟨s.take (itemsSearch key s x).1, s[(itemsSearch key s x).1],
    s.drop ((itemsSearch key s x).1 + 1), split_at_idx s _ hlt, heq, ?_⟩
  rw [insKeyList_eq_set key x s hs hf,
    List.set_eq_take_append_cons_drop, if_pos hlt]

theorem nodeInsert_mem_shape {maxI hh : Nat} {r : Bool} {n : BTNode α}
    (hw : WFB key maxI hh r n) (x : α)
    (hmem : key x ∈ (n.toList).map key) :
    (nodeInsert key maxI n x).promo = none ∧
    shape (nodeInsert key maxI n x).self = shape n := by
  induction hw with
  | leaf its isRoot hb1 hb2 hb3 hb4 =>
    have hsits : ItemsSorted key its := (pairwise_keys_iff key its).mp hb4
    simp only [toList_mk, inorderAux_nil] at hmem
    have hf := (itemsSearch_found_iff key x its hsits).mpr hmem
    rcases hse : itemsSearch key its x with ⟨i, existed⟩
    rw [hse] at hf
    simp only at hf
    subst hf
    rw [nodeInsert_found_eq key hse]
    refine ⟨rfl, ?_⟩
    rw [shape_mk, shape_mk, map_unit_set]
  | internal its chs h isRoot h1 hr1 hr2 hlen hch hpair ih =>
    have hsortflat : (keys key (inorderAux chs its)).Pairwise (· < ·) := by
      rwa [toList_mk] at hpair
    have hsits : ItemsSorted key its := by
      rw [← pairwise_keys_iff]
      exact List.Pairwise.sublist ((sublist_inorderAux chs its).map key)
        hsortflat
    rcases hse : itemsSearch key its x with ⟨i, existed⟩
    cases existed with
    | true =>
      rw [nodeInsert_found_eq key hse]
      refine ⟨rfl, ?_⟩
      rw [shape_mk, shape_mk, map_unit_set]
    | false =>
      obtain ⟨hi, P, SUFF, -, hdec, -, -, hPb, hSb, -, -, -, -⟩ :=
        localize_nf key x h1 hsortflat hse
      have hchs : ¬ chs.isEmpty := by
        intro hc
        rw [List.isEmpty_iff] at hc
        rw [hc] at h1
        simp at h1
      have hmemc : key x ∈ ((chs[i]).toList).map key := by
        rw [toList_mk, hdec] at hmem
        exact (mem_flat_iff key x hPb hSb).mp hmem
      obtain ⟨ihp, ihs⟩ := ih (chs[i]) (List.getElem_mem _) hmemc
      rw [nodeInsert_internal_none_eq key hse hchs hi ihp]
      refine ⟨rfl, ?_⟩
      rw [shape_mk, shape_mk]
      rw [shapeL_set_self chs i hi _ ihs]

end Btree

namespace Btree
variable {α κ : Type} [LinearOrder κ] [Inhabited α] (key : α → κ)

/-- C7: inserting an item whose key is already present (under the derived
equality) leaves `length` unchanged, replaces the stored item with the new
value in place (the content splits as `l1 ++ y :: l2` with `key y = key x`
and becomes `l1 ++ x :: l2`), and leaves the tree's key multiset and node
shape unchanged. -/
theorem C7_duplicate_insert (t : BTree α) (hw : WFT key t) (x : α)
    (hmem : key x ∈ (t.toListT).map key) :
    (BTree.Insert key t x).length = t.length ∧
    (BTree.Insert key t x).toListT = insKeyList key x t.toListT ∧
    ((BTree.Insert key t x).toListT).map key = (t.toListT).map key ∧
    treeShape (BTree.Insert key t x) = treeShape t ∧
    (∃ l1 y l2, t.toListT = l1 ++ y :: l2 ∧ key y = key x ∧
      (BTree.Insert key t x).toListT = l1 ++ x :: l2) := by
  have hsorted := toListT_sorted key t hw
  obtain ⟨hwI, hcI, -⟩ := Insert_main key t hw x
  refine ⟨?_, hcI, ?_, ?_, ?_⟩
  · rw [WFT_length key _ hwI, WFT_length key _ hw, hcI,
      insKeyList_length_mem key x _ hsorted hmem]
  · rw [hcI]
    exact insKeyList_keys_mem key x _ hsorted hmem
  · obtain ⟨-, hroot⟩ := hw
    cases hr : t.root with
    | none =>
      exfalso
      simp only [BTree.toListT, hr] at hmem
      simp at hmem
    | some rt =>
      rw [hr] at hroot
      obtain ⟨hh, hwb, -⟩ := hroot
      have hmem2 : key x ∈ (rt.toList).map key := by
        simpa only [BTree.toListT, hr] using hmem
      obtain ⟨hp, hs⟩ := nodeInsert_mem_shape key hwb x hmem2
      simp only [BTree.Insert, hr, treeShape]
      simp only [hp]
      simp [hs]
  · rw [hcI]
    exact insKeyList_replace_decomp key x _ hsorted hmem

theorem C7_witness :
    WFT (fun z : Int => z) (⟨2, 1, some (.mk [(5 : Int)] [])⟩ : BTree Int) ∧
    ((5 : Int) ∈
      (((⟨2, 1, some (.mk [(5 : Int)] [])⟩ : BTree Int).toListT)).map
        (fun z : Int => z)) ∧
    (BTree.Insert (fun z : Int => z)
        (⟨2, 1, some (.mk [(5 : Int)] [])⟩ : BTree Int) 5).length =
      (⟨2, 1, some (.mk [(5 : Int)] [])⟩ : BTree Int).length := by
  have hw : WFT (fun z : Int => z)
      (⟨2, 1, some (.mk [(5 : Int)] [])⟩ : BTree Int) := by
    refine ⟨by norm_num, 0, ?_, by simp [BTree.toListT, toList_mk]⟩
    exact WFB.leaf _ _ (fun _ => by norm_num)
      (fun hc => by simp at hc) (by simp [BTree.maxI]) (by simp [keys])
  have hm : (5 : Int) ∈
      (((⟨2, 1, some (.mk [(5 : Int)] [])⟩ : BTree Int).toListT)).map
        (fun z : Int => z) := by
    simp [BTree.toListT, toList_mk]
  exact ⟨hw, hm,
    (C7_duplicate_insert (fun z : Int => z) _ hw 5 hm).1⟩

end Btree

namespace Btree
variable {α κ : Type} [LinearOrder κ] [Inhabited α] (key : α → κ)

theorem nodeAt?_snoc (rt : BTNode α) (p : List Nat) (j : Nat) :
    nodeAt? rt (p ++ [j]) =
      (nodeAt? rt p).bind (fun n => n.children[j]?) := by
  induction p generalizing rt with
  | nil =>
    simp only [List.nil_append, nodeAt?, Option.bind_eq_bind,
      Option.some_bind]
    cases h : rt.children[j]? <;> simp [nodeAt?]
  | cons a q ih =>
    simp only [List.cons_append, nodeAt?]
    cases h : rt.children[a]? with
    | none => simp
    | some c => simpa using ih c

theorem getN_of_nodeAt? {rt n : BTNode α} {p : List Nat}
    (h : nodeAt? rt p = some n) : Loc.getN (⟨rt, p⟩ : Loc α) = n := by
  simp [Loc.getN, h]

theorem locParent_snoc (rt : BTNode α) (p : List Nat) (j : Nat) :
    locParent (⟨rt, p ++ [j]⟩ : Loc α) = some ⟨rt, p⟩ := by
  simp [locParent]

theorem nodeAt?_child {rt n : BTNode α} {p : List Nat}
    (hat : nodeAt? rt p = some n) {j : Nat} (hj : j < n.children.length) :
    nodeAt? rt (p ++ [j]) = some (n.children[j]) := by
  rw [nodeAt?_snoc, hat]
  simp [List.getElem?_eq_getElem hj]

theorem child_keys_between {its : List α} {chs : List (BTNode α)}
    (harity : chs.length = its.length + 1)
    (hsort : (keys key (inorderAux chs its)).Pairwise (· < ·))
    {j : Nat} (hj : j < chs.length) {a : α} (ha : a ∈ (chs[j]).toList) :
    (∀ k, (hk : k < its.length) → k < j → key its[k] < key a) ∧
    (∀ k, (hk : k < its.length) → j ≤ k → key a < key its[k]) := by
  obtain ⟨P, SUFF, hdec, -, -, hP, hSUFF⟩ :=
    inorder_set_decomp its chs harity j hj
  have hKsplit : keys key (inorderAux chs its) =
      (keys key P ++ keys key ((chs[j]).toList)) ++ keys key SUFF := by
    rw [hdec]
    simp [keys]
  have hKpair := hKsplit ▸ hsort
  constructor
  · intro k hk hkj
    have h1 : its[k] ∈ its.take j :=
      List.mem_take_iff_getElem.mpr ⟨k, by omega, rfl⟩
    have h2 : its[k] ∈ P := by
      rw [hP]
      exact (sublist_inorderAux (chs.take j) (its.take j)).subset h1
    exact (List.pairwise_append.mp (List.pairwise_append.mp hKpair).1).2.2
      (key (its[k])) (List.mem_map_of_mem key h2) (key a)
      (List.mem_map_of_mem key ha)
  · intro k hk hjk
    have hjlt : j < its.length := by omega
    have h2 : its[k] ∈ SUFF := by
      rw [hSUFF.1 hjlt]
      rcases Nat.eq_or_lt_of_le hjk with heq | hlt2
    -- k = j: the head; j < k: inside the dropped tail
      · subst heq
        exact List.mem_cons_self _ _
      · have h3 : its[k] ∈ its.drop (j + 1) :=
          List.mem_iff_getElem.mpr ⟨k - (j + 1), by
            simp only [List.length_drop]
            omega, by
            rw [List.getElem_drop]
            congr 1
            omega⟩
        exact List.mem_cons_of_mem _
          ((sublist_inorderAux (chs.drop (j + 1))
            (its.drop (j + 1))).subset h3)
    exact (List.pairwise_append.mp hKpair).2.2 (key a)
      (List.mem_append_right _ (List.mem_map_of_mem key ha))
      (key (its[k])) (List.mem_map_of_mem key h2)

theorem items_headD_mem_toList {n : BTNode α} (hne : n.items ≠ []) :
    n.items.getD 0 default ∈ n.toList := by
  rcases n with ⟨its, chs⟩
  simp only [BTNode.items_mk] at hne ⊢
  rw [toList_mk]
  apply (sublist_inorderAux chs its).subset
  rw [getD_zero_eq_headD]
  cases its with
  | nil => exact absurd rfl hne
  | cons a t => exact List.mem_cons_self _ _

theorem parentIndexF_snoc {maxI hh : Nat} {r : Bool} {rt : BTNode α}
    {its : List α} {chs : List (BTNode α)} {p : List Nat}
    (hmax : 3 ≤ maxI)
    (hw : WFB key maxI (hh + 1) r (.mk its chs))
    (hat : nodeAt? rt p = some (.mk its chs))
    {j : Nat} (hj : j < chs.length) :
    parentIndexF key (⟨rt, p ++ [j]⟩ : Loc α) = (j : Int) := by
  obtain ⟨h1, hch⟩ := WFB_internal_inv key hw
  have hsort : (keys key (inorderAux chs its)).Pairwise (· < ·) := by
    have := WFB_toList_sorted key hw
    rwa [toList_mk] at this
  have hsits : ItemsSorted key its := WFB_items_sorted key hw
  have hwc := hch _ (List.getElem_mem hj)
  have hcne : (chs[j]).items ≠ [] := by
    rcases hcj : chs[j] with ⟨cits, cchs⟩
    rw [hcj] at hwc
    simp only [BTNode.items_mk]
    exact WFB_items_ne_nil key (by omega) hwc
  have hx0mem : ((chs[j]).items).getD 0 default ∈ (chs[j]).toList :=
    items_headD_mem_toList hcne
  obtain ⟨hlow, hhigh⟩ := child_keys_between key h1 hsort hj hx0mem
  have hse : itemsSearch key its (((chs[j]).items).getD 0 default) =
      (j, false) :=
    itemsSearch_eq_not_found key _ its hsits j (by omega)
      (fun k hk hkj => hlow k hk hkj) (fun k hk hjk => hhigh k hk hjk)
  simp only [parentIndexF, locParent_snoc]
  rw [getN_of_nodeAt? hat, getN_of_nodeAt? (nodeAt?_child hat (by
    simp only [BTNode.children_mk]
    exact hj))]
  simp only [BTNode.items_mk, BTNode.children_mk]
  rw [hse]
  rw [if_pos (by simpa using hj)]

end Btree

namespace Btree
variable {α κ : Type} [LinearOrder κ] [Inhabited α] (key : α → κ)

/-- The climb-and-repackage phase of `Iterator.Next` (btree.go:1242-1251),
as a function of the location whose subtree has just been exhausted, for
iterator states whose cached `parentIndex` is accurate. -/
def exitCont (l : Loc α) : Option (Iter α) :=
  let pp := nextLoop key (locParent l) (parentIndexF key l)
  if pp.2 > -1 then
    match pp.1 with
    | some pl =>
      if pp.2 < (pl.getN.items.length : Int) then resetF key pl pp.2
      else none
    | none => none
  else none

/-- The climb-and-repackage phase of `Iterator.Last` (btree.go:1214-1223),
symmetrically. -/
def exitContL (l : Loc α) : Option (Iter α) :=
  let pp := lastLoop key (locParent l) (parentIndexF key l)
  if pp.2 > 0 then
    match pp.1 with
    | some pl => resetF key pl (pp.2 - 1)
    | none => none
  else none

/-- The items an iterator visits under repeated `Next`, with fuel. -/
def ascFrom : Option (Iter α) → Nat → List α
  | _, 0 => []
  | none, _ + 1 => []
  | some it, fuel + 1 =>
    ItemM (some it) :: ascFrom (NextM key (some it)) fuel

/-- The items an iterator visits under repeated `Last`, with fuel. -/
def descFrom : Option (Iter α) → Nat → List α
  | _, 0 => []
  | none, _ + 1 => []
  | some it, fuel + 1 =>
    ItemM (some it) :: descFrom (LastM key (some it)) fuel

theorem ascFrom_none (fuel : Nat) : ascFrom key none fuel = [] := by
  cases fuel <;> rfl

theorem ascFrom_succ (it : Iter α) (fuel : Nat) :
    ascFrom key (some it) (fuel + 1) =
      ItemM (some it) :: ascFrom key (NextM key (some it)) fuel := rfl

theorem descFrom_none (fuel : Nat) : descFrom key none fuel = [] := by
  cases fuel <;> rfl

theorem descFrom_succ (it : Iter α) (fuel : Nat) :
    descFrom key (some it) (fuel + 1) =
      ItemM (some it) :: descFrom key (LastM key (some it)) fuel := rfl

theorem ItemM_state (j pi : Int) (l : Loc α) :
    ItemM (some (⟨j, pi, l⟩ : Iter α)) =
      (l.getN.items).getD j.toNat default := rfl

theorem resetF_eq (l : Loc α) (idx : Int) :
    resetF key l idx = some ⟨idx, parentIndexF key l, l⟩ := rfl

theorem NextM_state_eq (j pi : Int) (l : Loc α) :
    NextM key (some ⟨j, pi, l⟩) =
      (if l.getN.children.length > 0 ∧ j < (l.getN.items.length : Int) then
        resetF key ⟨l.root, (l.path ++ [(j + 1).toNat]) ++
          minDescentPath (Loc.getN ⟨l.root, l.path ++ [(j + 1).toNat]⟩)⟩ 0
      else if j < (l.getN.items.length : Int) - 1 then
        some ⟨j + 1, pi, l⟩
      else
        (let pp := nextLoop key (locParent l) pi
         if pp.2 > -1 then
           match pp.1 with
           | some pl =>
             if pp.2 < (pl.getN.items.length : Int) then resetF key pl pp.2
             else none
           | none => none
         else none)) := rfl

theorem LastM_state_eq (j pi : Int) (l : Loc α) :
    LastM key (some ⟨j, pi, l⟩) =
      (if l.getN.children.length > 0 then
        resetF key ⟨l.root, (l.path ++ [j.toNat]) ++
            maxDescentPath (Loc.getN ⟨l.root, l.path ++ [j.toNat]⟩)⟩
          (((Loc.getN ⟨l.root, (l.path ++ [j.toNat]) ++
            maxDescentPath (Loc.getN ⟨l.root, l.path ++ [j.toNat]⟩)⟩
              ).items.length : Int) - 1)
      else if j > 0 then
        some ⟨j - 1, pi, l⟩
      else
        (let pp := lastLoop key (locParent l) pi
         if pp.2 > 0 then
           match pp.1 with
           | some pl => resetF key pl (pp.2 - 1)
           | none => none
         else none)) := rfl

theorem exitCont_nil (rt : BTNode α) :
    exitCont key (⟨rt, []⟩ : Loc α) = none := by
  simp [exitCont, locParent, parentIndexF, nextLoop]

theorem exitContL_nil (rt : BTNode α) :
    exitContL key (⟨rt, []⟩ : Loc α) = none := by
  simp [exitContL, locParent, parentIndexF, lastLoop]

end Btree

namespace Btree
variable {α κ : Type} [LinearOrder κ] [Inhabited α] (key : α → κ)

theorem exitCont_snoc_mid {maxI hh : Nat} {r : Bool} {rt : BTNode α}
    {its : List α} {chs : List (BTNode α)} {p : List Nat}
    (hmax : 3 ≤ maxI) (hw : WFB key maxI (hh + 1) r (.mk its chs))
    (hat : nodeAt? rt p = some (.mk its chs))
    {j : Nat} (hjlt : j < its.length) :
    exitCont key (⟨rt, p ++ [j]⟩ : Loc α) =
      some ⟨(j : Int), parentIndexF key ⟨rt, p⟩, ⟨rt, p⟩⟩ := by
  obtain ⟨h1, -⟩ := WFB_internal_inv key hw
  have hj : j < chs.length := by omega
  have hpi := parentIndexF_snoc key hmax hw hat hj
  unfold exitCont
  rw [locParent_snoc, hpi]
  rw [nextLoop]
  rw [getN_of_nodeAt? hat]
  simp only [BTNode.children_mk]
  rw [if_neg (show ¬ ((j : Int) = (chs.length : Int) - 1) from by
    push_cast
    omega)]
  dsimp only
  rw [if_pos (show ((j : Int) > -1) from by omega)]
  rw [getN_of_nodeAt? hat]
  simp only [BTNode.items_mk]
  rw [if_pos (show ((j : Int) < (its.length : Int)) from by
    push_cast
    omega)]
  rfl

theorem exitCont_snoc_last {maxI hh : Nat} {r : Bool} {rt : BTNode α}
    {its : List α} {chs : List (BTNode α)} {p : List Nat}
    (hmax : 3 ≤ maxI) (hw : WFB key maxI (hh + 1) r (.mk its chs))
    (hat : nodeAt? rt p = some (.mk its chs))
    {j : Nat} (hjeq : j + 1 = chs.length) :
    exitCont key (⟨rt, p ++ [j]⟩ : Loc α) =
      exitCont key (⟨rt, p⟩ : Loc α) := by
  obtain ⟨h1, -⟩ := WFB_internal_inv key hw
  have hj : j < chs.length := by omega
  have hpi := parentIndexF_snoc key hmax hw hat hj
  unfold exitCont
  rw [locParent_snoc, hpi]
  rw [nextLoop]
  rw [getN_of_nodeAt? hat]
  simp only [BTNode.children_mk]
  rw [if_pos (show ((j : Int) = (chs.length : Int) - 1) from by
    push_cast
    omega)]

end Btree

namespace Btree
variable {α κ : Type} [LinearOrder κ] [Inhabited α] (key : α → κ)

theorem NextM_leaf_mid {rt : BTNode α} {its : List α} {p : List Nat}
    (hat : nodeAt? rt p = some (.mk its [])) {j pi : Int}
    (hj : j < (its.length : Int) - 1) :
    NextM key (some ⟨j, pi, ⟨rt, p⟩⟩) = some ⟨j + 1, pi, ⟨rt, p⟩⟩ := by
  rw [NextM_state_eq, getN_of_nodeAt? hat]
  simp only [BTNode.children_mk, BTNode.items_mk, List.length_nil]
  rw [if_neg (show ¬ ((0 : Nat) > 0 ∧ j < (its.length : Int)) from by
    simp)]
  rw [if_pos hj]

theorem NextM_leaf_last {rt : BTNode α} {its : List α} {p : List Nat}
    (hat : nodeAt? rt p = some (.mk its []))
    {j : Int} (hj : ¬ (j < (its.length : Int) - 1)) :
    NextM key (some ⟨j, parentIndexF key ⟨rt, p⟩, ⟨rt, p⟩⟩) =
      exitCont key (⟨rt, p⟩ : Loc α) := by
  rw [NextM_state_eq, getN_of_nodeAt? hat]
  simp only [BTNode.children_mk, BTNode.items_mk, List.length_nil]
  rw [if_neg (show ¬ ((0 : Nat) > 0 ∧ j < (its.length : Int)) from by
    simp)]
  rw [if_neg hj]
  rfl

theorem NextM_internal_descend {rt : BTNode α} {its : List α}
    {chs : List (BTNode α)} {p : List Nat}
    (hat : nodeAt? rt p = some (.mk its chs)) (hchs : 0 < chs.length)
    {j : Nat} {pi : Int} (hj : j < its.length) :
    NextM key (some ⟨(j : Int), pi, ⟨rt, p⟩⟩) =
      resetF key ⟨rt, (p ++ [j + 1]) ++
        minDescentPath (Loc.getN ⟨rt, p ++ [j + 1]⟩)⟩ 0 := by
  rw [NextM_state_eq, getN_of_nodeAt? hat]
  simp only [BTNode.children_mk, BTNode.items_mk]
  rw [if_pos (show chs.length > 0 ∧ (j : Int) < (its.length : Int) from
    ⟨hchs, by push_cast; omega⟩)]
  rw [show ((j : Int) + 1).toNat = j + 1 from by omega]

/-- Walk simulation for `Next`: starting at the minimum position of the
subtree rooted at location `p`, the ascending walk first emits exactly the
subtree's in-order items and then continues from the exit continuation of
`p` (the upward `parentIndex`-guided climb of btree.go:1243-1251). -/
theorem ascWalk_sub {maxI hh : Nat} {r : Bool} {rt : BTNode α}
    {n : BTNode α} (hmax : 3 ≤ maxI) (hw : WFB key maxI hh r n) :
    ∀ (p : List Nat), nodeAt? rt p = some n → ∀ fuel : Nat,
      ascFrom key (resetF key ⟨rt, p ++ minDescentPath n⟩ 0)
          ((n.toList).length + fuel) =
        n.toList ++ ascFrom key (exitCont key (⟨rt, p⟩ : Loc α)) fuel := by
  induction hw with
  | leaf its isRoot hb1 hb2 hb3 hb4 =>
    intro p hat fuel
    have hits1 : 1 ≤ its.length := by
      cases isRoot with
      | true => exact hb1 rfl
      | false =>
        have := hb2 rfl
        omega
    have hstep : ∀ d j, j + d + 1 = its.length →
        ascFrom key (some ⟨(j : Int), parentIndexF key ⟨rt, p⟩, ⟨rt, p⟩⟩)
          ((d + 1) + fuel) =
        its.drop j ++ ascFrom key (exitCont key (⟨rt, p⟩ : Loc α)) fuel := by
      intro d
      induction d with
      | zero =>
        intro j hj
        rw [show (0 + 1) + fuel = fuel + 1 from by omega, ascFrom_succ]
        rw [ItemM_state, getN_of_nodeAt? hat]
        simp only [BTNode.items_mk]
        rw [show ((j : Int)).toNat = j from by omega]
        rw [List.getD_eq_getElem its default (show j < its.length from by
          omega)]
        rw [NextM_leaf_last key hat (show ¬ ((j : Int) <
          (its.length : Int) - 1) from by push_cast; omega)]
        rw [drop_cons_self its j (show j < its.length from by omega)]
        rw [List.drop_of_length_le (show its.length ≤ j + 1 from by omega)]
        rfl
      | succ d ihd =>
        intro j hj
        rw [show ((d + 1) + 1) + fuel = ((d + 1) + fuel) + 1 from by omega,
          ascFrom_succ]
        rw [ItemM_state, getN_of_nodeAt? hat]
        simp only [BTNode.items_mk]
        rw [show ((j : Int)).toNat = j from by omega]
        rw [List.getD_eq_getElem its default (show j < its.length from by
          omega)]
        rw [NextM_leaf_mid key hat (show ((j : Int)) <
          (its.length : Int) - 1 from by push_cast; omega)]
        rw [show ((j : Int) + 1) = (((j + 1 : Nat)) : Int) from by
          push_cast; ring]
        rw [ihd (j + 1) (by omega)]
        rw [drop_cons_self its j (show j < its.length from by omega)]
        rfl
    simp only [minDescentPath, List.append_nil, toList_mk, inorderAux_nil]
    rw [resetF_eq]
    obtain ⟨m, hm⟩ : ∃ m, its.length = m + 1 := ⟨its.length - 1, by omega⟩
    rw [hm, show (m + 1) + fuel = (m + 1) + fuel from rfl]
    have h0 := hstep m 0 (by omega)
    simpa using h0
  | internal its chs h isRoot h1 hr1 hr2 hlen hch hpair ih =>
    intro p hat fuel
    have hwnode : WFB key maxI (h + 1) isRoot (.mk its chs) :=
      WFB.internal its chs h isRoot h1 hr1 hr2 hlen hch hpair
    have hstep : ∀ d j, j + d + 1 = chs.length →
        ascFrom key (resetF key ⟨rt, (p ++ [j]) ++
            minDescentPath (chs.getD j nilNode)⟩ 0)
          ((inorderAux (chs.drop j) (its.drop j)).length + fuel) =
        inorderAux (chs.drop j) (its.drop j) ++
          ascFrom key (exitCont key (⟨rt, p⟩ : Loc α)) fuel := by
      intro d
      induction d with
      | zero =>
        intro j hj
        have hj2 : j < chs.length := by omega
        have hgd : chs.getD j nilNode = chs[j] :=
          List.getD_eq_getElem chs nilNode hj2
        have hcdrop : chs.drop j = [chs[j]] := by
          rw [drop_cons_self chs j hj2,
            List.drop_of_length_le (show chs.length ≤ j + 1 from by omega)]
        have hidrop : its.drop j = [] :=
          List.drop_of_length_le (show its.length ≤ j from by omega)
        rw [hcdrop, hidrop, hgd]
        simp only [inorderAux_cons_nil, inorderAux_nil, List.append_nil]
        have hcat : nodeAt? rt (p ++ [j]) = some (chs[j]) :=
          nodeAt?_child hat (by
            simp only [BTNode.children_mk]
            exact hj2)
        rw [ih (chs[j]) (List.getElem_mem hj2) (p ++ [j]) hcat fuel]
        rw [exitCont_snoc_last key hmax hwnode hat (show j + 1 = chs.length
          from by omega)]
      | succ d ihd =>
        intro j hj
        have hj2 : j < chs.length := by omega
        have hjlt : j < its.length := by omega
        have hgd : chs.getD j nilNode = chs[j] :=
          List.getD_eq_getElem chs nilNode hj2
        have hdecomp : inorderAux (chs.drop j) (its.drop j) =
            (chs[j]).toList ++ its[j] ::
              inorderAux (chs.drop (j + 1)) (its.drop (j + 1)) := by
          rw [drop_cons_self chs j hj2, drop_cons_self its j hjlt,
            inorderAux_cons_cons]
        have hlen2 : (inorderAux (chs.drop j) (its.drop j)).length =
            ((chs[j]).toList).length +
              ((inorderAux (chs.drop (j + 1)) (its.drop (j + 1))).length
                + 1) := by
          rw [hdecomp]
          simp
        have hcat : nodeAt? rt (p ++ [j]) = some (chs[j]) :=
          nodeAt?_child hat (by
            simp only [BTNode.children_mk]
            exact hj2)
        rw [hgd, hlen2]
        rw [show ((chs[j]).toList).length +
            ((inorderAux (chs.drop (j + 1)) (its.drop (j + 1))).length
              + 1) + fuel =
          ((chs[j]).toList).length +
            (((inorderAux (chs.drop (j + 1)) (its.drop (j + 1))).length
              + fuel) + 1) from by omega]
        rw [ih (chs[j]) (List.getElem_mem hj2) (p ++ [j]) hcat
          (((inorderAux (chs.drop (j + 1)) (its.drop (j + 1))).length
            + fuel) + 1)]
        rw [exitCont_snoc_mid key hmax hwnode hat hjlt]
        rw [ascFrom_succ]
        rw [ItemM_state, getN_of_nodeAt? hat]
        simp only [BTNode.items_mk]
        rw [show ((j : Int)).toNat = j from by omega]
        rw [List.getD_eq_getElem its default hjlt]
        rw [NextM_internal_descend key hat (show 0 < chs.length from by
          omega) hjlt]
        have hcb : j + 1 < (BTNode.mk its chs).children.length := by
          simp only [BTNode.children_mk]
          omega
        rw [getN_of_nodeAt? (nodeAt?_child hat hcb)]
        rw [show (BTNode.mk its chs).children[j + 1] =
          chs.getD (j + 1) nilNode from by
            simp only [BTNode.children_mk]
            rw [List.getD_eq_getElem chs nilNode (show j + 1 < chs.length
              from by omega)]]
        rw [ihd (j + 1) (by omega)]
        rw [hdecomp]
        simp
    cases hchs : chs with
    | nil =>
      rw [hchs] at h1
      simp at h1
    | cons c cs =>
      subst hchs
      have h0 := hstep cs.length 0 (by simp)
      simp only [List.drop_zero, List.getD_cons_zero] at h0
      simp only [toList_mk]
      rw [show minDescentPath (BTNode.mk its (c :: cs)) =
        0 :: minDescentPath c from rfl]
      rw [show p ++ (0 :: minDescentPath c) =
        (p ++ [0]) ++ minDescentPath c from by simp]
      exact h0

end Btree

namespace Btree
variable {α κ : Type} [LinearOrder κ] [Inhabited α] (key : α → κ)

theorem inorderAux_prefix_snoc (A : List (BTNode α)) (K : List α)
    (c : BTNode α) (k : α) (h : A.length = K.length + 1) :
    inorderAux (A ++ [c]) (K ++ [k]) = inorderAux A K ++ k :: c.toList := by
  have h2 := inorderAux_append A [c] (K ++ [k]) [] (by
    simp only [List.length_append, List.length_cons, List.length_nil]
    omega)
  rw [List.append_nil] at h2
  rw [h2, inorderAux_snoc_item A K k h]
  simp [inorderAux_cons_nil, inorderAux_nil]

theorem exitContL_snoc_mid {maxI hh : Nat} {r : Bool} {rt : BTNode α}
    {its : List α} {chs : List (BTNode α)} {p : List Nat}
    (hmax : 3 ≤ maxI) (hw : WFB key maxI (hh + 1) r (.mk its chs))
    (hat : nodeAt? rt p = some (.mk its chs))
    {j : Nat} (hj1 : 1 ≤ j) (hj : j < chs.length) :
    exitContL key (⟨rt, p ++ [j]⟩ : Loc α) =
      some ⟨(j : Int) - 1, parentIndexF key ⟨rt, p⟩, ⟨rt, p⟩⟩ := by
  have hpi := parentIndexF_snoc key hmax hw hat hj
  unfold exitContL
  rw [locParent_snoc, hpi]
  rw [lastLoop]
  rw [if_neg (show ¬ ((j : Int) = 0) from by omega)]
  dsimp only
  rw [if_pos (show ((j : Int) > 0) from by omega)]
  rfl

theorem exitContL_snoc_first {maxI hh : Nat} {r : Bool} {rt : BTNode α}
    {its : List α} {chs : List (BTNode α)} {p : List Nat}
    (hmax : 3 ≤ maxI) (hw : WFB key maxI (hh + 1) r (.mk its chs))
    (hat : nodeAt? rt p = some (.mk its chs)) (hchs : 0 < chs.length) :
    exitContL key (⟨rt, p ++ [0]⟩ : Loc α) =
      exitContL key (⟨rt, p⟩ : Loc α) := by
  have hpi := parentIndexF_snoc key hmax hw hat hchs
  unfold exitContL
  rw [locParent_snoc, hpi]
  rw [lastLoop]
  rw [if_pos (show ((0 : Nat) : Int) = 0 from by omega)]

theorem LastM_leaf_mid {rt : BTNode α} {its : List α} {p : List Nat}
    (hat : nodeAt? rt p = some (.mk its [])) {j pi : Int} (hj : j > 0) :
    LastM key (some ⟨j, pi, ⟨rt, p⟩⟩) = some ⟨j - 1, pi, ⟨rt, p⟩⟩ := by
  rw [LastM_state_eq, getN_of_nodeAt? hat]
  simp only [BTNode.children_mk, List.length_nil]
  rw [if_neg (show ¬ ((0 : Nat) > 0) from by omega)]
  rw [if_pos hj]

theorem LastM_leaf_first {rt : BTNode α} {its : List α} {p : List Nat}
    (hat : nodeAt? rt p = some (.mk its [])) {j : Int} (hj : ¬ (j > 0)) :
    LastM key (some ⟨j, parentIndexF key ⟨rt, p⟩, ⟨rt, p⟩⟩) =
      exitContL key (⟨rt, p⟩ : Loc α) := by
  rw [LastM_state_eq, getN_of_nodeAt? hat]
  simp only [BTNode.children_mk, List.length_nil]
  rw [if_neg (show ¬ ((0 : Nat) > 0) from by omega)]
  rw [if_neg hj]
  rfl

theorem LastM_internal_descend {rt : BTNode α} {its : List α}
    {chs : List (BTNode α)} {p : List Nat}
    (hat : nodeAt? rt p = some (.mk its chs)) (hchs : 0 < chs.length)
    {j : Nat} {pi : Int} :
    LastM key (some ⟨(j : Int), pi, ⟨rt, p⟩⟩) =
      resetF key ⟨rt, (p ++ [j]) ++
          maxDescentPath (Loc.getN ⟨rt, p ++ [j]⟩)⟩
        (((Loc.getN ⟨rt, (p ++ [j]) ++
            maxDescentPath (Loc.getN ⟨rt, p ++ [j]⟩)⟩).items.length :
          Int) - 1) := by
  rw [LastM_state_eq, getN_of_nodeAt? hat]
  simp only [BTNode.children_mk]
  rw [if_pos (show chs.length > 0 from hchs)]
  rw [show ((j : Int)).toNat = j from by omega]

end Btree

namespace Btree
variable {α κ : Type} [LinearOrder κ] [Inhabited α] (key : α → κ)

instance : Inhabited (BTNode α) := ⟨nilNode⟩

/-- Walk simulation for `Last`: starting at the maximum position of the
subtree rooted at location `p`, the descending walk first emits exactly
the subtree's in-order items in reverse and then continues from the
`Last` exit continuation of `p` (btree.go:1214-1223). -/
theorem descWalk_sub {maxI hh : Nat} {r : Bool} {rt : BTNode α}
    {n : BTNode α} (hmax : 3 ≤ maxI) (hw : WFB key maxI hh r n) :
    ∀ (p : List Nat), nodeAt? rt p = some n → ∀ fuel : Nat,
      descFrom key (resetF key ⟨rt, p ++ maxDescentPath n⟩
          (((Loc.getN ⟨rt, p ++ maxDescentPath n⟩).items.length : Int) - 1))
          ((n.toList).length + fuel) =
        (n.toList).reverse ++
          descFrom key (exitContL key (⟨rt, p⟩ : Loc α)) fuel := by
  induction hw with
  | leaf its isRoot hb1 hb2 hb3 hb4 =>
    intro p hat fuel
    have hits1 : 1 ≤ its.length := by
      cases isRoot with
      | true => exact hb1 rfl
      | false =>
        have := hb2 rfl
        omega
    have hstep : ∀ j, j + 1 ≤ its.length →
        descFrom key (some ⟨(j : Int), parentIndexF key ⟨rt, p⟩, ⟨rt, p⟩⟩)
          ((j + 1) + fuel) =
        (its.take (j + 1)).reverse ++
          descFrom key (exitContL key (⟨rt, p⟩ : Loc α)) fuel := by
      intro j
      induction j with
      | zero =>
        intro hj
        rw [show (0 + 1) + fuel = fuel + 1 from by omega, descFrom_succ]
        rw [ItemM_state, getN_of_nodeAt? hat]
        simp only [BTNode.items_mk]
        rw [show (((0 : Nat) : Int)).toNat = 0 from by omega]
        rw [List.getD_eq_getElem its default (show 0 < its.length from by
          omega)]
        rw [LastM_leaf_first key hat (show ¬ (((0 : Nat) : Int) > 0) from by
          omega)]
        rw [take_succ_eq its 0 (by omega)]
        simp
      | succ j ihj =>
        intro hj
        rw [show ((j + 1) + 1) + fuel = ((j + 1) + fuel) + 1 from by omega,
          descFrom_succ]
        rw [ItemM_state, getN_of_nodeAt? hat]
        simp only [BTNode.items_mk]
        rw [show (((j + 1 : Nat) : Int)).toNat = j + 1 from by omega]
        rw [List.getD_eq_getElem its default (show j + 1 < its.length from
          by omega)]
        rw [LastM_leaf_mid key hat (show (((j + 1 : Nat) : Int)) > 0 from by
          push_cast
          omega)]
        rw [show (((j + 1 : Nat) : Int)) - 1 = ((j : Nat) : Int) from by
          push_cast
          ring]
        rw [ihj (by omega)]
        rw [take_succ_eq its (j + 1) (by omega), List.reverse_append,
          List.reverse_singleton]
        rfl
    simp only [maxDescentPath, List.append_nil, toList_mk, inorderAux_nil]
    rw [resetF_eq, getN_of_nodeAt? hat]
    simp only [BTNode.items_mk]
    obtain ⟨m, hm⟩ : ∃ m, its.length = m + 1 := ⟨its.length - 1, by omega⟩
    rw [hm]
    rw [show ((((m + 1 : Nat)) : Int)) - 1 = ((m : Nat) : Int) from by
      push_cast
      ring]
    have h0 := hstep m (by omega)
    rw [h0]
    rw [show its.take (m + 1) = its from by
      rw [← hm]
      exact List.take_of_length_le (le_refl _)]
  | internal its chs h isRoot h1 hr1 hr2 hlen hch hpair ih =>
    intro p hat fuel
    have hwnode : WFB key maxI (h + 1) isRoot (.mk its chs) :=
      WFB.internal its chs h isRoot h1 hr1 hr2 hlen hch hpair
    have hstep : ∀ j, j < chs.length →
        descFrom key (resetF key ⟨rt, (p ++ [j]) ++
            maxDescentPath (chs.getD j nilNode)⟩
            (((Loc.getN ⟨rt, (p ++ [j]) ++
              maxDescentPath (chs.getD j nilNode)⟩).items.length : Int) - 1))
          ((inorderAux (chs.take (j + 1)) (its.take j)).length + fuel) =
        (inorderAux (chs.take (j + 1)) (its.take j)).reverse ++
          descFrom key (exitContL key (⟨rt, p⟩ : Loc α)) fuel := by
      intro j
      induction j with
      | zero =>
        intro hj
        have hgd : chs.getD 0 nilNode = chs[0] :=
          List.getD_eq_getElem chs nilNode hj
        have hcat : nodeAt? rt (p ++ [0]) = some (chs[0]) :=
          nodeAt?_child hat (by
            simp only [BTNode.children_mk]
            exact hj)
        have htake : chs.take 1 = [chs[0]] := by
          rw [take_succ_eq chs 0 hj]
          simp
        rw [htake, List.take_zero]
        simp only [inorderAux_cons_nil, inorderAux_nil, List.append_nil]
        rw [hgd]
        rw [ih (chs[0]) (List.getElem_mem hj) (p ++ [0]) hcat fuel]
        rw [exitContL_snoc_first key hmax hwnode hat hj]
      | succ j ihj =>
        intro hj
        have hjlt : j < its.length := by omega
        have hj1 : j + 1 < chs.length := hj
        have hgd : chs.getD (j + 1) nilNode = chs[j + 1] :=
          List.getD_eq_getElem chs nilNode hj1
        have hcat : nodeAt? rt (p ++ [j + 1]) = some (chs[j + 1]) :=
          nodeAt?_child hat (by
            simp only [BTNode.children_mk]
            exact hj1)
        have hdecomp : inorderAux (chs.take (j + 1 + 1)) (its.take (j + 1)) =
            inorderAux (chs.take (j + 1)) (its.take j) ++
              its[j] :: (chs[j + 1]).toList := by
          rw [take_succ_eq chs (j + 1) hj1, take_succ_eq its j hjlt]
          rw [inorderAux_prefix_snoc _ _ _ _ (by
            simp only [List.length_take]
            omega)]
        have hlen2 : (inorderAux (chs.take (j + 1 + 1))
              (its.take (j + 1))).length =
            (inorderAux (chs.take (j + 1)) (its.take j)).length + 1 +
              ((chs[j + 1]).toList).length := by
          rw [hdecomp]
          simp
          omega
        rw [hgd]
        rw [show (inorderAux (chs.take (j + 1 + 1)) (its.take (j + 1))).length
            + fuel =
          ((chs[j + 1]).toList).length +
            ((((inorderAux (chs.take (j + 1)) (its.take j)).length + fuel)
              + 1)) from by omega]
        rw [ih (chs[j + 1]) (List.getElem_mem hj1) (p ++ [j + 1]) hcat
          (((inorderAux (chs.take (j + 1)) (its.take j)).length + fuel) + 1)]
        rw [exitContL_snoc_mid key hmax hwnode hat (by omega) hj1]
        rw [show (((j + 1 : Nat) : Int)) - 1 = ((j : Nat) : Int) from by
          push_cast
          ring]
        rw [descFrom_succ]
        rw [ItemM_state, getN_of_nodeAt? hat]
        simp only [BTNode.items_mk]
        rw [show (((j : Nat) : Int)).toNat = j from by omega]
        rw [List.getD_eq_getElem its default hjlt]
        rw [LastM_internal_descend key hat (show 0 < chs.length from by
          omega)]
        rw [show Loc.getN (⟨rt, p ++ [j]⟩ : Loc α) = chs.getD j nilNode from by
          rw [getN_of_nodeAt? (nodeAt?_child hat (show j <
            (BTNode.mk its chs).children.length from by
              simp only [BTNode.children_mk]
              omega))]
          simp only [BTNode.children_mk]
          rw [List.getD_eq_getElem chs nilNode (show j < chs.length from by
            omega)]]
        rw [ihj (by omega)]
        rw [hdecomp]
        simp
    cases hchs : chs with
    | nil =>
      rw [hchs] at h1
      simp at h1
    | cons c cs =>
      subst hchs
      have hlast : ((c :: cs).getLastD nilNode) = (c :: cs).getD cs.length
          nilNode := by
        rw [getLastD_eq_getElem]
        simp only [List.get_eq_getElem]
        rw [List.getD_eq_getElem _ nilNode (by simp)]
      have h0 := hstep cs.length (by simp)
      have htakec : (c :: cs).take (cs.length + 1) = c :: cs :=
        List.take_of_length_le (by simp)
      have htakei : its.take cs.length = its := by
        apply List.take_of_length_le
        simp only [List.length_cons] at h1
        omega
      rw [htakec, htakei] at h0
      simp only [toList_mk]
      rw [show maxDescentPath (BTNode.mk its (c :: cs)) =
        cs.length :: maxDescentPath ((c :: cs).getLastD nilNode) from by
          rw [maxDescentPath]]
      rw [hlast]
      rw [show p ++ (cs.length :: maxDescentPath ((c :: cs).getD cs.length
          nilNode)) =
        (p ++ [cs.length]) ++ maxDescentPath ((c :: cs).getD cs.length
          nilNode) from by simp]
      exact h0

end Btree

namespace Btree
variable {α κ : Type} [LinearOrder κ] [Inhabited α] (key : α → κ)

/-- C2: on any tree built by `Insert`/`Delete` from `New(degree)`, the
ascending walk that starts at `Min().MinIterator()` and repeatedly calls
`Next()` visits exactly the stored items in in-order (hence each exactly
once, strictly increasing under `Less`, whose derived order is the key
order), and the descending walk from `Max().MaxIterator()` with repeated
`Last()` visits exactly the reverse of that sequence (strictly
decreasing).  The walks are modelled with explicit fuel; any fuel of at
least the number of stored items yields the full traversal. -/
theorem C2_iterator_traversal (degree : Int) (hd : 2 ≤ degree)
    (ops : List (Op α)) (fuel : Nat) :
    ascFrom key (MinIteratorM key (BTree.Min (applyOps key degree ops)))
        (((applyOps key degree ops).toListT).length + fuel) =
      (applyOps key degree ops).toListT ∧
    descFrom key (MaxIteratorM key (BTree.Max (applyOps key degree ops)))
        (((applyOps key degree ops).toListT).length + fuel) =
      ((applyOps key degree ops).toListT).reverse ∧
    ((((applyOps key degree ops).toListT)).map key).Pairwise (· < ·) := by
  obtain ⟨⟨hdeg, hroot⟩, -, -⟩ := applyOps_main key degree hd ops
  have hmax : 3 ≤ (applyOps key degree ops).maxI := by
    unfold BTree.maxI
    omega
  cases hr : (applyOps key degree ops).root with
  | none =>
    refine ⟨?_, ?_, ?_⟩
    · simp only [BTree.toListT, hr, BTree.Min, MinIteratorM]
      simp [ascFrom_none]
    · simp only [BTree.toListT, hr, BTree.Max, MaxIteratorM]
      simp [descFrom_none]
    · simp only [BTree.toListT, hr]
      simp
  | some rt =>
    rw [hr] at hroot
    obtain ⟨hh, hwb, -⟩ := hroot
    have hat : nodeAt? rt ([] : List Nat) = some rt := rfl
    refine ⟨?_, ?_, ?_⟩
    · have h0 := ascWalk_sub key hmax hwb [] hat fuel
      simp only [List.nil_append] at h0
      rw [exitCont_nil, ascFrom_none, List.append_nil] at h0
      simp only [BTree.toListT, hr, BTree.Min, MinIteratorM, IteratorM]
      exact h0
    · have h0 := descWalk_sub key hmax hwb [] hat fuel
      simp only [List.nil_append] at h0
      rw [exitContL_nil, descFrom_none, List.append_nil] at h0
      simp only [BTree.toListT, hr, BTree.Max, MaxIteratorM, IteratorM]
      exact h0
    · simp only [BTree.toListT, hr]
      have := WFB_toList_sorted key hwb
      simpa [keys] using this

theorem C2_witness :
    2 ≤ (2 : Int) ∧
    ascFrom (fun z : Int => z)
        (MinIteratorM (fun z : Int => z)
          (BTree.Min (applyOps (fun z : Int => z) 2 [])))
        (((applyOps (fun z : Int => z) 2 []).toListT).length + 1) =
      (applyOps (fun z : Int => z) 2 []).toListT :=
  ⟨by norm_num,
    (C2_iterator_traversal (fun z : Int => z) 2 (by norm_num) [] 1).1⟩

end Btree
